import Mathlib

/-! # GSM receiver (`gsm_receiver_cf.cc`): burst acquisition

A shallow embedding of `src/lib/gsm_receiver_cf.cc` and theorems about it.

Conventions of the embedding.

* C `float`/`double` values are elements of an arbitrary linearly ordered field `α`
  (exact arithmetic); C `int` values are unbounded `Int`.
* Pointers into sample buffers are total functions `Int → gr_complex α`.
* What the file takes from headers that are not part of the source tree
  (`FCCH_HITS_NEEDED`, `FRAME_BITS`, ...) is a field of `gsm_constants`;
  what it calls in other libraries (`gr_fast_atan2f`, `std::abs`, `M_PI`,
  `viterbi_detector`, `decode_sch`) is a field of `externals`.
* The receiver object is the record `receiver`; every call of a routine of the
  class and of an external collaborator is appended to its field `trace`.
-/

namespace GsmReceiver

/-! ## Complex samples -/

/-- A complex sample (`gr_complex`, that is `std::complex<float>`). -/
@[ext]
structure gr_complex (α : Type) where
  re : α
  im : α
deriving DecidableEq, Repr

namespace gr_complex

variable {α : Type}

instance [Zero α] : Zero (gr_complex α) := ⟨⟨0, 0⟩⟩
instance [Add α] : Add (gr_complex α) := ⟨fun a b => ⟨a.re + b.re, a.im + b.im⟩⟩
instance [Neg α] : Neg (gr_complex α) := ⟨fun a => ⟨-a.re, -a.im⟩⟩
instance [Add α] [Sub α] [Mul α] : Mul (gr_complex α) :=
  ⟨fun a b => ⟨a.re * b.re - a.im * b.im, a.re * b.im + a.im * b.re⟩⟩

instance [AddCommMonoid α] : AddCommMonoid (gr_complex α) where
  add_assoc a b c := gr_complex.ext (add_assoc a.re b.re c.re) (add_assoc a.im b.im c.im)
  zero_add a := gr_complex.ext (zero_add a.re) (zero_add a.im)
  add_zero a := gr_complex.ext (add_zero a.re) (add_zero a.im)
  add_comm a b := gr_complex.ext (add_comm a.re b.re) (add_comm a.im b.im)
  nsmul := nsmulRec

/-- The complex conjugate, `conj(z)`. -/
def conj [Neg α] (z : gr_complex α) : gr_complex α := ⟨z.re, -z.im⟩

/-- The quotient of two complex numbers, `operator/` of `std::complex`. -/
def cdiv [Add α] [Sub α] [Mul α] [Div α] (a b : gr_complex α) : gr_complex α :=
  ⟨(a.re * b.re + a.im * b.im) / (b.re * b.re + b.im * b.im),
   (a.im * b.re - a.re * b.im) / (b.re * b.re + b.im * b.im)⟩

/-- The squared magnitude of a complex number. -/
def normSq [Add α] [Mul α] (z : gr_complex α) : α := z.re * z.re + z.im * z.im

end gr_complex

/-! ## Constants and external routines -/

/-- The constants the source takes from `gsm_receiver_cf.h` and `gsm_constants.h`. -/
structure gsm_constants where
  FCCH_HITS_NEEDED : Int
  FCCH_MAX_MISSES : Int
  FRAME_BITS : Int
  SAFETY_MARGIN : Int
  TS_BITS : Int
  SYNC_POS : Int
  N_SYNC_BITS : Int
  BURST_SIZE : Int
  SYNC_BITS : List Int

/-- `#define FCCH_BUFFER_SIZE (FCCH_HITS_NEEDED)`. -/
def FCCH_BUFFER_SIZE (K : gsm_constants) : Int := K.FCCH_HITS_NEEDED

/-- `#define SYNC_SEARCH_RANGE 40`. -/
def SYNC_SEARCH_RANGE : Int := 40

/-- The library routines the source calls. -/
structure externals (α : Type) where
  /-- The constant `M_PI` of `math.h`. -/
  M_PI : α
  /-- The four-quadrant arctangent `gr_fast_atan2f(y, x)` of GNU Radio. -/
  gr_fast_atan2f : α → α → α
  /-- The magnitude of a complex number, `abs` of `std::complex`. -/
  abs : gr_complex α → α
  /-- The sequence detector: `viterbi_detector(input, samples_num, rhh, start_state,
  stop_states, stops_num, output)`, returning the soft decisions it writes to `output`. -/
  viterbi_detector : List (gr_complex α) → Int → List (gr_complex α) → Int → List Int → Int → List α
  /-- The SCH decoder: `decode_sch(buf, &fn_o, &bsic_o)`, returning `(fn_o, bsic_o)`. -/
  decode_sch : List Bool → Int × Int

/-! ## The receiver object -/

/-- The acquisition state `d_state`. -/
inductive states where
  | first_fcch_search
  | next_fcch_search
  | sch_search
  | read_bcch
deriving DecidableEq, Repr

/-- One call of a routine, as recorded in the trace of the receiver. -/
inductive call (α : Type) where
  | find_fcch_burst
  | find_sch_burst
  | compute_freq_offset
  | set_frequency (freq_offset : α)
  | consume_each (how_many_items : Int)
  | correlate_sequence
  | autocorrelation
  | mafi
  | viterbi_detector
  | decode_sch
deriving DecidableEq, Repr

/-- The member variables of `gsm_receiver_cf`, with the trace of calls made so far. -/
structure receiver (α : Type) where
  d_OSR : Int
  d_counter : Int
  d_fcch_start_pos : Int
  d_freq_offset : α
  d_state : states
  d_fcch_count : Int
  d_x_temp : α
  d_x2_temp : α
  d_mean : α
  d_best_sum : α
  d_sch_training_seq : List (gr_complex α)
  d_channel_imp_resp : List (gr_complex α)
  trace : List (call α)

variable {α : Type} [LinearOrderedField α]

/-- Append a call to the trace of the receiver. -/
def receiver.log (self : receiver α) (c : call α) : receiver α :=
  { self with trace := self.trace ++ [c] }

/-- The routine `gr_block::consume_each` of the streaming framework: only recorded. -/
def consume_each (self : receiver α) (how_many_items : Int) : receiver α :=
  self.log (call.consume_each how_many_items)

/-- The method `gsm_receiver_cf::set_frequency`: `d_tuner->calleval(freq_offset)`, only recorded. -/
def set_frequency (self : receiver α) (freq_offset : α) : receiver α :=
  self.log (call.set_frequency freq_offset)

/-- The method `gsm_receiver_cf::compute_phase_diff`. -/
def compute_phase_diff (E : externals α) (val1 val2 : gr_complex α) : α :=
  let conjprod := val1 * gr_complex.conj val2
  E.gr_fast_atan2f conjprod.im conjprod.re

/-- The method `gsm_receiver_cf::compute_freq_offset`: the new receiver and the returned offset. -/
def compute_freq_offset (K : gsm_constants) (E : externals α) (self : receiver α) :
    receiver α × α :=
  let self := self.log call.compute_freq_offset
  let phase_offset := self.d_best_sum / (K.FCCH_HITS_NEEDED : α)
  let freq_offset := phase_offset * 1625000 / (12 * E.M_PI)
  let self := { self with d_freq_offset := self.d_freq_offset - freq_offset }
  let self := { self with d_fcch_count := self.d_fcch_count + 1 }
  let self := { self with d_x_temp := self.d_x_temp + freq_offset }
  let self := { self with d_x2_temp := self.d_x2_temp + freq_offset * freq_offset }
  let self := { self with d_mean := self.d_x_temp / (self.d_fcch_count : α) }
  (self, freq_offset)

/-! ## FCCH burst search -/

/-- The bounded buffer `boost::circular_buffer<float>`: `push_back` on a full buffer
overwrites the oldest element, and does nothing when the capacity is zero. The list holds
the elements from the oldest (`begin()`) to the newest. -/
def circular_push_back (capacity : Nat) (buf : List α) (x : α) : List α :=
  if buf.length < capacity then buf ++ [x]
  else if capacity = 0 then buf
  else buf.tail ++ [x]

/-- The value `*min_element(begin, end)`: the least element (0 stands for the
dereferenced end iterator of an empty range). -/
def min_element (buf : List α) : α := buf.tail.foldl min (buf.headD 0)

/-- The value `*max_element(begin, end)`: the greatest element (0 stands for the
dereferenced end iterator of an empty range). -/
def max_element (buf : List α) : α := buf.tail.foldl max (buf.headD 0)

/-- The `enum states` local to `find_fcch_burst`. -/
inductive fcch_states where
  | init
  | search
  | found_something
  | fcch_found
  | search_fail
deriving DecidableEq, Repr

/-- The receiver together with the local variables of `find_fcch_burst`. -/
structure fcch_config (α : Type) where
  self : receiver α
  phase_diff_buffer : List α
  phase_diff : α
  hit_count : Int
  miss_count : Int
  start_pos : Int
  lowest_max_min_diff : α
  to_consume : Int
  sample_number : Int
  end_ : Bool
  result : Bool
  fcch_search_state : fcch_states

/-- The local variables of `find_fcch_burst` as initialised before the loop. -/
def fcch_start (self : receiver α) : fcch_config α :=
  { self := self
    phase_diff_buffer := []
    phase_diff := 0
    hit_count := 0
    miss_count := 0
    start_pos := -1
    lowest_max_min_diff := 99999
    to_consume := 0
    sample_number := 0
    end_ := false
    result := false
    fcch_search_state := fcch_states.init }

/-- The sum `d_best_sum` accumulated over the buffer (lines 226 to 232). -/
def best_sum (E : externals α) (d_OSR : Int) (buf : List α) : α :=
  buf.foldl (fun acc x => acc + (x - (E.M_PI / 2) / (d_OSR : α))) 0

/-- The `case init` of the loop (lines 173 to 181). -/
def fcch_init (c : fcch_config α) : fcch_config α :=
  { c with
    hit_count := 0
    miss_count := 0
    start_pos := -1
    lowest_max_min_diff := 99999
    phase_diff_buffer := []
    fcch_search_state := fcch_states.search }

/-- The `case search` of the loop (lines 183 to 200). -/
def fcch_search (K : gsm_constants) (E : externals α) (inp : Int → gr_complex α) (nitems : Int)
    (c : fcch_config α) : fcch_config α :=
  let c := { c with sample_number := c.sample_number + 1 }
  if c.sample_number > nitems - FCCH_BUFFER_SIZE K * c.self.d_OSR then
    { c with
      to_consume := c.sample_number
      fcch_search_state := fcch_states.search_fail }
  else
    let c := { c with
      phase_diff := compute_phase_diff E (inp c.sample_number) (inp (c.sample_number - 1)) }
    if c.phase_diff > 0 then
      { c with
        to_consume := c.sample_number
        fcch_search_state := fcch_states.found_something }
    else
      { c with fcch_search_state := fcch_states.search }

/-- The hit and miss counting that opens `case found_something` (lines 203 to 207). -/
def fcch_count (c : fcch_config α) : fcch_config α :=
  if c.phase_diff > 0 then { c with hit_count := c.hit_count + 1 }
  else { c with miss_count := c.miss_count + 1 }

/-- The body of the third branch of `case found_something` (lines 220 to 233): the spread
of the buffer is compared with the lowest one seen, and the candidate is recorded. -/
def fcch_best_candidate (K : gsm_constants) (E : externals α) (c : fcch_config α) :
    fcch_config α :=
  let min_phase_diff := min_element c.phase_diff_buffer
  let max_phase_diff := max_element c.phase_diff_buffer
  if c.lowest_max_min_diff > max_phase_diff - min_phase_diff then
    { c with
      lowest_max_min_diff := max_phase_diff - min_phase_diff
      start_pos := c.sample_number - K.FCCH_HITS_NEEDED * c.self.d_OSR
        - K.FCCH_MAX_MISSES * c.self.d_OSR
      self := { c.self with d_best_sum := best_sum E c.self.d_OSR c.phase_diff_buffer } }
  else c

/-- The end of `case found_something` (lines 236 to 246): the next sample is taken and its
phase difference pushed into the buffer. -/
def fcch_next_sample (K : gsm_constants) (E : externals α) (inp : Int → gr_complex α)
    (nitems : Int) (c : fcch_config α) : fcch_config α :=
  let c := { c with sample_number := c.sample_number + 1 }
  if c.sample_number ≥ nitems then
    { c with fcch_search_state := fcch_states.search_fail }
  else
    let c := { c with
      phase_diff := compute_phase_diff E (inp c.sample_number) (inp (c.sample_number - 1)) }
    { c with
      phase_diff_buffer :=
        circular_push_back (FCCH_BUFFER_SIZE K * c.self.d_OSR).toNat c.phase_diff_buffer
          c.phase_diff
      fcch_search_state := fcch_states.found_something }

/-- The `case found_something` of the loop (lines 202 to 248). -/
def fcch_found_something (K : gsm_constants) (E : externals α) (inp : Int → gr_complex α)
    (nitems : Int) (c : fcch_config α) : fcch_config α :=
  let c := fcch_count c
  if c.miss_count ≥ K.FCCH_MAX_MISSES * c.self.d_OSR
      ∧ c.hit_count ≤ K.FCCH_HITS_NEEDED * c.self.d_OSR then
    { c with fcch_search_state := fcch_states.init }
  else if (c.miss_count ≥ K.FCCH_MAX_MISSES * c.self.d_OSR
        ∧ c.hit_count > K.FCCH_HITS_NEEDED * c.self.d_OSR)
      ∨ c.hit_count > 2 * K.FCCH_HITS_NEEDED * c.self.d_OSR then
    { c with fcch_search_state := fcch_states.fcch_found }
  else if c.miss_count < K.FCCH_MAX_MISSES * c.self.d_OSR
      ∧ c.hit_count > K.FCCH_HITS_NEEDED * c.self.d_OSR then
    fcch_next_sample K E inp nitems (fcch_best_candidate K E c)
  else
    fcch_next_sample K E inp nitems c

/-- The `case fcch_found` of the loop (lines 250 to 260). -/
def fcch_fcch_found (K : gsm_constants) (E : externals α) (c : fcch_config α) :
    fcch_config α :=
  let c := { c with to_consume := c.start_pos + K.FCCH_HITS_NEEDED * c.self.d_OSR + 1 }
  let c := { c with self := { c.self with d_fcch_start_pos := c.self.d_counter + c.start_pos } }
  let c := { c with self := (compute_freq_offset K E c.self).1 }
  { c with end_ := true, result := true }

/-- The `case search_fail` of the loop (lines 262 to 265). -/
def fcch_search_fail (c : fcch_config α) : fcch_config α :=
  { c with end_ := true, result := false }

/-- One iteration of the `while (!end)` loop of `find_fcch_burst`: the `switch` on
`fcch_search_state`. -/
def fcch_step (K : gsm_constants) (E : externals α) (inp : Int → gr_complex α) (nitems : Int)
    (c : fcch_config α) : fcch_config α :=
  match c.fcch_search_state with
  | fcch_states.init => fcch_init c
  | fcch_states.search => fcch_search K E inp nitems c
  | fcch_states.found_something => fcch_found_something K E inp nitems c
  | fcch_states.fcch_found => fcch_fcch_found K E c
  | fcch_states.search_fail => fcch_search_fail c

/-- A quantity that decreases at every iteration of the loop of `find_fcch_burst`:
`sample_number` never passes `nitems` (nor `nitems - FCCH_BUFFER_SIZE * d_OSR`, should that
be larger) without the search failing. -/
def fcch_measure (K : gsm_constants) (nitems : Int) (c : fcch_config α) : Nat :=
  let room := (nitems + 1 + (-(FCCH_BUFFER_SIZE K * c.self.d_OSR)).toNat - c.sample_number).toNat
  if c.end_ then 0
  else
    match c.fcch_search_state with
    | fcch_states.fcch_found => 1
    | fcch_states.search_fail => 1
    | fcch_states.search => 2 + 3 * room
    | fcch_states.init => 3 + 3 * room
    | fcch_states.found_something => 4 + 3 * room

/-- The loop `while (!end)` of `find_fcch_burst`. -/
def fcch_loop (K : gsm_constants) (E : externals α) (inp : Int → gr_complex α) (nitems : Int)
    (c : fcch_config α) : fcch_config α :=
  if c.end_ = true then c
  else fcch_loop K E inp nitems (fcch_step K E inp nitems c)
termination_by fcch_measure K nitems c
decreasing_by
  rename_i hend
  have h : c.end_ = false := by simpa using hend
  have hs : ∀ d : fcch_config α, fcch_measure K nitems (fcch_search K E inp nitems d)
      < 2 + 3 * (nitems + 1 + (-(FCCH_BUFFER_SIZE K * d.self.d_OSR)).toNat
          - d.sample_number).toNat := by
    intro d
    unfold fcch_search fcch_measure
    dsimp only
    split_ifs <;> dsimp only at * <;> omega
  have hn : ∀ d : fcch_config α, fcch_measure K nitems (fcch_next_sample K E inp nitems d)
      < 4 + 3 * (nitems + 1 + (-(FCCH_BUFFER_SIZE K * d.self.d_OSR)).toNat
          - d.sample_number).toNat := by
    intro d
    unfold fcch_next_sample fcch_measure
    dsimp only
    split_ifs <;> dsimp only at * <;> omega
  have hb := hn (fcch_count c)
  have hc := hn (fcch_best_candidate K E (fcch_count c))
  have e1 : (fcch_count c).self = c.self := by unfold fcch_count; split_ifs <;> rfl
  have e2 : (fcch_count c).sample_number = c.sample_number := by
    unfold fcch_count; split_ifs <;> rfl
  have e3 : (fcch_best_candidate K E (fcch_count c)).self.d_OSR = c.self.d_OSR := by
    unfold fcch_best_candidate; dsimp only; split_ifs <;> simp [e1]
  have e4 : (fcch_best_candidate K E (fcch_count c)).sample_number = c.sample_number := by
    unfold fcch_best_candidate; dsimp only; split_ifs <;> simp [e2]
  rw [e1, e2] at hb
  rw [e3, e4] at hc
  unfold fcch_step
  rcases hst : c.fcch_search_state with _ | _ | _ | _ | _ <;> simp only [hst]
  · have key : fcch_measure K nitems c = 3 + 3 * (nitems + 1
        + (-(FCCH_BUFFER_SIZE K * c.self.d_OSR)).toNat - c.sample_number).toNat := by
      unfold fcch_measure; rw [h, hst]; rfl
    rw [key]
    simp [fcch_measure, fcch_init, h]
  · have key : fcch_measure K nitems c = 2 + 3 * (nitems + 1
        + (-(FCCH_BUFFER_SIZE K * c.self.d_OSR)).toNat - c.sample_number).toNat := by
      unfold fcch_measure; rw [h, hst]; rfl
    rw [key]
    exact hs c
  · have key : fcch_measure K nitems c = 4 + 3 * (nitems + 1
        + (-(FCCH_BUFFER_SIZE K * c.self.d_OSR)).toNat - c.sample_number).toNat := by
      unfold fcch_measure; rw [h, hst]; rfl
    rw [key]
    unfold fcch_found_something
    dsimp only
    split_ifs
    · simp only [fcch_measure, e1, e2]
      split_ifs <;> omega
    · simp only [fcch_measure]
      split_ifs <;> omega
    · exact hc
    · exact hb
  · have key : fcch_measure K nitems c = 1 := by
      unfold fcch_measure; rw [h, hst]; rfl
    rw [key]
    simp [fcch_measure, fcch_fcch_found]
  · have key : fcch_measure K nitems c = 1 := by
      unfold fcch_measure; rw [h, hst]; rfl
    rw [key]
    simp [fcch_measure, fcch_search_fail]

/-- The method `gsm_receiver_cf::find_fcch_burst`: the receiver after the call and the
returned flag. -/
def find_fcch_burst (K : gsm_constants) (E : externals α) (self : receiver α)
    (inp : Int → gr_complex α) (nitems : Int) : receiver α × Bool :=
  let self := self.log call.find_fcch_burst
  let c := fcch_loop K E inp nitems (fcch_start self)
  let self := { c.self with d_counter := c.self.d_counter + c.to_consume }
  let self := consume_each self c.to_consume
  (self, c.result)

/-! ## Correlator and filter kernels -/

/-- Reading `a[i]` in an array held as a list (0 outside the list). -/
def array_at {β : Type} [Zero β] (a : List β) (i : Int) : β :=
  if 0 ≤ i then a.getD i.toNat 0 else 0

/-- The method `gsm_receiver_cf::gmsk_mapper`: the array `output` it fills. The loop state
is `previous_symbol` and the output written so far. -/
def gmsk_mapper (input : Int → Int) (ninput : Int) : List (gr_complex α) :=
  let j : gr_complex α := ⟨0, 1⟩
  let previous_symbol : Int := 2 * input 0 - 1
  let output : List (gr_complex α) := [⟨1, 0⟩]
  ((List.range (ninput.toNat - 1)).foldl
    (fun (st : Int × List (gr_complex α)) (k : Nat) =>
      let i : Int := k + 1
      let current_symbol := 2 * input i - 1
      let encoded_symbol := current_symbol * st.1
      (current_symbol, st.2 ++ [j * ⟨(encoded_symbol : α), 0⟩ * array_at st.2 (i - 1)]))
    (previous_symbol, output)).2

/-- The method `gsm_receiver_cf::correlate_sequence`. -/
def correlate_sequence (d_OSR : Int) (sequence : Int → gr_complex α)
    (input_signal : Int → gr_complex α) (length : Int) : gr_complex α :=
  let result := (List.range length.toNat).foldl
    (fun (result : gr_complex α) (ii : Nat) =>
      result + sequence ii * gr_complex.conj (input_signal ((ii : Int) * d_OSR))) 0
  gr_complex.cdiv result ⟨(length : α), 0⟩

/-- The inner loop of `autocorrelation`: `out[k]` after `i` has run from `k` to `length - 1`. -/
def autocorrelation_lag (input : Nat → gr_complex α) (length k : Nat) : gr_complex α :=
  (List.range' k (length - k)).foldl
    (fun (acc : gr_complex α) (i : Nat) => acc + input i * gr_complex.conj (input (i - k))) 0

/-- The method `gsm_receiver_cf::autocorrelation`: the array `out`, entries `0` to
`length - 1` (the source fills them from the last to the first, each on its own). -/
def autocorrelation (input : Nat → gr_complex α) (length : Int) : List (gr_complex α) :=
  (List.range length.toNat).map (autocorrelation_lag input length.toNat)

/-- The `while (ii < filter_length)` loop of `mafi` with its `break`; `todo` is the number
of taps left, `filter_length - ii`. -/
def mafi_taps (d_OSR input_length : Int) (input filter : Int → gr_complex α) (a : Int) :
    (todo : Nat) → (ii : Int) → gr_complex α → gr_complex α
  | 0, _, acc => acc
  | todo + 1, ii, acc =>
    if a + ii ≥ input_length * d_OSR then acc
    else mafi_taps d_OSR input_length input filter a todo (ii + 1) (acc + input (a + ii) * filter ii)

/-- The method `gsm_receiver_cf::mafi`: the array `output`, entries `0` to `input_length - 1`. -/
def mafi (d_OSR : Int) (input : Int → gr_complex α) (input_length : Int)
    (filter : Int → gr_complex α) (filter_length : Int) : List (gr_complex α) :=
  (List.range input_length.toNat).map (fun (n : Nat) =>
    let a : Int := n * d_OSR
    mafi_taps d_OSR input_length input filter a filter_length.toNat 0 0 * ⟨0, -1⟩)

/-! ## SCH burst search -/

/-- The `enum states` local to `find_sch_burst`. -/
inductive sch_states where
  | start
  | reach_sch
  | find_sch_start
  | search_not_finished
  | sch_found
deriving DecidableEq, Repr

/-- The values held at entry by the locals that `find_sch_burst` declares without an
initialiser. -/
structure sch_uninitialised where
  strongest_window_nr : Int
  chan_imp_resp_center : Int
  fn_o : Int
  bsic_o : Int

/-- The receiver together with the local variables of `find_sch_burst`. -/
structure sch_config (α : Type) where
  self : receiver α
  to_consume : Int
  end_ : Bool
  result : Bool
  sample_nr_near_sch_start : Int
  correlation_buffer : List (gr_complex α)
  power_buffer : List α
  window_energy_buffer : List α
  strongest_window_nr : Int
  chan_imp_resp_center : Int
  max_correlation : α
  chan_imp_length : Int
  chan_imp_resp : List (gr_complex α)
  rhh_temp : List (gr_complex α)
  rhh : List (gr_complex α)
  filtered_burst : List (gr_complex α)
  fn_o : Int
  bsic_o : Int
  burst_start : Int
  output : List α
  output_binary : List Bool
  sch_search_state : sch_states

/-- The local variables of `find_sch_burst` as initialised before the loop (lines 309 to 341). -/
def sch_start (K : gsm_constants) (U : sch_uninitialised) (self : receiver α) : sch_config α :=
  { self := self
    to_consume := 0
    end_ := false
    result := false
    sample_nr_near_sch_start :=
      self.d_fcch_start_pos + (K.FRAME_BITS - K.SAFETY_MARGIN) * self.d_OSR
    correlation_buffer := []
    power_buffer := []
    window_energy_buffer := []
    strongest_window_nr := U.strongest_window_nr
    chan_imp_resp_center := U.chan_imp_resp_center
    max_correlation := 0
    chan_imp_length := 5
    chan_imp_resp := []
    rhh_temp := []
    rhh := []
    filtered_burst := []
    fn_o := U.fn_o
    bsic_o := U.bsic_o
    burst_start := 0
    output := []
    output_binary := []
    sch_search_state := sch_states.start }

/-- One pass through the body of the correlation loop of `case find_sch_start` (lines 367
to 373), for `ii = SYNC_POS * d_OSR + k`; the test of line 371 guards an empty block. -/
def sch_correlate_at (K : gsm_constants) (E : externals α) (inp : Int → gr_complex α)
    (c : sch_config α) (k : Nat) : sch_config α :=
  let ii : Int := K.SYNC_POS * c.self.d_OSR + k
  let c := { c with to_consume := c.to_consume + 1 }
  let correlation := correlate_sequence c.self.d_OSR
    (fun i => array_at c.self.d_sch_training_seq (5 + i)) (fun i => inp (ii + i))
    (K.N_SYNC_BITS - 10)
  { c with
    self := c.self.log call.correlate_sequence
    correlation_buffer := c.correlation_buffer ++ [correlation]
    power_buffer := c.power_buffer ++ [E.abs correlation ^ 2] }

/-- The correlation loop of `case find_sch_start` (lines 366 to 374). -/
def sch_correlate (K : gsm_constants) (E : externals α) (inp : Int → gr_complex α)
    (c : sch_config α) : sch_config α :=
  (List.range ((K.SYNC_POS + SYNC_SEARCH_RANGE) * c.self.d_OSR
      - K.SYNC_POS * c.self.d_OSR).toNat).foldl (sch_correlate_at K E inp) c

/-- The inner `for` loop of the window energies (lines 383 to 389): the energy of the
window of `todo` further entries, or nothing when the end of the power buffer is met
(`loop_end`). -/
def window_energy : (todo : Nat) → List α → α → Option α
  | 0, _, energy => some energy
  | _ + 1, [], _ => none
  | todo + 1, x :: iter_ii, energy => window_energy todo iter_ii (energy + x)

/-- The `while (iter != power_buffer.end())` loop of the window energies (lines 378 to 398):
the entries it pushes to `window_energy_buffer`; the argument is the power buffer from
`iter` on. -/
def window_energies (window_len : Nat) : List α → List α
  | [] => []
  | x :: iter =>
    match window_energy window_len (x :: iter) 0 with
    | none => []
    | some energy => energy :: window_energies window_len iter

/-- The scan of `std::max_element`: the position of the first greatest element, `largest`
being the position found so far and `value` the element there. -/
def max_element_scan : List α → (pos largest : Nat) → (value : α) → Nat
  | [], _, largest, _ => largest
  | x :: rest, pos, largest, value =>
    if value < x then max_element_scan rest (pos + 1) pos x
    else max_element_scan rest (pos + 1) largest value

/-- The index `max_element(begin, end) - begin` (0 for an empty range). -/
def max_element_index : List α → Nat
  | [] => 0
  | x :: rest => max_element_scan rest 1 0 x

/-- One pass through the body of the loop that extracts the channel impulse response (lines
410 to 417). -/
def sch_chan_imp_resp_at (E : externals α) (c : sch_config α) (ii : Nat) : sch_config α :=
  let correlation := array_at c.correlation_buffer (c.strongest_window_nr + ii)
  let c :=
    if E.abs correlation > c.max_correlation then
      { c with chan_imp_resp_center := ii, max_correlation := E.abs correlation }
    else c
  { c with
    self := { c.self with d_channel_imp_resp := c.self.d_channel_imp_resp ++ [correlation] }
    chan_imp_resp := c.chan_imp_resp ++ [correlation] }

/-- The loop that extracts the channel impulse response and its centre (lines 408 to 418). -/
def sch_chan_imp_resp (E : externals α) (c : sch_config α) : sch_config α :=
  let c := { c with max_correlation := 0 }
  (List.range (c.chan_imp_length * c.self.d_OSR).toNat).foldl (sch_chan_imp_resp_at E) c

/-- The `case find_sch_start` of the loop (lines 364 to 475). -/
def sch_find_sch_start (K : gsm_constants) (E : externals α) (inp : Int → gr_complex α)
    (c : sch_config α) : sch_config α :=
  let d_OSR := c.self.d_OSR
  let c := sch_correlate K E inp c
  let c := { c with
    window_energy_buffer :=
      c.window_energy_buffer ++ window_energies (c.chan_imp_length * d_OSR).toNat c.power_buffer }
  let c := { c with strongest_window_nr := max_element_index c.window_energy_buffer }
  let c := { c with self := { c.self with d_channel_imp_resp := [] } }
  let c := sch_chan_imp_resp E c
  let c := { c with
    self := c.self.log call.autocorrelation
    rhh_temp := autocorrelation (fun i => array_at c.chan_imp_resp i) (c.chan_imp_length * d_OSR) }
  let c := { c with
    rhh := (List.range c.chan_imp_length.toNat).map
      (fun (ii : Nat) => gr_complex.conj (array_at c.rhh_temp ((ii : Int) * d_OSR))) }
  let c := { c with
    burst_start := c.strongest_window_nr + c.chan_imp_resp_center - 48 * d_OSR - 2 * d_OSR + 2
      + K.SYNC_POS * d_OSR }
  let c := { c with
    self := c.self.log call.mafi
    filtered_burst := mafi d_OSR (fun i => inp (c.burst_start + i)) 148
      (fun i => array_at c.chan_imp_resp i) (c.chan_imp_length * d_OSR) }
  let c := { c with
    self := c.self.log call.viterbi_detector
    output := E.viterbi_detector c.filtered_burst 148 c.rhh 3 [4, 12] 2 }
  let c := { c with
    output_binary := (List.range K.BURST_SIZE.toNat).map
      (fun (i : Nat) => decide (array_at c.output i > 0)) }
  let decoded := E.decode_sch (c.output_binary.drop 3)
  { c with
    self := c.self.log call.decode_sch
    fn_o := decoded.1
    bsic_o := decoded.2
    sch_search_state := sch_states.sch_found }

/-- One iteration of the `while (!end)` loop of `find_sch_burst`: the `switch` on
`sch_search_state`. -/
def sch_step (K : gsm_constants) (E : externals α) (inp : Int → gr_complex α) (nitems : Int)
    (c : sch_config α) : sch_config α :=
  match c.sch_search_state with
  | sch_states.start =>
    if c.self.d_counter < c.sample_nr_near_sch_start then
      { c with sch_search_state := sch_states.reach_sch }
    else
      { c with sch_search_state := sch_states.find_sch_start }
  | sch_states.reach_sch =>
    let c :=
      if c.self.d_counter + nitems ≥ c.sample_nr_near_sch_start then
        { c with to_consume := c.sample_nr_near_sch_start - c.self.d_counter }
      else
        { c with to_consume := nitems }
    { c with sch_search_state := sch_states.search_not_finished }
  | sch_states.find_sch_start => sch_find_sch_start K E inp c
  | sch_states.search_not_finished => { c with result := false, end_ := true }
  | sch_states.sch_found => { c with result := true, end_ := true }

/-- A quantity that decreases at every iteration of the loop of `find_sch_burst`. -/
def sch_measure (c : sch_config α) : Nat :=
  if c.end_ then 0
  else
    match c.sch_search_state with
    | sch_states.start => 3
    | sch_states.reach_sch => 2
    | sch_states.find_sch_start => 2
    | sch_states.search_not_finished => 1
    | sch_states.sch_found => 1

/-- The loop `while (!end)` of `find_sch_burst`. -/
def sch_loop (K : gsm_constants) (E : externals α) (inp : Int → gr_complex α) (nitems : Int)
    (c : sch_config α) : sch_config α :=
  if c.end_ = true then c
  else sch_loop K E inp nitems (sch_step K E inp nitems c)
termination_by sch_measure c
decreasing_by
  rename_i h
  have h : c.end_ = false := by simpa using h
  unfold sch_measure sch_step
  rcases hst : c.sch_search_state with _ | _ | _ | _ | _ <;> simp only [h, hst]
  · split_ifs <;> simp_all
  · split_ifs <;> simp_all
  · unfold sch_find_sch_start
    dsimp only
    split_ifs <;> first | omega | simp_all
  · simp
  · simp

/-- The method `gsm_receiver_cf::find_sch_burst`: the receiver after the call and the
returned flag (the argument `out` is not used by the source). -/
def find_sch_burst (K : gsm_constants) (E : externals α) (U : sch_uninitialised)
    (self : receiver α) (inp : Int → gr_complex α) (nitems : Int) : receiver α × Bool :=
  let self := self.log call.find_sch_burst
  let c := sch_loop K E inp nitems (sch_start K U self)
  let self := { c.self with d_counter := c.self.d_counter + c.to_consume }
  let self := consume_each self c.to_consume
  (self, c.result)

/-- The local variables of `find_sch_burst`, with the receiver, when its loop has ended. -/
def find_sch_burst_locals (K : gsm_constants) (E : externals α) (U : sch_uninitialised)
    (self : receiver α) (inp : Int → gr_complex α) (nitems : Int) : sch_config α :=
  sch_loop K E inp nitems (sch_start K U (self.log call.find_sch_burst))

/-! ## The acquisition state machine -/

/-- The method `gsm_receiver_cf::general_work`, with `inp` for `input_items[0]` and
`ninput_items` for `ninput_items[0]`: the receiver after the call and the returned
`produced_out`. The `abs` of line 115 is the absolute value. -/
def general_work (K : gsm_constants) (E : externals α) (U : sch_uninitialised)
    (self : receiver α) (inp : Int → gr_complex α) (ninput_items : Int) : receiver α × Int :=
  match self.d_state with
  | states.first_fcch_search =>
    let r := find_fcch_burst K E self inp ninput_items
    let self := r.1
    if r.2 = true then
      let self := set_frequency self self.d_freq_offset
      ({ self with d_state := states.next_fcch_search }, 0)
    else
      ({ self with d_state := states.first_fcch_search }, 0)
  | states.next_fcch_search =>
    let r := find_fcch_burst K E self inp ninput_items
    let self := r.1
    if r.2 = true then
      let self := if |self.d_freq_offset| > 100 then set_frequency self self.d_freq_offset else self
      ({ self with d_state := states.sch_search }, 0)
    else
      ({ self with d_state := states.next_fcch_search }, 0)
  | states.sch_search =>
    let r := find_sch_burst K E U self inp ninput_items
    let self := r.1
    if r.2 = true then
      ({ self with d_state := states.next_fcch_search }, 0)
    else
      ({ self with d_state := states.sch_search }, 0)
  | states.read_bcch =>
    (consume_each self ninput_items, 0)

/-- The constructor `gsm_receiver_cf::gsm_receiver_cf(tuner, osr)`; `d_mean` and `d_best_sum`
are not in its initialiser list and hold the values given here. -/
def gsm_receiver_cf (K : gsm_constants) (osr : Int) (d_mean d_best_sum : α) : receiver α :=
  { d_OSR := osr
    d_counter := 0
    d_fcch_start_pos := 0
    d_freq_offset := 0
    d_state := states.first_fcch_search
    d_fcch_count := 0
    d_x_temp := 0
    d_x2_temp := 0
    d_mean := d_mean
    d_best_sum := d_best_sum
    d_sch_training_seq := gmsk_mapper (fun i => array_at K.SYNC_BITS i) K.N_SYNC_BITS
    d_channel_imp_resp := []
    trace := [] }

/-! ## Notions used in the statements -/

/-- The number of input samples reported as consumed through `consume_each` in a trace. -/
def consumed (t : List (call α)) : Int :=
  (t.map (fun e =>
    match e with
    | call.consume_each how_many_items => how_many_items
    | _ => 0)).sum

/-- The arguments of the calls of `set_frequency` in a trace, in order. -/
def tuner_calls (t : List (call α)) : List α :=
  t.filterMap (fun e =>
    match e with
    | call.set_frequency freq_offset => some freq_offset
    | _ => none)

/-- The frame of the loop of `find_fcch_burst`: until `fcch_found` is executed the result is
false and the receiver differs from the initial one in `d_best_sum` at most; `fcch_found`
sets `d_fcch_start_pos`, calls `compute_freq_offset` and sets `to_consume`. -/
def fcch_frame (K : gsm_constants) (E : externals α) (self0 : receiver α)
    (c : fcch_config α) : Prop :=
  (c.end_ = false → c.result = false) ∧
  (c.result = false → ∃ b, c.self = { self0 with d_best_sum := b }) ∧
  (c.result = true → ∃ b, c.self = (compute_freq_offset K E
      { self0 with d_best_sum := b, d_fcch_start_pos := self0.d_counter + c.start_pos }).1
    ∧ c.to_consume = c.start_pos + K.FCCH_HITS_NEEDED * self0.d_OSR + 1)

/-- The phase difference `compute_phase_diff(in[s], in[s-1])` found at sample `s`. -/
def phase_diff_at (E : externals α) (inp : Int → gr_complex α) (s : Int) : α :=
  compute_phase_diff E (inp s) (inp (s - 1))

/-- The `n` phase differences found at the samples `s - n + 1, ..., s`, in this order. -/
def phase_window (E : externals α) (inp : Int → gr_complex α) (s : Int) (n : Nat) : List α :=
  (List.range n).map (fun (i : Nat) => phase_diff_at E inp (s - n + 1 + i))

/-- The counting invariant of the loop of `find_fcch_burst`, for `W = FCCH_HITS_NEEDED *
d_OSR` and `M = FCCH_MAX_MISSES * d_OSR`. In `found_something`, before the phase difference
of the current sample is counted, `hit_count + miss_count` samples have been counted since
the candidate start `to_consume`, and the buffer holds the last phase differences found, at
most `W` of them. -/
def fcch_counting (E : externals α) (inp : Int → gr_complex α) (nitems osr W M : Int)
    (c : fcch_config α) : Prop :=
  c.self.d_OSR = osr ∧ c.lowest_max_min_diff ≤ 99999 ∧ (c.end_ = false → c.result = false) ∧
  match c.fcch_search_state with
  | fcch_states.init =>
    c.end_ = false ∧ 0 ≤ c.sample_number ∧ c.sample_number ≤ max (nitems - 1) 0
      ∧ 0 ≤ c.to_consume ∧ c.to_consume ≤ c.sample_number
  | fcch_states.search =>
    c.end_ = false ∧ c.hit_count = 0 ∧ c.miss_count = 0 ∧ c.phase_diff_buffer = []
      ∧ c.lowest_max_min_diff = 99999
      ∧ 0 ≤ c.sample_number ∧ c.sample_number ≤ max (nitems - 1) 0
      ∧ 0 ≤ c.to_consume ∧ c.to_consume ≤ c.sample_number
  | fcch_states.found_something =>
    c.end_ = false ∧ 0 ≤ c.hit_count ∧ 0 ≤ c.miss_count ∧ c.miss_count < M
      ∧ c.hit_count ≤ 2 * W
      ∧ c.phase_diff = phase_diff_at E inp c.sample_number
      ∧ c.phase_diff_buffer
        = phase_window E inp c.sample_number (min (c.hit_count + c.miss_count) W).toNat
      ∧ 1 ≤ c.to_consume ∧ c.to_consume + c.hit_count + c.miss_count = c.sample_number
      ∧ c.sample_number < nitems
  | fcch_states.fcch_found =>
    W < c.hit_count ∧ 0 ≤ c.miss_count ∧ c.hit_count + c.miss_count ≤ c.sample_number
      ∧ c.sample_number < nitems ∧ (c.end_ = true → c.result = true)
  | fcch_states.search_fail =>
    1 ≤ c.to_consume ∧ c.to_consume ≤ max nitems 1 ∧ (c.end_ = true → c.result = false)

/-- The sample `s = start_pos + W + M` at which the candidate held in `start_pos` was
recorded. -/
def fcch_recorded_at (W M : Int) (c : fcch_config α) : Int := c.start_pos + W + M

/-- The recording invariant of the loop of `find_fcch_burst`: a candidate has been recorded
(`lowest_max_min_diff` is below its initial value 99999) as soon as more than `W` hits are
counted, and when one has been recorded, at a sample `s` of the current attempt, `d_best_sum`
is the sum taken over the `W` phase differences found at `s - W + 1, ..., s`. -/
def fcch_recording (E : externals α) (inp : Int → gr_complex α) (osr W M : Int)
    (c : fcch_config α) : Prop :=
  match c.fcch_search_state with
  | fcch_states.found_something =>
    (W < c.hit_count → c.lowest_max_min_diff < 99999) ∧
    (c.lowest_max_min_diff < 99999 →
      c.self.d_best_sum = best_sum E osr (phase_window E inp (fcch_recorded_at W M c) W.toNat) ∧
      c.sample_number - (c.hit_count + c.miss_count) + W ≤ fcch_recorded_at W M c ∧
      fcch_recorded_at W M c + 1 ≤ c.sample_number)
  | fcch_states.fcch_found =>
    c.lowest_max_min_diff < 99999 ∧
    c.self.d_best_sum = best_sum E osr (phase_window E inp (fcch_recorded_at W M c) W.toNat) ∧
    c.sample_number - (c.hit_count + c.miss_count) + 1 + W ≤ fcch_recorded_at W M c ∧
    fcch_recorded_at W M c + 1 ≤ c.sample_number
  | _ => True

/-- The spread of every full window of phase differences of the input is below 99999, the
initial value of `lowest_max_min_diff`. -/
def fcch_spread_ok (E : externals α) (inp : Int → gr_complex α) (nitems W : Int) : Prop :=
  ∀ s, W + 1 ≤ s → s < nitems →
    max_element (phase_window E inp s W.toNat) - min_element (phase_window E inp s W.toNat)
      < 99999

/-- The invariant of the loop of `find_fcch_burst` on an input whose first positive phase
difference is at sample `a` and is followed by positive ones up to sample `a + 2 * W`: the
search reaches `a`, and from there every sample is a hit. -/
def fcch_positive_run (a W : Int) (c : fcch_config α) : Prop :=
  match c.fcch_search_state with
  | fcch_states.init => c.sample_number = 0
  | fcch_states.search => c.sample_number < a
  | fcch_states.found_something =>
    a ≤ c.sample_number ∧ c.sample_number ≤ a + 2 * W ∧ c.miss_count = 0
      ∧ c.hit_count = c.sample_number - a
  | fcch_states.fcch_found =>
    c.sample_number = a + 2 * W ∧ c.miss_count = 0 ∧ c.hit_count = c.sample_number - a + 1
  | fcch_states.search_fail => False

/-- The configuration of `find_fcch_burst` after `n` iterations of its loop (the loop stops
when `end` is set). -/
def fcch_run (K : gsm_constants) (E : externals α) (inp : Int → gr_complex α) (nitems : Int)
    (c0 : fcch_config α) : Nat → fcch_config α
  | 0 => c0
  | n + 1 =>
    if (fcch_run K E inp nitems c0 n).end_ = true then fcch_run K E inp nitems c0 n
    else fcch_step K E inp nitems (fcch_run K E inp nitems c0 n)

/-- The phase differences passed to `push_back` since the last `clear()`, in the order of the
calls, after `n` iterations of the loop of `find_fcch_burst`: `case init` clears the buffer,
and `case found_something` pushes the phase difference it has just computed exactly when it
leaves through its `break`, that is, when the next case is again `found_something`. -/
def fcch_pushed (K : gsm_constants) (E : externals α) (inp : Int → gr_complex α) (nitems : Int)
    (c0 : fcch_config α) : Nat → List α
  | 0 => []
  | n + 1 =>
    if (fcch_run K E inp nitems c0 n).end_ = true then fcch_pushed K E inp nitems c0 n
    else
      match (fcch_run K E inp nitems c0 n).fcch_search_state with
      | fcch_states.init => []
      | fcch_states.found_something =>
        if (fcch_run K E inp nitems c0 (n + 1)).fcch_search_state = fcch_states.found_something
        then fcch_pushed K E inp nitems c0 n ++ [(fcch_run K E inp nitems c0 (n + 1)).phase_diff]
        else fcch_pushed K E inp nitems c0 n
      | _ => fcch_pushed K E inp nitems c0 n

/-- The range invariant of the loop of `find_fcch_burst`, for the oversampling ratio `osr`:
`sample_number` is never negative, stays below `nitems` while a candidate is examined, and
passes `nitems - 1` only when the search fails. -/
def fcch_in_range (nitems osr : Int) (c : fcch_config α) : Prop :=
  c.self.d_OSR = osr ∧ 0 ≤ c.sample_number ∧
  match c.fcch_search_state with
  | fcch_states.init => c.sample_number ≤ max (nitems - 1) 0
  | fcch_states.search => c.sample_number ≤ max (nitems - 1) 0
  | fcch_states.found_something => c.sample_number ≤ nitems - 1
  | fcch_states.fcch_found => c.sample_number ≤ nitems - 1
  | fcch_states.search_fail => c.sample_number ≤ max nitems 1

/-- The index `s` of the call `compute_phase_diff(in[s], in[s-1])` made by the iteration of
the loop of `find_fcch_burst` that starts from `c`, if it makes one: `case search` (line
190) and the end of `case found_something` (line 243) read the sample after
`sample_number`, each behind its guard; the other cases read no sample. -/
def fcch_sample_read (K : gsm_constants) (nitems : Int) (c : fcch_config α) : Option Int :=
  match c.fcch_search_state with
  | fcch_states.search =>
    if c.sample_number + 1 > nitems - FCCH_BUFFER_SIZE K * c.self.d_OSR then none
    else some (c.sample_number + 1)
  | fcch_states.found_something =>
    let d := fcch_count c
    if d.miss_count ≥ K.FCCH_MAX_MISSES * d.self.d_OSR
        ∧ d.hit_count ≤ K.FCCH_HITS_NEEDED * d.self.d_OSR then none
    else if (d.miss_count ≥ K.FCCH_MAX_MISSES * d.self.d_OSR
          ∧ d.hit_count > K.FCCH_HITS_NEEDED * d.self.d_OSR)
        ∨ d.hit_count > 2 * K.FCCH_HITS_NEEDED * d.self.d_OSR then none
    else if c.sample_number + 1 ≥ nitems then none
    else some (c.sample_number + 1)
  | _ => none

/-- The power `j ^ i` of the imaginary unit `j = gr_complex(0.0, 1.0)` of `gmsk_mapper`. -/
def j_pow : Nat → gr_complex α
  | 0 => ⟨1, 0⟩
  | i + 1 => ⟨0, 1⟩ * j_pow i

/-! ## Data for the examples -/

/-- Values for the constants of the headers, as used in the examples: 142 hits needed,
as in the scenario of the specification. -/
def example_constants : gsm_constants :=
  { FCCH_HITS_NEEDED := 142
    FCCH_MAX_MISSES := 1
    FRAME_BITS := 1250
    SAFETY_MARGIN := 6
    TS_BITS := 156
    SYNC_POS := 39
    N_SYNC_BITS := 64
    BURST_SIZE := 148
    SYNC_BITS := [1, 0, 1, 1, 1, 0, 0, 1, 0, 1, 1, 0, 0, 0, 1, 0, 0, 0, 0, 0, 0, 1, 0, 0, 0, 0,
      0, 0, 1, 1, 1, 1, 0, 0, 1, 0, 1, 1, 0, 1, 0, 1, 0, 0, 0, 1, 0, 1, 0, 1, 1, 1, 0, 1, 1, 0,
      0, 0, 0, 1, 1, 0, 1, 1] }

/-- The smallest thresholds: one hit needed, one miss tolerated. -/
def small_constants : gsm_constants :=
  { example_constants with FCCH_HITS_NEEDED := 1, FCCH_MAX_MISSES := 1 }

/-- Stand-ins over the rationals for the library routines, for the examples in which
their values play no part. -/
def example_externals : externals ℚ :=
  { M_PI := 355 / 113
    gr_fast_atan2f := fun y _ => y
    abs := fun z => |z.re| + |z.im|
    viterbi_detector := fun _ _ _ _ _ _ => []
    decode_sch := fun _ => (0, 0) }

/-- A tone that turns by a quarter of a circle from one sample to the next: the samples
are `1, j, -1, -j, 1, ...`. -/
def rotating_tone (s : Int) : gr_complex α :=
  if s % 4 = 0 then ⟨1, 0⟩
  else if s % 4 = 1 then ⟨0, 1⟩
  else if s % 4 = 2 then ⟨-1, 0⟩
  else ⟨0, -1⟩

/-- An input that is `1` at every sample but the second, `in[1]`, which is `j`: its only
positive phase difference is the one found at sample 1. -/
def single_turn (s : Int) : gr_complex α :=
  if s = 1 then ⟨0, 1⟩ else ⟨1, 0⟩

/-- Values for the locals that `find_sch_burst` leaves uninitialised, for the examples. -/
def example_uninitialised : sch_uninitialised :=
  { strongest_window_nr := 0
    chan_imp_resp_center := 0
    fn_o := 0
    bsic_o := 0 }

/-- A receiver as the constructor leaves it, for the examples. -/
def example_receiver (osr : Int) : receiver ℚ :=
  gsm_receiver_cf example_constants osr 0 0

/-! ## The loops -/

theorem fcch_loop_end (K : gsm_constants) (E : externals α) (inp : Int → gr_complex α)
    (nitems : Int) (c : fcch_config α) (h : c.end_ = true) :
    fcch_loop K E inp nitems c = c := by
  rw [fcch_loop]; simp [h]

theorem fcch_loop_step (K : gsm_constants) (E : externals α) (inp : Int → gr_complex α)
    (nitems : Int) (c : fcch_config α) (h : c.end_ = false) :
    fcch_loop K E inp nitems c = fcch_loop K E inp nitems (fcch_step K E inp nitems c) := by
  conv_lhs => rw [fcch_loop]
  simp [h]

/-- A property that holds at the start of the loop of `find_fcch_burst` and is kept by
every iteration holds when the loop has ended, and the loop does end. -/
theorem fcch_loop_invariant (K : gsm_constants) (E : externals α) (inp : Int → gr_complex α)
    (nitems : Int) (I : fcch_config α → Prop)
    (hI : ∀ c, I c → c.end_ = false → I (fcch_step K E inp nitems c))
    (c : fcch_config α) (h : I c) :
    I (fcch_loop K E inp nitems c) ∧ (fcch_loop K E inp nitems c).end_ = true := by
  induction c using fcch_loop.induct K E inp nitems with
  | case1 c hend => rw [fcch_loop_end K E inp nitems c hend]; exact ⟨h, hend⟩
  | case2 c hend ih =>
    have hend : c.end_ = false := by simpa using hend
    rw [fcch_loop_step K E inp nitems c hend]
    exact ih (hI c h hend)

theorem sch_loop_end (K : gsm_constants) (E : externals α) (inp : Int → gr_complex α)
    (nitems : Int) (c : sch_config α) (h : c.end_ = true) :
    sch_loop K E inp nitems c = c := by
  rw [sch_loop]; simp [h]

theorem sch_loop_step (K : gsm_constants) (E : externals α) (inp : Int → gr_complex α)
    (nitems : Int) (c : sch_config α) (h : c.end_ = false) :
    sch_loop K E inp nitems c = sch_loop K E inp nitems (sch_step K E inp nitems c) := by
  conv_lhs => rw [sch_loop]
  simp [h]

/-! ## What the FCCH search leaves untouched -/

theorem fcch_count_self (c : fcch_config α) : (fcch_count c).self = c.self := by
  unfold fcch_count; split_ifs <;> rfl

theorem fcch_count_result (c : fcch_config α) : (fcch_count c).result = c.result := by
  unfold fcch_count; split_ifs <;> rfl

theorem fcch_count_end (c : fcch_config α) : (fcch_count c).end_ = c.end_ := by
  unfold fcch_count; split_ifs <;> rfl

theorem fcch_frame_step (K : gsm_constants) (E : externals α) (inp : Int → gr_complex α)
    (nitems : Int) (self0 : receiver α) (c : fcch_config α)
    (h : fcch_frame K E self0 c) (hend : c.end_ = false) :
    fcch_frame K E self0 (fcch_step K E inp nitems c) := by
  obtain ⟨h1, h2, -⟩ := h
  have hr := h1 hend
  obtain ⟨b, hb⟩ := h2 hr
  unfold fcch_step
  rcases hst : c.fcch_search_state with _ | _ | _ | _ | _ <;> simp only [hst]
  · exact ⟨fun _ => hr, fun _ => ⟨b, hb⟩, fun h => by simp [fcch_init, hr] at h⟩
  · unfold fcch_search
    dsimp only
    split_ifs <;>
    exact ⟨fun _ => hr, fun _ => ⟨b, hb⟩, fun h => by simp [hr] at h⟩
  · unfold fcch_found_something fcch_next_sample fcch_best_candidate
    dsimp only
    split_ifs <;>
    first
    | exact ⟨fun _ => by simpa [fcch_count_result] using hr,
        fun _ => ⟨b, by simpa [fcch_count_self] using hb⟩,
        fun h => by simp [fcch_count_result, hr] at h⟩
    | exact ⟨fun _ => by simpa [fcch_count_result] using hr,
        fun _ => ⟨_, by simp [fcch_count_self, hb]; rfl⟩,
        fun h => by simp [fcch_count_result, hr] at h⟩
  · refine ⟨fun h => by simp [fcch_fcch_found] at h, fun h => by simp [fcch_fcch_found] at h,
      fun _ => ⟨b, ?_, ?_⟩⟩
    · simp [fcch_fcch_found, hb]
    · simp [fcch_fcch_found, hb]
  · exact ⟨fun h => by simp [fcch_search_fail, hend] at h, fun _ => ⟨b, hb⟩,
      fun h => by simp [fcch_search_fail] at h⟩

theorem fcch_frame_start (K : gsm_constants) (E : externals α) (self0 : receiver α) :
    fcch_frame K E self0 (fcch_start self0) :=
  ⟨fun _ => rfl, fun _ => ⟨self0.d_best_sum, rfl⟩, fun h => by simp [fcch_start] at h⟩

theorem fcch_frame_loop (K : gsm_constants) (E : externals α) (inp : Int → gr_complex α)
    (nitems : Int) (self0 : receiver α) :
    fcch_frame K E self0 (fcch_loop K E inp nitems (fcch_start self0)) :=
  (fcch_loop_invariant K E inp nitems (fcch_frame K E self0)
    (fun c h hend => fcch_frame_step K E inp nitems self0 c h hend)
    _ (fcch_frame_start K E self0)).1

/-- What `find_fcch_burst` returns when the search fails: only `d_best_sum`, `d_counter`
and the trace can have changed. -/
theorem find_fcch_burst_false (K : gsm_constants) (E : externals α) (self : receiver α)
    (inp : Int → gr_complex α) (nitems : Int)
    (h : (find_fcch_burst K E self inp nitems).2 = false) :
    ∃ b, (find_fcch_burst K E self inp nitems).1 =
      { self with
        d_best_sum := b
        d_counter := self.d_counter
          + (fcch_loop K E inp nitems (fcch_start (self.log call.find_fcch_burst))).to_consume
        trace := self.trace ++ [call.find_fcch_burst, call.consume_each
          (fcch_loop K E inp nitems (fcch_start (self.log call.find_fcch_burst))).to_consume] } := by
  have hf := fcch_frame_loop K E inp nitems (self.log call.find_fcch_burst)
  unfold find_fcch_burst at h ⊢
  dsimp only at h ⊢
  generalize fcch_loop K E inp nitems (fcch_start (self.log call.find_fcch_burst)) = L at *
  obtain ⟨b, hb⟩ := hf.2.1 h
  refine ⟨b, ?_⟩
  rw [hb]
  simp [consume_each, receiver.log]

/-- What `find_fcch_burst` returns when the search succeeds. -/
theorem find_fcch_burst_true (K : gsm_constants) (E : externals α) (self : receiver α)
    (inp : Int → gr_complex α) (nitems : Int)
    (h : (find_fcch_burst K E self inp nitems).2 = true) :
    ∃ b start_pos,
      (fcch_loop K E inp nitems (fcch_start (self.log call.find_fcch_burst))).start_pos = start_pos ∧
      (fcch_loop K E inp nitems (fcch_start (self.log call.find_fcch_burst))).self.d_best_sum = b ∧
      (find_fcch_burst K E self inp nitems).1 =
      { self with
        d_best_sum := b
        d_fcch_start_pos := self.d_counter + start_pos
        d_freq_offset := self.d_freq_offset
          - b / (K.FCCH_HITS_NEEDED : α) * 1625000 / (12 * E.M_PI)
        d_fcch_count := self.d_fcch_count + 1
        d_x_temp := self.d_x_temp + b / (K.FCCH_HITS_NEEDED : α) * 1625000 / (12 * E.M_PI)
        d_x2_temp := self.d_x2_temp
          + b / (K.FCCH_HITS_NEEDED : α) * 1625000 / (12 * E.M_PI)
            * (b / (K.FCCH_HITS_NEEDED : α) * 1625000 / (12 * E.M_PI))
        d_mean := (self.d_x_temp + b / (K.FCCH_HITS_NEEDED : α) * 1625000 / (12 * E.M_PI))
          / ((self.d_fcch_count + 1 : Int) : α)
        d_counter := self.d_counter + (start_pos + K.FCCH_HITS_NEEDED * self.d_OSR + 1)
        trace := self.trace ++ [call.find_fcch_burst, call.compute_freq_offset,
          call.consume_each (start_pos + K.FCCH_HITS_NEEDED * self.d_OSR + 1)] } := by
  have hf := fcch_frame_loop K E inp nitems (self.log call.find_fcch_burst)
  unfold find_fcch_burst at h ⊢
  dsimp only at h ⊢
  generalize fcch_loop K E inp nitems (fcch_start (self.log call.find_fcch_burst)) = L at *
  obtain ⟨b, hb, htc⟩ := hf.2.2 h
  refine ⟨b, _, rfl, ?_, ?_⟩
  · rw [hb]; rfl
  · rw [hb, htc]
    simp [consume_each, receiver.log, compute_freq_offset]

/-! ## The SCH search, step by step -/

theorem sch_correlate_at_self (K : gsm_constants) (E : externals α) (inp : Int → gr_complex α)
    (c : sch_config α) (k : Nat) :
    (sch_correlate_at K E inp c k).self = { c.self with trace := c.self.trace ++ [call.correlate_sequence] } :=
  rfl

/-- The correlation loop of `find_sch_start` over the first `n` offsets, in closed form. -/
theorem sch_correlate_foldl (K : gsm_constants) (E : externals α) (inp : Int → gr_complex α)
    (c : sch_config α) (n : Nat) :
    (List.range n).foldl (sch_correlate_at K E inp) c =
      { c with
        to_consume := c.to_consume + (n : Int)
        self := { c.self with
          trace := c.self.trace ++ List.replicate n call.correlate_sequence }
        correlation_buffer := c.correlation_buffer ++
          (List.range n).map
            (fun (k : Nat) => correlate_sequence c.self.d_OSR
              (fun i => array_at c.self.d_sch_training_seq (5 + i))
              (fun i => inp (K.SYNC_POS * c.self.d_OSR + k + i)) (K.N_SYNC_BITS - 10))
        power_buffer := c.power_buffer ++
          (List.range n).map
            (fun (k : Nat) => E.abs (correlate_sequence c.self.d_OSR
              (fun i => array_at c.self.d_sch_training_seq (5 + i))
              (fun i => inp (K.SYNC_POS * c.self.d_OSR + k + i)) (K.N_SYNC_BITS - 10)) ^ 2) } := by
  induction n with
  | zero => simp
  | succ n ih =>
    rw [List.range_succ, List.foldl_append, ih]
    simp [sch_correlate_at, receiver.log, List.replicate_succ', add_assoc]

/-- The loop extracting the channel impulse response changes the centre, the running
maximum, the two copies of the response, and nothing else. -/
theorem sch_chan_imp_resp_foldl (E : externals α) (l : List Nat) (c : sch_config α) :
    ∃ center maxc resp cir, l.foldl (sch_chan_imp_resp_at E) c =
      { c with
        chan_imp_resp_center := center
        max_correlation := maxc
        self := { c.self with d_channel_imp_resp := resp }
        chan_imp_resp := cir } := by
  induction l generalizing c with
  | nil => exact ⟨_, _, _, _, rfl⟩
  | cons x l ih =>
    obtain ⟨center, maxc, resp, cir, h⟩ := ih (sch_chan_imp_resp_at E c x)
    rw [List.foldl_cons, h]
    unfold sch_chan_imp_resp_at
    dsimp only
    split_ifs <;> exact ⟨_, _, _, _, rfl⟩

/-- The case `find_sch_start` of the SCH search: what it does to the receiver, to
`to_consume` and to the flags of the loop. -/
theorem sch_find_sch_start_eq (K : gsm_constants) (E : externals α) (inp : Int → gr_complex α)
    (c : sch_config α) :
    (∃ resp, (sch_find_sch_start K E inp c).self =
      { c.self with
        d_channel_imp_resp := resp
        trace := c.self.trace ++ List.replicate
            ((K.SYNC_POS + SYNC_SEARCH_RANGE) * c.self.d_OSR - K.SYNC_POS * c.self.d_OSR).toNat
            call.correlate_sequence
          ++ [call.autocorrelation, call.mafi, call.viterbi_detector, call.decode_sch] }) ∧
    (sch_find_sch_start K E inp c).to_consume = c.to_consume
      + (((K.SYNC_POS + SYNC_SEARCH_RANGE) * c.self.d_OSR - K.SYNC_POS * c.self.d_OSR).toNat : Int) ∧
    (sch_find_sch_start K E inp c).end_ = c.end_ ∧
    (sch_find_sch_start K E inp c).result = c.result ∧
    (sch_find_sch_start K E inp c).sch_search_state = sch_states.sch_found := by
  unfold sch_find_sch_start sch_chan_imp_resp sch_correlate
  dsimp only
  rw [sch_correlate_foldl]
  dsimp only
  obtain ⟨center, maxc, resp, cir, h⟩ := sch_chan_imp_resp_foldl E
    (List.range (c.chan_imp_length * c.self.d_OSR).toNat)
    (_ : sch_config α)
  rw [h]
  refine ⟨⟨resp, ?_⟩, ?_, ?_, ?_, ?_⟩ <;> simp [receiver.log]

/-! ## What the SCH search returns -/

/-- Before the SCH region is reached, `find_sch_burst` runs `start`, `reach_sch` and
`search_not_finished`: it fails, calls nothing but `consume_each`, and changes `d_counter`
only. -/
theorem find_sch_burst_before (K : gsm_constants) (E : externals α) (U : sch_uninitialised)
    (self : receiver α) (inp : Int → gr_complex α) (nitems : Int)
    (h : self.d_counter < self.d_fcch_start_pos + (K.FRAME_BITS - K.SAFETY_MARGIN) * self.d_OSR) :
    find_sch_burst K E U self inp nitems =
      ({ self with
          d_counter := self.d_counter
            + (if self.d_counter + nitems
                  ≥ self.d_fcch_start_pos + (K.FRAME_BITS - K.SAFETY_MARGIN) * self.d_OSR
                then self.d_fcch_start_pos + (K.FRAME_BITS - K.SAFETY_MARGIN) * self.d_OSR
                  - self.d_counter
                else nitems)
          trace := self.trace ++ [call.find_sch_burst, call.consume_each
            (if self.d_counter + nitems
                  ≥ self.d_fcch_start_pos + (K.FRAME_BITS - K.SAFETY_MARGIN) * self.d_OSR
                then self.d_fcch_start_pos + (K.FRAME_BITS - K.SAFETY_MARGIN) * self.d_OSR
                  - self.d_counter
                else nitems)] }, false) := by
  unfold find_sch_burst
  dsimp only
  rw [sch_loop_step _ _ _ _ _ rfl]
  have e1 : sch_step K E inp nitems (sch_start K U (self.log call.find_sch_burst))
      = { sch_start K U (self.log call.find_sch_burst) with
          sch_search_state := sch_states.reach_sch } := by
    simp [sch_step, sch_start, receiver.log, h]
  rw [e1, sch_loop_step _ _ _ _ _ rfl]
  simp only [sch_step]
  rw [sch_loop_step _ _ _ _ _ (by split_ifs <;> rfl)]
  simp only [sch_step]
  rw [sch_loop_end _ _ _ _ _ rfl]
  simp only [sch_start, receiver.log, consume_each]
  split_ifs <;> simp

/-- Once the SCH region is reached, `find_sch_burst` runs `start`, `find_sch_start` and
`sch_found`: it succeeds and consumes one sample per offset of the search range. -/
theorem find_sch_burst_reached (K : gsm_constants) (E : externals α) (U : sch_uninitialised)
    (self : receiver α) (inp : Int → gr_complex α) (nitems : Int)
    (h : ¬ self.d_counter < self.d_fcch_start_pos + (K.FRAME_BITS - K.SAFETY_MARGIN) * self.d_OSR) :
    ∃ resp, find_sch_burst K E U self inp nitems =
      ({ self with
          d_counter := self.d_counter
            + (((K.SYNC_POS + SYNC_SEARCH_RANGE) * self.d_OSR - K.SYNC_POS * self.d_OSR).toNat : Int)
          d_channel_imp_resp := resp
          trace := self.trace ++ [call.find_sch_burst]
            ++ List.replicate
              ((K.SYNC_POS + SYNC_SEARCH_RANGE) * self.d_OSR - K.SYNC_POS * self.d_OSR).toNat
              call.correlate_sequence
            ++ [call.autocorrelation, call.mafi, call.viterbi_detector, call.decode_sch,
              call.consume_each
                (((K.SYNC_POS + SYNC_SEARCH_RANGE) * self.d_OSR
                  - K.SYNC_POS * self.d_OSR).toNat : Int)] }, true) := by
  unfold find_sch_burst
  dsimp only
  rw [sch_loop_step _ _ _ _ _ rfl]
  have e1 : sch_step K E inp nitems (sch_start K U (self.log call.find_sch_burst))
      = { sch_start K U (self.log call.find_sch_burst) with
          sch_search_state := sch_states.find_sch_start } := by
    simp [sch_step, sch_start, receiver.log, h]
  rw [e1, sch_loop_step _ _ _ _ _ rfl]
  simp only [sch_step]
  obtain ⟨⟨resp, hs⟩, htc, hend, hres, hst⟩ := sch_find_sch_start_eq K E inp
    { sch_start K U (self.log call.find_sch_burst) with
      sch_search_state := sch_states.find_sch_start }
  generalize sch_find_sch_start K E inp
    { sch_start K U (self.log call.find_sch_burst) with
      sch_search_state := sch_states.find_sch_start } = c at *
  rw [sch_loop_step _ _ _ _ _ (by rw [hend]; rfl)]
  simp only [sch_step, hst]
  rw [sch_loop_end _ _ _ _ _ rfl]
  refine ⟨resp, ?_⟩
  simp only [hs, htc, sch_start, receiver.log, consume_each]
  simp

/-! ## Counting calls in a trace -/

theorem consumed_append {β : Type} (s t : List (call β)) :
    consumed (s ++ t) = consumed s + consumed t := by
  simp [consumed]

theorem consumed_replicate_correlate {β : Type} (n : Nat) :
    consumed (List.replicate n (call.correlate_sequence : call β)) = 0 := by
  induction n with
  | zero => rfl
  | succ n ih => rw [List.replicate_succ]; simp [consumed, ih]

/-- C8: while `d_counter` is below `T = d_fcch_start_pos + (FRAME_BITS - SAFETY_MARGIN) * OSR`,
`find_sch_burst` reports failure, calls nothing but `consume_each` (no correlation, no
detector, no decoder; the channel impulse response is left alone), and consumes
`min (T - d_counter) nitems` samples, so that `d_counter` becomes
`min T (d_counter + nitems)`: at most `T`, and `T` as soon as the input reaches it. -/
theorem find_sch_burst_below_region (K : gsm_constants) (E : externals α)
    (U : sch_uninitialised) (self : receiver α) (inp : Int → gr_complex α) (nitems : Int)
    (h : self.d_counter < self.d_fcch_start_pos + (K.FRAME_BITS - K.SAFETY_MARGIN) * self.d_OSR) :
    (find_sch_burst K E U self inp nitems).2 = false ∧
    (find_sch_burst K E U self inp nitems).1.trace = self.trace ++ [call.find_sch_burst,
      call.consume_each (min (self.d_fcch_start_pos
        + (K.FRAME_BITS - K.SAFETY_MARGIN) * self.d_OSR - self.d_counter) nitems)] ∧
    (find_sch_burst K E U self inp nitems).1.d_counter
      = min (self.d_fcch_start_pos + (K.FRAME_BITS - K.SAFETY_MARGIN) * self.d_OSR)
          (self.d_counter + nitems) ∧
    (find_sch_burst K E U self inp nitems).1.d_counter
      ≤ self.d_fcch_start_pos + (K.FRAME_BITS - K.SAFETY_MARGIN) * self.d_OSR ∧
    (self.d_fcch_start_pos + (K.FRAME_BITS - K.SAFETY_MARGIN) * self.d_OSR
        ≤ self.d_counter + nitems →
      (find_sch_burst K E U self inp nitems).1.d_counter
        = self.d_fcch_start_pos + (K.FRAME_BITS - K.SAFETY_MARGIN) * self.d_OSR) ∧
    (find_sch_burst K E U self inp nitems).1.d_channel_imp_resp = self.d_channel_imp_resp := by
  rw [find_sch_burst_before K E U self inp nitems h]
  generalize self.d_fcch_start_pos + (K.FRAME_BITS - K.SAFETY_MARGIN) * self.d_OSR = T at *
  dsimp only
  refine ⟨rfl, ?_, ?_, ?_, ?_, rfl⟩
  · congr 4
    rw [min_def]
    split_ifs <;> omega
  · rw [min_def]
    split_ifs <;> omega
  · split_ifs <;> omega
  · intro h2
    split_ifs <;> omega

/-- C8, witness: a fresh receiver with `OSR = 4` (so `T = 4976`) given 100 samples. -/
theorem find_sch_burst_below_region_witness :
    (example_receiver 4).d_counter < (example_receiver 4).d_fcch_start_pos
      + (example_constants.FRAME_BITS - example_constants.SAFETY_MARGIN)
        * (example_receiver 4).d_OSR ∧
    (find_sch_burst example_constants example_externals example_uninitialised
      (example_receiver 4) (fun _ => 0) 100).2 = false ∧
    (find_sch_burst example_constants example_externals example_uninitialised
      (example_receiver 4) (fun _ => 0) 100).1.d_counter = 100 :=
  ⟨by decide,
   (find_sch_burst_below_region example_constants example_externals example_uninitialised
      (example_receiver 4) (fun _ => 0) 100 (by decide)).1,
   (find_sch_burst_below_region example_constants example_externals example_uninitialised
      (example_receiver 4) (fun _ => 0) 100 (by decide)).2.2.1.trans (by decide)⟩

/-! ## Autocorrelation (C10) -/

theorem autocorrelation_lag_eq_sum (x : Nat → gr_complex α) (n k : Nat) (hk : k ≤ n) :
    autocorrelation_lag x n k
      = ∑ i in Finset.Ico k n, x i * gr_complex.conj (x (i - k)) := by
  unfold autocorrelation_lag
  obtain ⟨m, rfl⟩ : ∃ m, n = k + m := ⟨n - k, by omega⟩
  rw [Nat.add_sub_cancel_left]
  induction m with
  | zero => simp
  | succ m ih =>
    rw [List.range'_concat, List.foldl_append, ih (by omega)]
    rw [← Nat.add_assoc, Finset.sum_Ico_succ_top (by omega)]
    simp

theorem gr_complex_mul_conj_self (z : gr_complex α) :
    z * gr_complex.conj z = ⟨gr_complex.normSq z, 0⟩ := by
  apply gr_complex.ext
  · show z.re * z.re - z.im * -z.im = z.re * z.re + z.im * z.im
    ring
  · show z.re * -z.im + z.im * z.re = 0
    ring

theorem gr_complex_sum_re {ι : Type} (s : Finset ι) (f : ι → gr_complex α) :
    (∑ i in s, f i).re = ∑ i in s, (f i).re := by
  classical
  induction s using Finset.induction_on with
  | empty => rfl
  | insert h ih => rw [Finset.sum_insert h, Finset.sum_insert h, ← ih]; rfl

theorem gr_complex_sum_im {ι : Type} (s : Finset ι) (f : ι → gr_complex α) :
    (∑ i in s, f i).im = ∑ i in s, (f i).im := by
  classical
  induction s using Finset.induction_on with
  | empty => rfl
  | insert h ih => rw [Finset.sum_insert h, Finset.sum_insert h, ← ih]; rfl

/-- C10: for an input `x` of length `n ≥ 1`, `autocorrelation` fills `out[0 .. n-1]` with
`out[k] = ∑ i in [k, n), x[i] * conj (x[i-k])`; `out[0]` is the sum of the squared
magnitudes, a real number that is not negative; and when `x` is zero on `[0, n)` so is
every `out[k]`. -/
theorem autocorrelation_spec (x : Nat → gr_complex α) (n : Nat) (hn : 1 ≤ n) :
    (autocorrelation x n).length = n ∧
    (∀ k, k < n → (autocorrelation x n)[k]?
      = some (∑ i in Finset.Ico k n, x i * gr_complex.conj (x (i - k)))) ∧
    (autocorrelation x n)[0]?
      = some ⟨∑ i in Finset.range n, gr_complex.normSq (x i), 0⟩ ∧
    0 ≤ ∑ i in Finset.range n, gr_complex.normSq (x i) ∧
    ((∀ i, i < n → x i = 0) → ∀ k, k < n → (autocorrelation x n)[k]? = some 0) := by
  have hk : ∀ k, k < n → (autocorrelation x n)[k]?
      = some (∑ i in Finset.Ico k n, x i * gr_complex.conj (x (i - k))) := by
    intro k hk
    simp [autocorrelation, hk, autocorrelation_lag_eq_sum x n k (le_of_lt hk)]
  refine ⟨by simp [autocorrelation], hk, ?_, ?_, ?_⟩
  · rw [hk 0 (by omega)]
    congr 1
    apply gr_complex.ext
    · rw [gr_complex_sum_re, ← Finset.range_eq_Ico]
      exact Finset.sum_congr rfl fun i _ => by
        rw [Nat.sub_zero, gr_complex_mul_conj_self]
    · rw [gr_complex_sum_im, ← Finset.range_eq_Ico]
      exact Finset.sum_eq_zero fun i _ => by
        rw [Nat.sub_zero, gr_complex_mul_conj_self]
  · exact Finset.sum_nonneg fun i _ =>
      add_nonneg (mul_self_nonneg _) (mul_self_nonneg _)
  · intro hz k hkn
    rw [hk k hkn]
    congr 1
    apply Finset.sum_eq_zero
    intro i hi
    rw [hz i (Finset.mem_Ico.mp hi).2]
    apply gr_complex.ext
    · show (0 : α) * _ - 0 * _ = 0
      ring
    · show (0 : α) * _ + 0 * _ = 0
      ring

/-- C10, witness: the input `1, 1, 1` of length 3. -/
theorem autocorrelation_spec_witness :
    (1 : Nat) ≤ 3 ∧
    (autocorrelation (fun _ => (⟨1, 0⟩ : gr_complex ℚ)) (3 : Nat)).length = 3 :=
  ⟨by decide, (autocorrelation_spec (fun _ => (⟨1, 0⟩ : gr_complex ℚ)) 3 (by decide)).1⟩

/-! ## The phase-difference buffer as a window on the input -/

theorem phase_window_length (E : externals α) (inp : Int → gr_complex α) (s : Int) (n : Nat) :
    (phase_window E inp s n).length = n := by
  simp [phase_window]

theorem phase_window_succ (E : externals α) (inp : Int → gr_complex α) (s : Int) (n : Nat) :
    phase_window E inp (s + 1) (n + 1) = phase_window E inp s n ++ [phase_diff_at E inp (s + 1)] := by
  unfold phase_window
  rw [List.range_succ, List.map_append]
  congr 1
  · apply List.map_congr_left
    intro i _
    congr 1
    push_cast
    ring
  · simp only [List.map_cons, List.map_nil]
    congr 2
    push_cast
    ring

theorem phase_window_tail (E : externals α) (inp : Int → gr_complex α) (s : Int) (n : Nat) :
    (phase_window E inp s (n + 1)).tail = phase_window E inp s n := by
  unfold phase_window
  rw [List.range_succ_eq_map, List.map_cons, List.tail_cons, List.map_map]
  apply List.map_congr_left
  intro i _
  simp only [Function.comp]
  congr 1
  push_cast
  ring

/-- Pushing the next phase difference into the bounded buffer that holds the last
`min p W` ones leaves the last `min (p + 1) W` ones. -/
theorem circular_push_back_window (E : externals α) (inp : Int → gr_complex α) (s p W : Int)
    (hp : 0 ≤ p) :
    circular_push_back W.toNat (phase_window E inp s (min p W).toNat)
        (phase_diff_at E inp (s + 1))
      = phase_window E inp (s + 1) (min (p + 1) W).toNat := by
  unfold circular_push_back
  rw [phase_window_length]
  by_cases h1 : p < W
  · have e1 : (min p W).toNat = p.toNat := by rw [min_eq_left (le_of_lt h1)]
    have e2 : (min (p + 1) W).toNat = p.toNat + 1 := by
      rw [min_eq_left (by omega)]; omega
    rw [e1, e2, if_pos (by omega), phase_window_succ]
  · have e1 : (min p W).toNat = W.toNat := by rw [min_eq_right (by omega)]
    have e2 : (min (p + 1) W).toNat = W.toNat := by rw [min_eq_right (by omega)]
    rw [e1, e2, if_neg (by omega)]
    by_cases h2 : W.toNat = 0
    · rw [if_pos h2, h2]; rfl
    · rw [if_neg h2]
      obtain ⟨m, hm⟩ : ∃ m, W.toNat = m + 1 := ⟨W.toNat - 1, by omega⟩
      rw [hm, phase_window_tail, phase_window_succ]

/-! ## The counting invariant of the FCCH search -/

theorem fcch_counting_start (E : externals α) (inp : Int → gr_complex α) (nitems W M : Int)
    (self0 : receiver α) :
    fcch_counting E inp nitems self0.d_OSR W M (fcch_start self0) := by
  unfold fcch_counting fcch_start
  refine ⟨rfl, le_refl _, fun _ => rfl, ?_⟩
  dsimp only
  refine ⟨rfl, le_refl _, ?_, le_refl _, le_refl _⟩
  exact le_max_right _ _

/-- Recording a candidate changes `lowest_max_min_diff`, `start_pos` and `d_best_sum` only,
and does not raise `lowest_max_min_diff`. -/
theorem fcch_best_candidate_fields (K : gsm_constants) (E : externals α) (c : fcch_config α) :
    (fcch_best_candidate K E c).self.d_OSR = c.self.d_OSR ∧
    (fcch_best_candidate K E c).lowest_max_min_diff ≤ c.lowest_max_min_diff ∧
    (fcch_best_candidate K E c).end_ = c.end_ ∧
    (fcch_best_candidate K E c).result = c.result ∧
    (fcch_best_candidate K E c).hit_count = c.hit_count ∧
    (fcch_best_candidate K E c).miss_count = c.miss_count ∧
    (fcch_best_candidate K E c).phase_diff_buffer = c.phase_diff_buffer ∧
    (fcch_best_candidate K E c).to_consume = c.to_consume ∧
    (fcch_best_candidate K E c).sample_number = c.sample_number ∧
    (fcch_best_candidate K E c).fcch_search_state = c.fcch_search_state := by
  unfold fcch_best_candidate
  dsimp only
  split_ifs with h
  · exact ⟨rfl, le_of_lt h, rfl, rfl, rfl, rfl, rfl, rfl, rfl, rfl⟩
  · exact ⟨rfl, le_refl _, rfl, rfl, rfl, rfl, rfl, rfl, rfl, rfl⟩

/-- The end of `found_something` keeps the counting invariant: `d` is the configuration
after the counting, in which one more sample is counted than phase differences pushed. -/
theorem fcch_counting_next_sample (K : gsm_constants) (E : externals α)
    (inp : Int → gr_complex α) (nitems osr W M : Int) (d : fcch_config α)
    (hW : K.FCCH_HITS_NEEDED * osr = W)
    (hosr : d.self.d_OSR = osr) (hlow : d.lowest_max_min_diff ≤ 99999)
    (hend : d.end_ = false) (hr : d.result = false)
    (h1 : 0 ≤ d.hit_count) (h2 : 0 ≤ d.miss_count) (h3 : d.miss_count < M)
    (h4 : d.hit_count ≤ 2 * W) (h0 : 1 ≤ d.hit_count + d.miss_count)
    (h6 : d.phase_diff_buffer
      = phase_window E inp d.sample_number (min (d.hit_count + d.miss_count - 1) W).toNat)
    (h7 : 1 ≤ d.to_consume) (h8 : d.to_consume + d.hit_count + d.miss_count = d.sample_number + 1)
    (h9 : d.sample_number < nitems) :
    fcch_counting E inp nitems osr W M (fcch_next_sample K E inp nitems d) := by
  unfold fcch_next_sample
  dsimp only
  split_ifs with g
  · refine ⟨hosr, hlow, fun _ => hr, h7, ?_, fun _ => hr⟩
    show d.to_consume ≤ max nitems 1
    rw [max_def]
    split_ifs <;> omega
  · refine ⟨hosr, hlow, fun _ => hr, hend, h1, h2, h3, h4, rfl, ?_, h7, ?_, ?_⟩
    · show circular_push_back (FCCH_BUFFER_SIZE K * d.self.d_OSR).toNat d.phase_diff_buffer
          (compute_phase_diff E (inp (d.sample_number + 1)) (inp (d.sample_number + 1 - 1)))
        = phase_window E inp (d.sample_number + 1) (min (d.hit_count + d.miss_count) W).toNat
      have := circular_push_back_window E inp d.sample_number
        (d.hit_count + d.miss_count - 1) W (by omega)
      rw [sub_add_cancel] at this
      rw [← this, h6, FCCH_BUFFER_SIZE, hosr, hW]
      rfl
    · show d.to_consume + d.hit_count + d.miss_count = d.sample_number + 1
      exact h8
    · show d.sample_number + 1 < nitems
      omega

theorem fcch_counting_step (K : gsm_constants) (E : externals α) (inp : Int → gr_complex α)
    (nitems osr W M : Int) (c : fcch_config α)
    (hW : K.FCCH_HITS_NEEDED * osr = W) (hM : K.FCCH_MAX_MISSES * osr = M)
    (hW1 : 1 ≤ W) (hM1 : 1 ≤ M)
    (h : fcch_counting E inp nitems osr W M c) (hend : c.end_ = false) :
    fcch_counting E inp nitems osr W M (fcch_step K E inp nitems c) := by
  obtain ⟨hosr, hlow, hres, hcase⟩ := h
  have hr := hres hend
  unfold fcch_step
  rcases hst : c.fcch_search_state with _ | _ | _ | _ | _ <;> simp only [hst] at hcase ⊢
  · -- init
    obtain ⟨-, h1, h2, h3, h4⟩ := hcase
    exact ⟨hosr, le_refl _, fun _ => hr, hend, rfl, rfl, rfl, rfl, h1, h2, h3, h4⟩
  · -- search
    obtain ⟨-, h1, h2, h3, h4, h5, h6, h7, h8⟩ := hcase
    unfold fcch_search
    simp only [FCCH_BUFFER_SIZE, hosr, hW]
    split_ifs with g1 g2
    · refine ⟨hosr, hlow, fun _ => hr, ?_, ?_, fun _ => hr⟩
      · show 1 ≤ c.sample_number + 1
        omega
      · show c.sample_number + 1 ≤ max nitems 1
        rw [max_def] at h6 ⊢
        split_ifs at h6 ⊢ <;> omega
    · refine ⟨hosr, hlow, fun _ => hr, hend, ?_, ?_, ?_, ?_, rfl, ?_, ?_, ?_, ?_⟩
      · show 0 ≤ c.hit_count
        omega
      · show 0 ≤ c.miss_count
        omega
      · show c.miss_count < M
        omega
      · show c.hit_count ≤ 2 * W
        omega
      · show c.phase_diff_buffer = phase_window E inp (c.sample_number + 1)
          (min (c.hit_count + c.miss_count) W).toNat
        rw [h3, h1, h2, min_eq_left (by omega)]
        rfl
      · show 1 ≤ c.sample_number + 1
        omega
      · show c.sample_number + 1 + c.hit_count + c.miss_count = c.sample_number + 1
        omega
      · show c.sample_number + 1 < nitems
        omega
    · refine ⟨hosr, hlow, fun _ => hr, hend, h1, h2, h3, h4, ?_, ?_, h7, ?_⟩
      · show 0 ≤ c.sample_number + 1
        omega
      · show c.sample_number + 1 ≤ max (nitems - 1) 0
        rw [max_def]
        split_ifs <;> omega
      · show c.to_consume ≤ c.sample_number + 1
        omega
  · -- found_something
    obtain ⟨-, h1, h2, h3, h4, h5, h6, h7, h8, h9⟩ := hcase
    have hc1 : (fcch_count c).self = c.self := fcch_count_self c
    have hc2 : (fcch_count c).end_ = c.end_ := fcch_count_end c
    have hc3 : (fcch_count c).result = c.result := fcch_count_result c
    have hc4 : (fcch_count c).lowest_max_min_diff = c.lowest_max_min_diff := by
      unfold fcch_count; split_ifs <;> rfl
    have hc5 : (fcch_count c).phase_diff_buffer = c.phase_diff_buffer := by
      unfold fcch_count; split_ifs <;> rfl
    have hc6 : (fcch_count c).to_consume = c.to_consume := by
      unfold fcch_count; split_ifs <;> rfl
    have hc7 : (fcch_count c).sample_number = c.sample_number := by
      unfold fcch_count; split_ifs <;> rfl
    have hc8 : (fcch_count c).fcch_search_state = c.fcch_search_state := by
      unfold fcch_count; split_ifs <;> rfl
    have hc9 : (fcch_count c).hit_count + (fcch_count c).miss_count
        = c.hit_count + c.miss_count + 1 ∧ c.hit_count ≤ (fcch_count c).hit_count
        ∧ c.miss_count ≤ (fcch_count c).miss_count := by
      unfold fcch_count; split_ifs <;> dsimp only <;> omega
    obtain ⟨hc9, hc10, hc11⟩ := hc9
    obtain ⟨b1, b2, b3, b4, b5, b6, b7, b8, b9, b10⟩ :=
      fcch_best_candidate_fields K E (fcch_count c)
    unfold fcch_found_something
    simp only [hc1, hosr, hW, hM, mul_assoc]
    split_ifs with g1 g2 g3
    · refine ⟨hosr, by rw [hc4]; exact hlow, fun _ => by rw [hc3]; exact hr,
        by rw [hc2]; exact hend, ?_, ?_, ?_, ?_⟩
      · show 0 ≤ (fcch_count c).sample_number
        omega
      · show (fcch_count c).sample_number ≤ max (nitems - 1) 0
        rw [max_def]
        split_ifs <;> omega
      · show 0 ≤ (fcch_count c).to_consume
        omega
      · show (fcch_count c).to_consume ≤ (fcch_count c).sample_number
        omega
    · refine ⟨hosr, by rw [hc4]; exact hlow, fun _ => by rw [hc3]; exact hr,
        ?_, ?_, ?_, ?_, fun h => ?_⟩
      · show W < (fcch_count c).hit_count
        omega
      · show 0 ≤ (fcch_count c).miss_count
        omega
      · show (fcch_count c).hit_count + (fcch_count c).miss_count ≤ (fcch_count c).sample_number
        omega
      · show (fcch_count c).sample_number < nitems
        omega
      · have : (fcch_count c).end_ = true := h
        rw [hc2, hend] at this
        exact absurd this (by decide)
    · apply fcch_counting_next_sample K E inp nitems osr W M _ hW
      · rw [b1, hc1]; exact hosr
      · exact le_trans b2 (by rw [hc4]; exact hlow)
      · rw [b3, hc2]; exact hend
      · rw [b4, hc3]; exact hr
      · rw [b5]; omega
      · rw [b6]; omega
      · rw [b6]; omega
      · rw [b5]; omega
      · rw [b5, b6]; omega
      · rw [b7, b9, b5, b6, hc5, hc7, hc9, add_sub_cancel_right]; exact h6
      · rw [b8, hc6]; exact h7
      · rw [b8, b5, b6, b9, hc6, hc7]; omega
      · rw [b9, hc7]; exact h9
    · apply fcch_counting_next_sample K E inp nitems osr W M _ hW
      · rw [hc1]; exact hosr
      · rw [hc4]; exact hlow
      · rw [hc2]; exact hend
      · rw [hc3]; exact hr
      · omega
      · omega
      · omega
      · omega
      · omega
      · rw [hc5, hc7, hc9, add_sub_cancel_right]; exact h6
      · rw [hc6]; exact h7
      · rw [hc6, hc7]; omega
      · rw [hc7]; exact h9
  · -- fcch_found
    obtain ⟨h1, h2, h3, h4, -⟩ := hcase
    refine ⟨?_, hlow, fun h => by simp [fcch_fcch_found] at h, ?_⟩
    · simp [fcch_fcch_found, compute_freq_offset, receiver.log, hosr]
    · simp only [fcch_fcch_found, hst]
      exact ⟨h1, h2, h3, h4, fun _ => trivial⟩
  · -- search_fail
    obtain ⟨h1, h2, -⟩ := hcase
    refine ⟨hosr, hlow, fun h => by simp [fcch_search_fail] at h, ?_⟩
    simp only [fcch_search_fail, hst]
    exact ⟨h1, h2, fun _ => trivial⟩

/-! ## Input shorter than one window (C3, C4) -/

theorem fcch_count_counts (c : fcch_config α) :
    (fcch_count c).hit_count + (fcch_count c).miss_count = c.hit_count + c.miss_count + 1 ∧
    c.hit_count ≤ (fcch_count c).hit_count ∧ c.miss_count ≤ (fcch_count c).miss_count := by
  unfold fcch_count; split_ifs <;> dsimp only <;> omega

/-- The loop of `find_fcch_burst` enters `fcch_found` from `found_something` only, and only
when the second test of that case holds for the counters just updated. -/
theorem fcch_step_fcch_found (K : gsm_constants) (E : externals α) (inp : Int → gr_complex α)
    (nitems : Int) (c : fcch_config α)
    (h : (fcch_step K E inp nitems c).fcch_search_state = fcch_states.fcch_found)
    (hst : c.fcch_search_state ≠ fcch_states.fcch_found) :
    c.fcch_search_state = fcch_states.found_something ∧
    (((fcch_count c).miss_count ≥ K.FCCH_MAX_MISSES * c.self.d_OSR
        ∧ (fcch_count c).hit_count > K.FCCH_HITS_NEEDED * c.self.d_OSR)
      ∨ (fcch_count c).hit_count > 2 * K.FCCH_HITS_NEEDED * c.self.d_OSR) := by
  unfold fcch_step at h
  rcases hs : c.fcch_search_state with _ | _ | _ | _ | _ <;> simp only [hs] at h
  · simp [fcch_init] at h
  · unfold fcch_search at h
    dsimp only at h
    split_ifs at h
  · refine ⟨rfl, ?_⟩
    unfold fcch_found_something fcch_next_sample at h
    simp only [fcch_count_self] at h
    split_ifs at h with g1 g2
    exact g2
  · exact absurd hs hst
  · simp [fcch_search_fail, hs] at h

/-- With fewer than `W + M` samples the loop of `find_fcch_burst` never enters
`fcch_found`. -/
theorem fcch_short_step (K : gsm_constants) (E : externals α) (inp : Int → gr_complex α)
    (nitems osr W M : Int) (c : fcch_config α)
    (hW : K.FCCH_HITS_NEEDED * osr = W) (hM : K.FCCH_MAX_MISSES * osr = M)
    (hW1 : 1 ≤ W) (hM1 : 1 ≤ M) (hMW : M ≤ W) (hn : nitems < W + M)
    (h : fcch_counting E inp nitems osr W M c ∧ c.fcch_search_state ≠ fcch_states.fcch_found)
    (hend : c.end_ = false) :
    fcch_counting E inp nitems osr W M (fcch_step K E inp nitems c)
      ∧ (fcch_step K E inp nitems c).fcch_search_state ≠ fcch_states.fcch_found := by
  refine ⟨fcch_counting_step K E inp nitems osr W M c hW hM hW1 hM1 h.1 hend, fun hf => ?_⟩
  obtain ⟨hs, hb⟩ := fcch_step_fcch_found K E inp nitems c hf h.2
  obtain ⟨hosr, -, -, hcase⟩ := h.1
  simp only [hs] at hcase
  obtain ⟨-, h1, h2, h3, h4, -, -, h7, h8, h9⟩ := hcase
  obtain ⟨c1, c2, c3⟩ := fcch_count_counts c
  rw [hosr, mul_assoc, hW, hM] at hb
  omega

/-- With fewer than `(FCCH_HITS_NEEDED + FCCH_MAX_MISSES) * d_OSR` samples the loop of
`find_fcch_burst` ends in `search_fail`, having consumed at least one sample and no more
than it was given (one when it was given none). -/
theorem fcch_short_loop (K : gsm_constants) (E : externals α) (inp : Int → gr_complex α)
    (nitems : Int) (self0 : receiver α)
    (hOSR : 1 ≤ self0.d_OSR) (hM : 1 ≤ K.FCCH_MAX_MISSES)
    (hHM : K.FCCH_MAX_MISSES ≤ K.FCCH_HITS_NEEDED)
    (hn : nitems < (K.FCCH_HITS_NEEDED + K.FCCH_MAX_MISSES) * self0.d_OSR) :
    (fcch_loop K E inp nitems (fcch_start self0)).result = false ∧
    1 ≤ (fcch_loop K E inp nitems (fcch_start self0)).to_consume ∧
    (fcch_loop K E inp nitems (fcch_start self0)).to_consume ≤ max nitems 1 := by
  have hM1 : 1 ≤ K.FCCH_MAX_MISSES * self0.d_OSR := by nlinarith
  have hMW : K.FCCH_MAX_MISSES * self0.d_OSR ≤ K.FCCH_HITS_NEEDED * self0.d_OSR := by nlinarith
  have hW1 : 1 ≤ K.FCCH_HITS_NEEDED * self0.d_OSR := le_trans hM1 hMW
  have hn' : nitems < K.FCCH_HITS_NEEDED * self0.d_OSR + K.FCCH_MAX_MISSES * self0.d_OSR := by
    rw [← add_mul]; exact hn
  obtain ⟨⟨hc, hne⟩, hend⟩ := fcch_loop_invariant K E inp nitems
    (fun c => fcch_counting E inp nitems self0.d_OSR (K.FCCH_HITS_NEEDED * self0.d_OSR)
      (K.FCCH_MAX_MISSES * self0.d_OSR) c ∧ c.fcch_search_state ≠ fcch_states.fcch_found)
    (fun c h he => fcch_short_step K E inp nitems self0.d_OSR _ _ c rfl rfl hW1 hM1 hMW hn' h he)
    (fcch_start self0)
    ⟨fcch_counting_start E inp nitems _ _ self0, by simp [fcch_start]⟩
  generalize fcch_loop K E inp nitems (fcch_start self0) = L at *
  obtain ⟨-, -, -, hcase⟩ := hc
  rcases hs : L.fcch_search_state with _ | _ | _ | _ | _ <;> simp only [hs] at hcase
  · rw [hcase.1] at hend; exact absurd hend (by decide)
  · rw [hcase.1] at hend; exact absurd hend (by decide)
  · rw [hcase.1] at hend; exact absurd hend (by decide)
  · exact absurd hs hne
  · exact ⟨hcase.2.2 hend, hcase.1, hcase.2.1⟩

/-- C3: with `OSR ≥ 1`, `FCCH_HITS_NEEDED ≥ FCCH_MAX_MISSES ≥ 1` and fewer than
`(FCCH_HITS_NEEDED + FCCH_MAX_MISSES) * OSR` samples, whatever their values,
`find_fcch_burst` returns false and does not call `compute_freq_offset`: the call adds to
the trace its own entry and one `consume_each`, and the frequency estimate, the detection
count, the running sums, the mean and the FCCH position are as before. -/
theorem find_fcch_burst_short_input_fails (K : gsm_constants) (E : externals α)
    (self : receiver α) (inp : Int → gr_complex α) (nitems : Int)
    (hOSR : 1 ≤ self.d_OSR) (hM : 1 ≤ K.FCCH_MAX_MISSES)
    (hHM : K.FCCH_MAX_MISSES ≤ K.FCCH_HITS_NEEDED)
    (hn : nitems < (K.FCCH_HITS_NEEDED + K.FCCH_MAX_MISSES) * self.d_OSR) :
    (find_fcch_burst K E self inp nitems).2 = false ∧
    (∃ to_consume, (find_fcch_burst K E self inp nitems).1.trace
      = self.trace ++ [call.find_fcch_burst, call.consume_each to_consume]) ∧
    (find_fcch_burst K E self inp nitems).1.d_freq_offset = self.d_freq_offset ∧
    (find_fcch_burst K E self inp nitems).1.d_fcch_count = self.d_fcch_count ∧
    (find_fcch_burst K E self inp nitems).1.d_x_temp = self.d_x_temp ∧
    (find_fcch_burst K E self inp nitems).1.d_x2_temp = self.d_x2_temp ∧
    (find_fcch_burst K E self inp nitems).1.d_mean = self.d_mean ∧
    (find_fcch_burst K E self inp nitems).1.d_fcch_start_pos = self.d_fcch_start_pos := by
  have hr : (find_fcch_burst K E self inp nitems).2 = false :=
    (fcch_short_loop K E inp nitems (self.log call.find_fcch_burst) hOSR hM hHM hn).1
  obtain ⟨b, hb⟩ := find_fcch_burst_false K E self inp nitems hr
  rw [hb]
  exact ⟨hr, ⟨_, rfl⟩, rfl, rfl, rfl, rfl, rfl, rfl⟩

/-- C3, witness: 142 hits needed, `OSR = 4`, 100 samples. -/
theorem find_fcch_burst_short_input_fails_witness :
    (1 ≤ (example_receiver 4).d_OSR ∧ 1 ≤ example_constants.FCCH_MAX_MISSES ∧
      example_constants.FCCH_MAX_MISSES ≤ example_constants.FCCH_HITS_NEEDED ∧
      (100 : Int) < (example_constants.FCCH_HITS_NEEDED + example_constants.FCCH_MAX_MISSES)
        * (example_receiver 4).d_OSR) ∧
    (find_fcch_burst example_constants example_externals (example_receiver 4)
      (fun _ => 0) 100).2 = false :=
  ⟨by decide,
   (find_fcch_burst_short_input_fails example_constants example_externals (example_receiver 4)
      (fun _ => 0) 100 (by decide) (by decide) (by decide) (by decide)).1⟩

/-- Pushing into the bounded buffer that holds the last `capacity` elements of a history
leaves the last `capacity` elements of the history extended by the pushed element. -/
theorem circular_push_back_history {β : Type} (capacity : Nat) (l : List β) (x : β) :
    circular_push_back capacity (l.drop (l.length - capacity)) x
      = (l ++ [x]).drop ((l ++ [x]).length - capacity) := by
  unfold circular_push_back
  rw [List.length_drop, List.length_append, List.length_singleton]
  by_cases h : l.length < capacity
  · rw [if_pos (by omega)]
    have e1 : l.length - capacity = 0 := by omega
    have e2 : l.length + 1 - capacity = 0 := by omega
    rw [e1, e2, List.drop_zero, List.drop_zero]
  · rw [if_neg (by omega)]
    by_cases h0 : capacity = 0
    · rw [if_pos h0]
      subst h0
      simp
    · rw [if_neg h0, List.tail_drop]
      have e : l.length + 1 - capacity = l.length - capacity + 1 := by omega
      rw [e, List.drop_append_of_le_length (by omega)]

theorem fcch_run_succ_of_not_end (K : gsm_constants) (E : externals α)
    (inp : Int → gr_complex α) (nitems : Int) (c0 : fcch_config α) (n : Nat)
    (h : (fcch_run K E inp nitems c0 n).end_ = false) :
    fcch_run K E inp nitems c0 (n + 1) = fcch_step K E inp nitems (fcch_run K E inp nitems c0 n) := by
  rw [fcch_run, if_neg (by rw [h]; decide)]

theorem fcch_run_succ_of_end (K : gsm_constants) (E : externals α)
    (inp : Int → gr_complex α) (nitems : Int) (c0 : fcch_config α) (n : Nat)
    (h : (fcch_run K E inp nitems c0 n).end_ = true) :
    fcch_run K E inp nitems c0 (n + 1) = fcch_run K E inp nitems c0 n := by
  rw [fcch_run, if_pos h]

/-- The loop of `find_fcch_burst` returns the configuration reached after some number of
iterations. -/
theorem fcch_loop_eq_run (K : gsm_constants) (E : externals α) (inp : Int → gr_complex α)
    (nitems : Int) (c0 : fcch_config α) :
    ∃ n, fcch_loop K E inp nitems c0 = fcch_run K E inp nitems c0 n ∧
      (fcch_run K E inp nitems c0 n).end_ = true := by
  induction c0 using fcch_loop.induct K E inp nitems with
  | case1 c hend => exact ⟨0, fcch_loop_end K E inp nitems c hend, hend⟩
  | case2 c hend ih =>
    have hend : c.end_ = false := by simpa using hend
    obtain ⟨n, hn, he⟩ := ih
    have key : ∀ m, fcch_run K E inp nitems (fcch_step K E inp nitems c) m
        = fcch_run K E inp nitems c (m + 1) := by
      intro m
      induction m with
      | zero => rw [fcch_run_succ_of_not_end K E inp nitems c 0 hend]; rfl
      | succ m ihm =>
        rw [fcch_run, ihm]
        conv_rhs => rw [fcch_run]
    refine ⟨n + 1, ?_, ?_⟩
    · rw [fcch_loop_step K E inp nitems c hend, hn, key]
    · rw [← key]; exact he

/-- In every configuration reached by the loop of `find_fcch_burst`, `d_OSR` is the one
of the receiver. -/
theorem fcch_run_d_OSR (K : gsm_constants) (E : externals α) (inp : Int → gr_complex α)
    (nitems : Int) (self0 : receiver α) (n : Nat) :
    (fcch_run K E inp nitems (fcch_start self0) n).self.d_OSR = self0.d_OSR := by
  have hf : fcch_frame K E self0 (fcch_run K E inp nitems (fcch_start self0) n) := by
    induction n with
    | zero => exact fcch_frame_start K E self0
    | succ n ih =>
      rcases he : (fcch_run K E inp nitems (fcch_start self0) n).end_ with _ | _
      · rw [fcch_run_succ_of_not_end K E inp nitems _ n he]
        exact fcch_frame_step K E inp nitems self0 _ ih he
      · rw [fcch_run_succ_of_end K E inp nitems _ n he]
        exact ih
  rcases hr : (fcch_run K E inp nitems (fcch_start self0) n).result with _ | _
  · obtain ⟨b, hb⟩ := hf.2.1 hr
    rw [hb]
  · obtain ⟨b, hb, -⟩ := hf.2.2 hr
    rw [hb]
    rfl

theorem fcch_count_buffer (c : fcch_config α) :
    (fcch_count c).phase_diff_buffer = c.phase_diff_buffer := by
  unfold fcch_count; split_ifs <;> rfl

/-- The case `found_something` pushes the phase difference it has computed when it stays in
`found_something`, and leaves the buffer alone otherwise. -/
theorem fcch_found_something_buffer (K : gsm_constants) (E : externals α)
    (inp : Int → gr_complex α) (nitems : Int) (c : fcch_config α) :
    ((fcch_found_something K E inp nitems c).fcch_search_state = fcch_states.found_something →
      (fcch_found_something K E inp nitems c).phase_diff_buffer
        = circular_push_back (FCCH_BUFFER_SIZE K * c.self.d_OSR).toNat c.phase_diff_buffer
            (fcch_found_something K E inp nitems c).phase_diff) ∧
    ((fcch_found_something K E inp nitems c).fcch_search_state ≠ fcch_states.found_something →
      (fcch_found_something K E inp nitems c).phase_diff_buffer = c.phase_diff_buffer) := by
  obtain ⟨b1, -, -, -, -, -, b7, -, -, -⟩ := fcch_best_candidate_fields K E (fcch_count c)
  unfold fcch_found_something fcch_next_sample
  dsimp only
  split_ifs <;> dsimp only
  all_goals first
    | exact ⟨fun h => absurd h (by decide), fun _ => fcch_count_buffer c⟩
    | exact ⟨fun h => absurd h (by decide), fun _ => by rw [b7, fcch_count_buffer]⟩
    | exact ⟨fun _ => by rw [fcch_count_self, fcch_count_buffer], fun h => absurd rfl h⟩
    | exact ⟨fun _ => by rw [b1, b7, fcch_count_self, fcch_count_buffer], fun h => absurd rfl h⟩

theorem fcch_search_buffer (K : gsm_constants) (E : externals α)
    (inp : Int → gr_complex α) (nitems : Int) (c : fcch_config α) :
    (fcch_search K E inp nitems c).phase_diff_buffer = c.phase_diff_buffer := by
  unfold fcch_search
  dsimp only
  split_ifs <;> rfl

/-- The buffer holds the last phase differences pushed since the last `clear()`, as many
as its capacity allows and in the order in which they were pushed. -/
theorem fcch_run_buffer (K : gsm_constants) (E : externals α) (inp : Int → gr_complex α)
    (nitems : Int) (self0 : receiver α) (n : Nat) :
    (fcch_run K E inp nitems (fcch_start self0) n).phase_diff_buffer
      = (fcch_pushed K E inp nitems (fcch_start self0) n).drop
          ((fcch_pushed K E inp nitems (fcch_start self0) n).length
            - (FCCH_BUFFER_SIZE K * self0.d_OSR).toNat) := by
  induction n with
  | zero => simp [fcch_run, fcch_pushed, fcch_start]
  | succ n ih =>
    have hosr := fcch_run_d_OSR K E inp nitems self0 n
    rcases he : (fcch_run K E inp nitems (fcch_start self0) n).end_ with _ | _
    · have hrun := fcch_run_succ_of_not_end K E inp nitems (fcch_start self0) n he
      rw [fcch_pushed, if_neg (by rw [he]; decide), hrun]
      generalize fcch_run K E inp nitems (fcch_start self0) n = c at *
      generalize fcch_pushed K E inp nitems (fcch_start self0) n = l at *
      unfold fcch_step
      rcases hst : c.fcch_search_state with _ | _ | _ | _ | _ <;> dsimp only
      · simp [fcch_init]
      · rw [fcch_search_buffer]; exact ih
      · obtain ⟨f1, f2⟩ := fcch_found_something_buffer K E inp nitems c
        by_cases hs : (fcch_found_something K E inp nitems c).fcch_search_state
            = fcch_states.found_something
        · rw [if_pos hs, f1 hs, hosr, ih, circular_push_back_history]
        · rw [if_neg hs, f2 hs, ih]
      · exact ih
      · exact ih
    · rw [fcch_run_succ_of_end K E inp nitems _ n he, fcch_pushed, if_pos he]
      exact ih

/-- C9: throughout every run of `find_fcch_burst` the phase-difference buffer holds exactly
the last `min p capacity` phase differences pushed since the most recent `init`, in push
order, where `p` is the number of those pushes and `capacity = FCCH_BUFFER_SIZE * OSR`; so
its size never exceeds the capacity, a push into the full buffer drops the oldest entry,
and the pass through `init` empties it. The configuration that the loop returns is one of
those the run goes through. -/
theorem phase_diff_buffer_holds_last_pushes (K : gsm_constants) (E : externals α)
    (inp : Int → gr_complex α) (nitems : Int) (self0 : receiver α) :
    (∀ n,
      (fcch_run K E inp nitems (fcch_start self0) n).phase_diff_buffer
        = (fcch_pushed K E inp nitems (fcch_start self0) n).drop
            ((fcch_pushed K E inp nitems (fcch_start self0) n).length
              - (FCCH_BUFFER_SIZE K * self0.d_OSR).toNat) ∧
      (fcch_run K E inp nitems (fcch_start self0) n).phase_diff_buffer.length
        = min (fcch_pushed K E inp nitems (fcch_start self0) n).length
            (FCCH_BUFFER_SIZE K * self0.d_OSR).toNat ∧
      (fcch_run K E inp nitems (fcch_start self0) n).phase_diff_buffer.length
        ≤ (FCCH_BUFFER_SIZE K * self0.d_OSR).toNat ∧
      (∀ x, 0 < (FCCH_BUFFER_SIZE K * self0.d_OSR).toNat →
        (fcch_run K E inp nitems (fcch_start self0) n).phase_diff_buffer.length
          = (FCCH_BUFFER_SIZE K * self0.d_OSR).toNat →
        circular_push_back (FCCH_BUFFER_SIZE K * self0.d_OSR).toNat
            (fcch_run K E inp nitems (fcch_start self0) n).phase_diff_buffer x
          = (fcch_run K E inp nitems (fcch_start self0) n).phase_diff_buffer.tail ++ [x]) ∧
      ((fcch_run K E inp nitems (fcch_start self0) n).end_ = false →
        (fcch_run K E inp nitems (fcch_start self0) n).fcch_search_state = fcch_states.init →
        (fcch_run K E inp nitems (fcch_start self0) (n + 1)).phase_diff_buffer = [] ∧
        fcch_pushed K E inp nitems (fcch_start self0) (n + 1) = [])) ∧
    ∃ n, fcch_loop K E inp nitems (fcch_start self0)
      = fcch_run K E inp nitems (fcch_start self0) n := by
  refine ⟨fun n => ?_, ?_⟩
  · have hb := fcch_run_buffer K E inp nitems self0 n
    have hl : (fcch_run K E inp nitems (fcch_start self0) n).phase_diff_buffer.length
        = min (fcch_pushed K E inp nitems (fcch_start self0) n).length
            (FCCH_BUFFER_SIZE K * self0.d_OSR).toNat := by
      rw [hb, List.length_drop]
      omega
    refine ⟨hb, hl, by rw [hl]; exact min_le_right _ _, ?_, ?_⟩
    · intro x hpos hfull
      unfold circular_push_back
      rw [if_neg (by omega), if_neg (by omega)]
    · intro he hs
      rw [fcch_pushed, if_neg (by rw [he]; decide), hs,
        fcch_run_succ_of_not_end K E inp nitems _ n he]
      exact ⟨by simp [fcch_step, hs, fcch_init], rfl⟩
  · obtain ⟨n, hn, -⟩ := fcch_loop_eq_run K E inp nitems (fcch_start self0)
    exact ⟨n, hn⟩

/-! ## The recorded candidate -/

theorem foldl_min_ge (t : List α) (init lo : α) (h0 : lo ≤ init) (h : ∀ y ∈ t, lo ≤ y) :
    lo ≤ t.foldl min init := by
  induction t generalizing init with
  | nil => exact h0
  | cons y t ih =>
    rw [List.foldl_cons]
    exact ih _ (le_min h0 (h y (List.mem_cons_self _ _)))
      (fun z hz => h z (List.mem_cons_of_mem _ hz))

theorem foldl_max_le (t : List α) (init hi : α) (h0 : init ≤ hi) (h : ∀ y ∈ t, y ≤ hi) :
    t.foldl max init ≤ hi := by
  induction t generalizing init with
  | nil => exact h0
  | cons y t ih =>
    rw [List.foldl_cons]
    exact ih _ (max_le h0 (h y (List.mem_cons_self _ _)))
      (fun z hz => h z (List.mem_cons_of_mem _ hz))

/-- The least and the greatest element of a buffer that is not empty lie within any bounds
that hold for all its elements. -/
theorem min_max_element_bounds (l : List α) (lo hi : α) (hne : l ≠ [])
    (h : ∀ x ∈ l, lo ≤ x ∧ x ≤ hi) :
    lo ≤ min_element l ∧ max_element l ≤ hi := by
  cases l with
  | nil => exact absurd rfl hne
  | cons x t =>
    refine ⟨foldl_min_ge t x lo (h x (List.mem_cons_self _ _)).1
        (fun y hy => (h y (List.mem_cons_of_mem _ hy)).1),
      foldl_max_le t x hi (h x (List.mem_cons_self _ _)).2
        (fun y hy => (h y (List.mem_cons_of_mem _ hy)).2)⟩

theorem mem_phase_window (E : externals α) (inp : Int → gr_complex α) (s : Int) (n : Nat)
    (x : α) (hx : x ∈ phase_window E inp s n) :
    ∃ j, s - n + 1 ≤ j ∧ j ≤ s ∧ x = phase_diff_at E inp j := by
  unfold phase_window at hx
  obtain ⟨i, hi, rfl⟩ := List.mem_map.mp hx
  have := List.mem_range.mp hi
  exact ⟨s - n + 1 + i, by omega, by omega, rfl⟩

/-- When all the phase differences of the input lie between `lo` and `hi`, less than 99999
apart, every full window has a spread below 99999. -/
theorem fcch_spread_ok_of_bounds (E : externals α) (inp : Int → gr_complex α)
    (nitems W : Int) (lo hi : α) (hW1 : 1 ≤ W) (hlh : hi - lo < 99999)
    (h : ∀ s, 1 ≤ s → s < nitems → lo ≤ phase_diff_at E inp s ∧ phase_diff_at E inp s ≤ hi) :
    fcch_spread_ok E inp nitems W := by
  intro s hs1 hs2
  have hne : phase_window E inp s W.toNat ≠ [] := by
    intro h0
    have := phase_window_length E inp s W.toNat
    rw [h0] at this
    simp at this
    omega
  obtain ⟨h1, h2⟩ := min_max_element_bounds (phase_window E inp s W.toNat) lo hi hne
    (fun x hx => by
      obtain ⟨j, hj1, hj2, rfl⟩ := mem_phase_window E inp s W.toNat x hx
      exact h j (by omega) (by omega))
  linarith

theorem fcch_count_fields (c : fcch_config α) :
    (fcch_count c).self = c.self ∧ (fcch_count c).end_ = c.end_ ∧
    (fcch_count c).result = c.result ∧
    (fcch_count c).lowest_max_min_diff = c.lowest_max_min_diff ∧
    (fcch_count c).phase_diff_buffer = c.phase_diff_buffer ∧
    (fcch_count c).to_consume = c.to_consume ∧
    (fcch_count c).sample_number = c.sample_number ∧
    (fcch_count c).start_pos = c.start_pos ∧
    (fcch_count c).fcch_search_state = c.fcch_search_state := by
  unfold fcch_count
  split_ifs <;> exact ⟨rfl, rfl, rfl, rfl, rfl, rfl, rfl, rfl, rfl⟩

/-- The end of `found_something` keeps the recording invariant. -/
theorem fcch_recording_next_sample (K : gsm_constants) (E : externals α)
    (inp : Int → gr_complex α) (nitems osr W M : Int) (d : fcch_config α)
    (h1 : W < d.hit_count → d.lowest_max_min_diff < 99999)
    (h2 : d.lowest_max_min_diff < 99999 →
      d.self.d_best_sum = best_sum E osr (phase_window E inp (fcch_recorded_at W M d) W.toNat) ∧
      d.sample_number + 1 - (d.hit_count + d.miss_count) + W ≤ fcch_recorded_at W M d ∧
      fcch_recorded_at W M d ≤ d.sample_number) :
    fcch_recording E inp osr W M (fcch_next_sample K E inp nitems d) := by
  unfold fcch_next_sample
  dsimp only
  split_ifs with g
  · trivial
  · refine ⟨h1, fun hl => ?_⟩
    obtain ⟨e1, e2, e3⟩ := h2 hl
    refine ⟨e1, e2, ?_⟩
    show fcch_recorded_at W M d + 1 ≤ d.sample_number + 1
    omega

/-- Every iteration of the loop of `find_fcch_burst` keeps the recording invariant. -/
theorem fcch_recording_step (K : gsm_constants) (E : externals α) (inp : Int → gr_complex α)
    (nitems osr W M : Int) (c : fcch_config α)
    (hW : K.FCCH_HITS_NEEDED * osr = W) (hM : K.FCCH_MAX_MISSES * osr = M)
    (hW1 : 1 ≤ W) (hsp : fcch_spread_ok E inp nitems W)
    (hA : fcch_counting E inp nitems osr W M c) (hR : fcch_recording E inp osr W M c) :
    fcch_recording E inp osr W M (fcch_step K E inp nitems c) := by
  obtain ⟨hosr, hlow, -, hcase⟩ := hA
  unfold fcch_step
  rcases hst : c.fcch_search_state with _ | _ | _ | _ | _ <;>
    simp only [hst] at hcase ⊢ <;> unfold fcch_recording at hR <;> simp only [hst] at hR
  · -- init
    simp [fcch_init, fcch_recording]
  · -- search
    obtain ⟨-, h1, h2, h3, h4, h5, h6, h7, h8⟩ := hcase
    unfold fcch_search
    dsimp only
    split_ifs with g1 g2
    · trivial
    · refine ⟨fun h => ?_, fun h => ?_⟩
      · have : W < c.hit_count := h
        omega
      · have : c.lowest_max_min_diff < 99999 := h
        rw [h4] at this
        exact absurd this (lt_irrefl _)
    · trivial
  · -- found_something
    obtain ⟨-, h1, h2, h3, h4, h5, h6, h7, h8, h9⟩ := hcase
    obtain ⟨r1, r2⟩ := hR
    obtain ⟨c1, c2, c3⟩ := fcch_count_counts c
    obtain ⟨f1, f2, f3, f4, f5, f6, f7, f8, f9⟩ := fcch_count_fields c
    have hrec : fcch_recorded_at W M (fcch_count c) = fcch_recorded_at W M c := by
      unfold fcch_recorded_at; rw [f8]
    unfold fcch_found_something
    simp only [f1, hosr, hW, hM, mul_assoc]
    split_ifs with g1 g2 g3
    · trivial
    · have hgt : W < c.hit_count := by omega
      have hl := r1 hgt
      obtain ⟨e1, e2, e3⟩ := r2 hl
      refine ⟨by rw [← f4] at hl; exact hl, ?_, ?_, ?_⟩
      · show c.self.d_best_sum = best_sum E osr
          (phase_window E inp (fcch_recorded_at W M (fcch_count c)) W.toNat)
        rw [hrec]; exact e1
      · show (fcch_count c).sample_number - ((fcch_count c).hit_count + (fcch_count c).miss_count)
          + 1 + W ≤ fcch_recorded_at W M (fcch_count c)
        rw [hrec, f7]; omega
      · show fcch_recorded_at W M (fcch_count c) + 1 ≤ (fcch_count c).sample_number
        rw [hrec, f7]; exact e3
    · -- the third test holds: the candidate is compared and perhaps recorded
      have hfull : (min (c.hit_count + c.miss_count) W).toNat = W.toNat := by
        rw [min_eq_right (by omega)]
      have hbuf : (fcch_count c).phase_diff_buffer
          = phase_window E inp c.sample_number W.toNat := by rw [f5, h6, hfull]
      apply fcch_recording_next_sample
      · intro _
        unfold fcch_best_candidate
        dsimp only
        split_ifs with g4
        · exact lt_of_lt_of_le g4 (by rw [f4]; exact hlow)
        · rw [hbuf, f4] at g4
          rw [f4]
          exact lt_of_le_of_lt (not_lt.mp g4) (hsp c.sample_number (by omega) h9)
      · unfold fcch_best_candidate
        dsimp only
        split_ifs with g4
        · intro _
          refine ⟨?_, ?_, ?_⟩
          · show best_sum E (fcch_count c).self.d_OSR (fcch_count c).phase_diff_buffer
              = best_sum E osr (phase_window E inp
                ((fcch_count c).sample_number - K.FCCH_HITS_NEEDED * (fcch_count c).self.d_OSR
                  - K.FCCH_MAX_MISSES * (fcch_count c).self.d_OSR + W + M) W.toNat)
            rw [f1, hosr, hW, hM, hbuf, f7]
            congr 2
            ring
          · show (fcch_count c).sample_number + 1
                - ((fcch_count c).hit_count + (fcch_count c).miss_count) + W
              ≤ (fcch_count c).sample_number - K.FCCH_HITS_NEEDED * (fcch_count c).self.d_OSR
                  - K.FCCH_MAX_MISSES * (fcch_count c).self.d_OSR + W + M
            rw [f1, hosr, hW, hM, f7]
            omega
          · show (fcch_count c).sample_number - K.FCCH_HITS_NEEDED * (fcch_count c).self.d_OSR
                  - K.FCCH_MAX_MISSES * (fcch_count c).self.d_OSR + W + M
              ≤ (fcch_count c).sample_number
            rw [f1, hosr, hW, hM]
            omega
        · intro hl
          rw [f4] at hl
          obtain ⟨e1, e2, e3⟩ := r2 hl
          rw [hrec, f1, f7]
          exact ⟨e1, by omega, by omega⟩
    · apply fcch_recording_next_sample
      · intro hgt
        omega
      · intro hl
        rw [f4] at hl
        obtain ⟨e1, e2, e3⟩ := r2 hl
        rw [hrec, f1, f7]
        exact ⟨e1, by omega, by omega⟩
  · -- fcch_found
    obtain ⟨e0, e1, e2, e3⟩ := hR
    unfold fcch_recording
    simp only [fcch_fcch_found, hst]
    exact ⟨e0, e1, e2, e3⟩
  · -- search_fail
    simp [fcch_search_fail, fcch_recording, hst]

/-! ## A run of positive phase differences -/

/-- On an input whose phase differences are not positive before sample `a` and positive
from `a` to `a + 2 * W`, with at least one more sample after that, every iteration of the
loop of `find_fcch_burst` keeps the invariant of the positive run. -/
theorem fcch_positive_run_step (K : gsm_constants) (E : externals α)
    (inp : Int → gr_complex α) (nitems osr W M a : Int) (c : fcch_config α)
    (hW : K.FCCH_HITS_NEEDED * osr = W) (hM : K.FCCH_MAX_MISSES * osr = M)
    (hW1 : 1 ≤ W) (ha : 1 ≤ a) (hlen : a + 2 * W < nitems)
    (hneg : ∀ s, 1 ≤ s → s < a → phase_diff_at E inp s ≤ 0)
    (hpos : ∀ s, a ≤ s → s ≤ a + 2 * W → 0 < phase_diff_at E inp s)
    (hA : fcch_counting E inp nitems osr W M c) (hP : fcch_positive_run a W c) :
    fcch_positive_run a W (fcch_step K E inp nitems c) := by
  obtain ⟨hosr, hlow, -, hcase⟩ := hA
  unfold fcch_step
  unfold fcch_positive_run at hP
  rcases hst : c.fcch_search_state with _ | _ | _ | _ | _ <;>
    simp only [hst] at hcase hP ⊢
  · -- init
    show c.sample_number < a
    omega
  · -- search
    obtain ⟨-, h1, h2, h3, h4, h5, h6, h7, h8⟩ := hcase
    unfold fcch_search
    simp only [FCCH_BUFFER_SIZE, hosr, hW]
    split_ifs with g1 g2
    · exact absurd g1 (by omega)
    · have g2' : 0 < phase_diff_at E inp (c.sample_number + 1) := g2
      have : ¬ c.sample_number + 1 < a := fun hlt =>
        absurd (hneg _ (by omega) hlt) (not_le.mpr g2')
      refine ⟨?_, ?_, h2, ?_⟩
      · show a ≤ c.sample_number + 1
        omega
      · show c.sample_number + 1 ≤ a + 2 * W
        omega
      · show c.hit_count = c.sample_number + 1 - a
        omega
    · have g2' : ¬ 0 < phase_diff_at E inp (c.sample_number + 1) := g2
      have : c.sample_number + 1 ≠ a := fun he =>
        g2' (hpos _ (by omega) (by omega))
      show c.sample_number + 1 < a
      omega
  · -- found_something
    obtain ⟨-, h1, h2, h3, h4, h5, h6, h7, h8, h9⟩ := hcase
    obtain ⟨p1, p2, p3, p4⟩ := hP
    have hpd : c.phase_diff > 0 := by rw [h5]; exact hpos _ p1 p2
    have hcount : fcch_count c = { c with hit_count := c.hit_count + 1 } := by
      unfold fcch_count; rw [if_pos hpd]
    unfold fcch_found_something fcch_next_sample
    simp only [hcount, hosr, hW, hM, mul_assoc]
    have hb : (fcch_best_candidate K E { c with hit_count := c.hit_count + 1 }).sample_number
        = c.sample_number :=
      (fcch_best_candidate_fields K E _).2.2.2.2.2.2.2.2.1
    have hb5 : (fcch_best_candidate K E { c with hit_count := c.hit_count + 1 }).hit_count
        = c.hit_count + 1 :=
      (fcch_best_candidate_fields K E _).2.2.2.2.1
    have hb6 : (fcch_best_candidate K E { c with hit_count := c.hit_count + 1 }).miss_count
        = c.miss_count :=
      (fcch_best_candidate_fields K E _).2.2.2.2.2.1
    split_ifs with g1 g2 g3 g4 g5
    · exact absurd g1.1 (by omega)
    · refine ⟨?_, p3, ?_⟩
      · show c.sample_number = a + 2 * W
        rcases g2 with g | g
        · exact absurd g.1 (by omega)
        · omega
      · show c.hit_count + 1 = c.sample_number - a + 1
        omega
    · rw [hb] at g4; exact absurd g4 (by omega)
    · refine ⟨?_, ?_, ?_, ?_⟩
      · show a ≤ (fcch_best_candidate K E _).sample_number + 1
        rw [hb]; omega
      · show (fcch_best_candidate K E _).sample_number + 1 ≤ a + 2 * W
        rw [hb]; omega
      · show (fcch_best_candidate K E _).miss_count = 0
        rw [hb6]; exact p3
      · show (fcch_best_candidate K E _).hit_count
          = (fcch_best_candidate K E _).sample_number + 1 - a
        rw [hb5, hb]; omega
    · exact absurd g5 (by omega)
    · refine ⟨?_, ?_, p3, ?_⟩
      · show a ≤ c.sample_number + 1
        omega
      · show c.sample_number + 1 ≤ a + 2 * W
        omega
      · show c.hit_count + 1 = c.sample_number + 1 - a
        omega
  · -- fcch_found
    unfold fcch_positive_run
    simp only [fcch_fcch_found, hst]
    exact hP

/-! ## The sum behind the frequency offset -/

theorem best_sum_foldl (c : α) (l : List α) (init : α) :
    l.foldl (fun acc x => acc + (x - c)) init = init + l.sum - l.length * c := by
  induction l generalizing init with
  | nil => simp
  | cons x t ih =>
    rw [List.foldl_cons, ih, List.sum_cons, List.length_cons]
    push_cast
    ring

/-- The sum `d_best_sum` taken over a buffer is the sum of its entries less
`(M_PI / 2) / d_OSR` for each of them. -/
theorem best_sum_eq (E : externals α) (osr : Int) (l : List α) :
    best_sum E osr l = l.sum - l.length * ((E.M_PI / 2) / (osr : α)) := by
  unfold best_sum
  rw [best_sum_foldl, zero_add]

theorem best_sum_eq_zero (E : externals α) (osr : Int) (l : List α)
    (h : ∀ x ∈ l, x = (E.M_PI / 2) / (osr : α)) : best_sum E osr l = 0 := by
  rw [best_sum_eq]
  have : l.sum = l.length * ((E.M_PI / 2) / (osr : α)) := by
    induction l with
    | nil => simp
    | cons x t ih =>
      rw [List.sum_cons, List.length_cons, h x (List.mem_cons_self _ _),
        ih (fun y hy => h y (List.mem_cons_of_mem _ hy))]
      push_cast
      ring
  rw [this, sub_self]

/-! ## What a successful FCCH search has recorded -/

/-- When the spread of the windows of the input stays below 99999, a successful run of the
loop of `find_fcch_burst` ends in `fcch_found` with a candidate recorded in this call: more
than `W` hits were counted, the candidate was recorded at a sample `s = start_pos + W + M`
of the current attempt with `W < s < nitems`, and `d_best_sum` is the sum over the `W` phase
differences found at `s - W + 1, ..., s`. -/
theorem fcch_success_recorded (K : gsm_constants) (E : externals α)
    (inp : Int → gr_complex α) (nitems : Int) (self0 : receiver α)
    (hW1 : 1 ≤ K.FCCH_HITS_NEEDED * self0.d_OSR) (hM1 : 1 ≤ K.FCCH_MAX_MISSES * self0.d_OSR)
    (hsp : fcch_spread_ok E inp nitems (K.FCCH_HITS_NEEDED * self0.d_OSR))
    (hr : (fcch_loop K E inp nitems (fcch_start self0)).result = true) :
    K.FCCH_HITS_NEEDED * self0.d_OSR < (fcch_loop K E inp nitems (fcch_start self0)).hit_count ∧
    (fcch_loop K E inp nitems (fcch_start self0)).lowest_max_min_diff < 99999 ∧
    (fcch_loop K E inp nitems (fcch_start self0)).self.d_best_sum
      = best_sum E self0.d_OSR (phase_window E inp
          ((fcch_loop K E inp nitems (fcch_start self0)).start_pos
            + K.FCCH_HITS_NEEDED * self0.d_OSR + K.FCCH_MAX_MISSES * self0.d_OSR)
          (K.FCCH_HITS_NEEDED * self0.d_OSR).toNat) ∧
    K.FCCH_HITS_NEEDED * self0.d_OSR + 1
      ≤ (fcch_loop K E inp nitems (fcch_start self0)).start_pos
        + K.FCCH_HITS_NEEDED * self0.d_OSR + K.FCCH_MAX_MISSES * self0.d_OSR ∧
    (fcch_loop K E inp nitems (fcch_start self0)).start_pos
        + K.FCCH_HITS_NEEDED * self0.d_OSR + K.FCCH_MAX_MISSES * self0.d_OSR < nitems := by
  obtain ⟨⟨hc, hrec⟩, hend⟩ := fcch_loop_invariant K E inp nitems
    (fun c => fcch_counting E inp nitems self0.d_OSR (K.FCCH_HITS_NEEDED * self0.d_OSR)
      (K.FCCH_MAX_MISSES * self0.d_OSR) c ∧
      fcch_recording E inp self0.d_OSR (K.FCCH_HITS_NEEDED * self0.d_OSR)
        (K.FCCH_MAX_MISSES * self0.d_OSR) c)
    (fun c h he =>
      ⟨fcch_counting_step K E inp nitems self0.d_OSR _ _ c rfl rfl hW1 hM1 h.1 he,
       fcch_recording_step K E inp nitems self0.d_OSR _ _ c rfl rfl hW1 hsp h.1 h.2⟩)
    (fcch_start self0)
    ⟨fcch_counting_start E inp nitems _ _ self0, by simp [fcch_recording, fcch_start]⟩
  generalize fcch_loop K E inp nitems (fcch_start self0) = L at *
  obtain ⟨-, -, -, hcase⟩ := hc
  unfold fcch_recording at hrec
  rcases hs : L.fcch_search_state with _ | _ | _ | _ | _ <;> simp only [hs] at hcase hrec
  · rw [hcase.1] at hend; exact absurd hend (by decide)
  · rw [hcase.1] at hend; exact absurd hend (by decide)
  · rw [hcase.1] at hend; exact absurd hend (by decide)
  · obtain ⟨h1, h2, h3, h4, -⟩ := hcase
    obtain ⟨e0, e1, e2, e3⟩ := hrec
    unfold fcch_recorded_at at e1 e2 e3
    exact ⟨h1, e0, e1, by omega, by omega⟩
  · rw [hcase.2.2 hend] at hr; exact absurd hr (by decide)

/-- On an input whose phase differences are not positive before sample `a` and positive
from `a` to `a + 2 * W`, with at least one more sample after that, the loop of
`find_fcch_burst` succeeds, and the candidate it has recorded was recorded at a sample `s`
with `a + W ≤ s < a + 2 * W`. -/
theorem fcch_positive_run_loop (K : gsm_constants) (E : externals α)
    (inp : Int → gr_complex α) (nitems a : Int) (self0 : receiver α)
    (hW1 : 1 ≤ K.FCCH_HITS_NEEDED * self0.d_OSR) (hM1 : 1 ≤ K.FCCH_MAX_MISSES * self0.d_OSR)
    (hsp : fcch_spread_ok E inp nitems (K.FCCH_HITS_NEEDED * self0.d_OSR))
    (ha : 1 ≤ a) (hlen : a + 2 * (K.FCCH_HITS_NEEDED * self0.d_OSR) < nitems)
    (hneg : ∀ s, 1 ≤ s → s < a → phase_diff_at E inp s ≤ 0)
    (hpos : ∀ s, a ≤ s → s ≤ a + 2 * (K.FCCH_HITS_NEEDED * self0.d_OSR) →
      0 < phase_diff_at E inp s) :
    (fcch_loop K E inp nitems (fcch_start self0)).result = true ∧
    a + K.FCCH_HITS_NEEDED * self0.d_OSR
      ≤ (fcch_loop K E inp nitems (fcch_start self0)).start_pos
        + K.FCCH_HITS_NEEDED * self0.d_OSR + K.FCCH_MAX_MISSES * self0.d_OSR ∧
    (fcch_loop K E inp nitems (fcch_start self0)).start_pos
        + K.FCCH_HITS_NEEDED * self0.d_OSR + K.FCCH_MAX_MISSES * self0.d_OSR
      < a + 2 * (K.FCCH_HITS_NEEDED * self0.d_OSR) := by
  obtain ⟨⟨hc, hrec, hp⟩, hend⟩ := fcch_loop_invariant K E inp nitems
    (fun c => fcch_counting E inp nitems self0.d_OSR (K.FCCH_HITS_NEEDED * self0.d_OSR)
      (K.FCCH_MAX_MISSES * self0.d_OSR) c ∧
      fcch_recording E inp self0.d_OSR (K.FCCH_HITS_NEEDED * self0.d_OSR)
        (K.FCCH_MAX_MISSES * self0.d_OSR) c ∧
      fcch_positive_run a (K.FCCH_HITS_NEEDED * self0.d_OSR) c)
    (fun c h he =>
      ⟨fcch_counting_step K E inp nitems self0.d_OSR _ _ c rfl rfl hW1 hM1 h.1 he,
       fcch_recording_step K E inp nitems self0.d_OSR _ _ c rfl rfl hW1 hsp h.1 h.2.1,
       fcch_positive_run_step K E inp nitems self0.d_OSR _ _ a c rfl rfl hW1 ha hlen
        hneg hpos h.1 h.2.2⟩)
    (fcch_start self0)
    ⟨fcch_counting_start E inp nitems _ _ self0, by simp [fcch_recording, fcch_start],
      by simp [fcch_positive_run, fcch_start]⟩
  generalize fcch_loop K E inp nitems (fcch_start self0) = L at *
  obtain ⟨-, -, -, hcase⟩ := hc
  unfold fcch_recording at hrec
  unfold fcch_positive_run at hp
  rcases hs : L.fcch_search_state with _ | _ | _ | _ | _ <;> simp only [hs] at hcase hrec hp
  · rw [hcase.1] at hend; exact absurd hend (by decide)
  · rw [hcase.1] at hend; exact absurd hend (by decide)
  · rw [hcase.1] at hend; exact absurd hend (by decide)
  · obtain ⟨h1, h2, h3, h4, h5⟩ := hcase
    obtain ⟨e0, e1, e2, e3⟩ := hrec
    obtain ⟨p1, p2, p3⟩ := hp
    unfold fcch_recorded_at at e1 e2 e3
    exact ⟨h5 hend, by omega, by omega⟩

theorem fcch_step_hit_count (K : gsm_constants) (E : externals α) (inp : Int → gr_complex α)
    (nitems : Int) (c : fcch_config α) :
    (c.fcch_search_state = fcch_states.init →
      (fcch_step K E inp nitems c).fcch_search_state = fcch_states.search) ∧
    (c.fcch_search_state = fcch_states.search →
      (fcch_step K E inp nitems c).hit_count = c.hit_count) ∧
    (c.fcch_search_state = fcch_states.found_something →
      (fcch_step K E inp nitems c).hit_count = (fcch_count c).hit_count) ∧
    (c.fcch_search_state = fcch_states.fcch_found →
      (fcch_step K E inp nitems c).hit_count = c.hit_count) ∧
    (c.fcch_search_state = fcch_states.search_fail →
      (fcch_step K E inp nitems c).fcch_search_state = fcch_states.search_fail) := by
  refine ⟨fun h => ?_, fun h => ?_, fun h => ?_, fun h => ?_, fun h => ?_⟩ <;>
    simp only [fcch_step, h]
  · rfl
  · unfold fcch_search; dsimp only; split_ifs <;> rfl
  · have hb := (fcch_best_candidate_fields K E (fcch_count c)).2.2.2.2.1
    unfold fcch_found_something fcch_next_sample
    dsimp only
    split_ifs <;> first | rfl | exact hb
  · rfl
  · exact h

/-- When no phase difference is positive from sample `W + 1` on, the loop of
`find_fcch_burst` never counts more than `W` hits. -/
theorem fcch_early_hits_step (K : gsm_constants) (E : externals α)
    (inp : Int → gr_complex α) (nitems osr W M : Int) (c : fcch_config α)
    (hW : K.FCCH_HITS_NEEDED * osr = W) (hM : K.FCCH_MAX_MISSES * osr = M)
    (hW1 : 1 ≤ W) (hM1 : 1 ≤ M)
    (hlate : ∀ s, W + 1 ≤ s → s < nitems → phase_diff_at E inp s ≤ 0)
    (h : fcch_counting E inp nitems osr W M c ∧
      (c.fcch_search_state = fcch_states.found_something
        ∨ c.fcch_search_state = fcch_states.fcch_found → c.hit_count ≤ W))
    (hend : c.end_ = false) :
    fcch_counting E inp nitems osr W M (fcch_step K E inp nitems c) ∧
      ((fcch_step K E inp nitems c).fcch_search_state = fcch_states.found_something
        ∨ (fcch_step K E inp nitems c).fcch_search_state = fcch_states.fcch_found →
        (fcch_step K E inp nitems c).hit_count ≤ W) := by
  refine ⟨fcch_counting_step K E inp nitems osr W M c hW hM hW1 hM1 h.1 hend, fun hf => ?_⟩
  obtain ⟨s1, s2, s3, s4, s5⟩ := fcch_step_hit_count K E inp nitems c
  obtain ⟨hosr, -, -, hcase⟩ := h.1
  rcases hs : c.fcch_search_state with _ | _ | _ | _ | _ <;> simp only [hs] at hcase
  · rw [s1 hs] at hf
    rcases hf with hf | hf <;> exact absurd hf (by decide)
  · rw [s2 hs, hcase.2.1]; omega
  · obtain ⟨-, h1, h2, h3, h4, h5, -, h7, h8, h9⟩ := hcase
    have hq := h.2 (Or.inl hs)
    rw [s3 hs]
    by_cases hp : c.phase_diff > 0
    · have hc : (fcch_count c).hit_count = c.hit_count + 1 := by
        unfold fcch_count; rw [if_pos hp]
      have : ¬ W + 1 ≤ c.sample_number := fun hle =>
        absurd (hlate _ hle h9) (by rw [← h5]; exact not_le.mpr hp)
      omega
    · have hc : (fcch_count c).hit_count = c.hit_count := by
        unfold fcch_count; rw [if_neg hp]
      omega
  · rw [s4 hs]; exact h.2 (Or.inr hs)
  · rw [s5 hs] at hf
    rcases hf with hf | hf <;> exact absurd hf (by decide)

/-- When no phase difference is positive from sample `W + 1` on, `find_fcch_burst` fails. -/
theorem fcch_early_hits_loop (K : gsm_constants) (E : externals α)
    (inp : Int → gr_complex α) (nitems : Int) (self0 : receiver α)
    (hW1 : 1 ≤ K.FCCH_HITS_NEEDED * self0.d_OSR) (hM1 : 1 ≤ K.FCCH_MAX_MISSES * self0.d_OSR)
    (hlate : ∀ s, K.FCCH_HITS_NEEDED * self0.d_OSR + 1 ≤ s → s < nitems →
      phase_diff_at E inp s ≤ 0) :
    (fcch_loop K E inp nitems (fcch_start self0)).result = false := by
  obtain ⟨⟨hc, hq⟩, hend⟩ := fcch_loop_invariant K E inp nitems
    (fun c => fcch_counting E inp nitems self0.d_OSR (K.FCCH_HITS_NEEDED * self0.d_OSR)
      (K.FCCH_MAX_MISSES * self0.d_OSR) c ∧
      (c.fcch_search_state = fcch_states.found_something
        ∨ c.fcch_search_state = fcch_states.fcch_found →
        c.hit_count ≤ K.FCCH_HITS_NEEDED * self0.d_OSR))
    (fun c h he => fcch_early_hits_step K E inp nitems self0.d_OSR _ _ c rfl rfl hW1 hM1
      hlate h he)
    (fcch_start self0)
    ⟨fcch_counting_start E inp nitems _ _ self0, by simp [fcch_start]⟩
  generalize fcch_loop K E inp nitems (fcch_start self0) = L at *
  obtain ⟨-, -, -, hcase⟩ := hc
  rcases hs : L.fcch_search_state with _ | _ | _ | _ | _ <;> simp only [hs] at hcase
  · rw [hcase.1] at hend; exact absurd hend (by decide)
  · rw [hcase.1] at hend; exact absurd hend (by decide)
  · rw [hcase.1] at hend; exact absurd hend (by decide)
  · have := hq (Or.inr hs)
    omega
  · exact hcase.2.2 hend

/-! ## Two inputs: a rotating tone and a single turn -/

theorem rotating_tone_conjprod (s : Int) :
    (rotating_tone s : gr_complex α) * gr_complex.conj (rotating_tone (s - 1)) = ⟨0, 1⟩ := by
  have h4 : s % 4 = 0 ∨ s % 4 = 1 ∨ s % 4 = 2 ∨ s % 4 = 3 := by omega
  rcases h4 with h | h | h | h
  · have h' : (s - 1) % 4 = 3 := by omega
    simp only [rotating_tone, h, h']
    apply gr_complex.ext
    · show (1 : α) * 0 - 0 * -(-1) = 0
      ring
    · show (1 : α) * -(-1) + 0 * 0 = 1
      ring
  · have h' : (s - 1) % 4 = 0 := by omega
    simp only [rotating_tone, h, h']
    apply gr_complex.ext
    · show (0 : α) * 1 - 1 * -0 = 0
      ring
    · show (0 : α) * -0 + 1 * 1 = 1
      ring
  · have h' : (s - 1) % 4 = 1 := by omega
    simp only [rotating_tone, h, h']
    apply gr_complex.ext
    · show (-1 : α) * 0 - 0 * -1 = 0
      ring
    · show (-1 : α) * -1 + 0 * 0 = 1
      ring
  · have h' : (s - 1) % 4 = 2 := by omega
    simp only [rotating_tone, h, h']
    apply gr_complex.ext
    · show (0 : α) * -1 - -1 * -0 = 0
      ring
    · show (0 : α) * -0 + -1 * -1 = 1
      ring

/-- The phase difference of the rotating tone is the arctangent of `(1, 0)` at every
sample. -/
theorem phase_diff_at_rotating_tone (E : externals α) (s : Int) :
    phase_diff_at E rotating_tone s = E.gr_fast_atan2f 1 0 := by
  unfold phase_diff_at compute_phase_diff
  rw [rotating_tone_conjprod]

/-- With the exact arctangent, the phase difference of the rotating tone is `π / 2`. -/
theorem phase_diff_at_rotating_tone_real (abs : gr_complex ℝ → ℝ)
    (viterbi_detector : List (gr_complex ℝ) → Int → List (gr_complex ℝ) → Int → List Int →
      Int → List ℝ) (decode_sch : List Bool → Int × Int) (s : Int) :
    phase_diff_at ⟨Real.pi, fun y x => Complex.arg ⟨x, y⟩, abs, viterbi_detector, decode_sch⟩
      rotating_tone s = Real.pi / 2 := by
  rw [phase_diff_at_rotating_tone]
  exact Complex.arg_I

/-- With the exact arctangent, the single turn has the phase difference `π / 2` at sample 1
and none that is positive after it. -/
theorem phase_diff_at_single_turn_real (abs : gr_complex ℝ → ℝ)
    (viterbi_detector : List (gr_complex ℝ) → Int → List (gr_complex ℝ) → Int → List Int →
      Int → List ℝ) (decode_sch : List Bool → Int × Int) :
    phase_diff_at ⟨Real.pi, fun y x => Complex.arg ⟨x, y⟩, abs, viterbi_detector, decode_sch⟩
      single_turn 1 = Real.pi / 2 ∧
    ∀ s : Int, 2 ≤ s →
      phase_diff_at ⟨Real.pi, fun y x => Complex.arg ⟨x, y⟩, abs, viterbi_detector, decode_sch⟩
        single_turn s ≤ 0 := by
  constructor
  · have e : (single_turn 1 : gr_complex ℝ) * gr_complex.conj (single_turn (1 - 1)) = ⟨0, 1⟩ := by
      apply gr_complex.ext
      · show (0 : ℝ) * 1 - 1 * -0 = 0
        ring
      · show (0 : ℝ) * -0 + 1 * 1 = 1
        ring
    unfold phase_diff_at compute_phase_diff
    rw [e]
    exact Complex.arg_I
  · intro s hs
    unfold phase_diff_at compute_phase_diff
    by_cases h2 : s = 2
    · subst h2
      have e : (single_turn 2 : gr_complex ℝ) * gr_complex.conj (single_turn (2 - 1))
          = ⟨0, -1⟩ := by
        apply gr_complex.ext
        · show (1 : ℝ) * 0 - 0 * -1 = 0
          ring
        · show (1 : ℝ) * -1 + 0 * 0 = -1
          ring
      rw [e]
      have : (⟨0, -1⟩ : ℂ) = -Complex.I := by
        apply Complex.ext <;> simp
      show Complex.arg ⟨0, -1⟩ ≤ 0
      rw [this, Complex.arg_neg_I]
      linarith [Real.pi_pos]
    · have e : (single_turn s : gr_complex ℝ) * gr_complex.conj (single_turn (s - 1))
          = ⟨1, 0⟩ := by
        have h1 : ¬ s = 1 := by omega
        have h3 : ¬ s - 1 = 1 := by omega
        simp only [single_turn, h1, h3, if_false]
        apply gr_complex.ext
        · show (1 : ℝ) * 1 - 0 * -0 = 1
          ring
        · show (1 : ℝ) * -0 + 0 * 1 = 0
          ring
      rw [e]
      have : (⟨1, 0⟩ : ℂ) = 1 := by
        apply Complex.ext <;> simp
      show Complex.arg ⟨1, 0⟩ ≤ 0
      rw [this, Complex.arg_one]

/-- A window of an input whose phase differences all have the value `v` holds `v` only. -/
theorem phase_window_const (E : externals α) (inp : Int → gr_complex α) (s : Int) (n : Nat)
    (lo hi : Int) (v : α) (h : ∀ j, lo ≤ j → j ≤ hi → phase_diff_at E inp j = v)
    (h1 : lo ≤ s - n + 1) (h2 : s ≤ hi) :
    ∀ x ∈ phase_window E inp s n, x = v := by
  intro x hx
  obtain ⟨j, hj1, hj2, rfl⟩ := mem_phase_window E inp s n x hx
  exact h j (by omega) (by omega)

/-! ## What a successful call of `find_fcch_burst` leaves in the receiver -/

/-- When the spread of the windows of the input stays below 99999, a successful call of
`find_fcch_burst` has recorded its candidate at a sample `s` with `W < s < nitems`: it sets
`d_fcch_start_pos` to `d_counter + (s - W - M)`, consumes `s - M + 1` samples, leaves in
`d_best_sum` the sum over the `W` phase differences found at `s - W + 1, ..., s`, and
subtracts `d_best_sum / FCCH_HITS_NEEDED * 1625000 / (12 * M_PI)` from `d_freq_offset`. -/
theorem find_fcch_burst_recorded (K : gsm_constants) (E : externals α) (self : receiver α)
    (inp : Int → gr_complex α) (nitems : Int)
    (hW1 : 1 ≤ K.FCCH_HITS_NEEDED * self.d_OSR) (hM1 : 1 ≤ K.FCCH_MAX_MISSES * self.d_OSR)
    (hsp : fcch_spread_ok E inp nitems (K.FCCH_HITS_NEEDED * self.d_OSR))
    (hr : (find_fcch_burst K E self inp nitems).2 = true) :
    ∃ s, s = (fcch_loop K E inp nitems (fcch_start (self.log call.find_fcch_burst))).start_pos
        + K.FCCH_HITS_NEEDED * self.d_OSR + K.FCCH_MAX_MISSES * self.d_OSR ∧
      K.FCCH_HITS_NEEDED * self.d_OSR + 1 ≤ s ∧ s < nitems ∧
      (find_fcch_burst K E self inp nitems).1.d_fcch_start_pos
        = self.d_counter + (s - K.FCCH_HITS_NEEDED * self.d_OSR - K.FCCH_MAX_MISSES * self.d_OSR) ∧
      (find_fcch_burst K E self inp nitems).1.d_counter
        = self.d_counter + (s - K.FCCH_MAX_MISSES * self.d_OSR + 1) ∧
      (find_fcch_burst K E self inp nitems).1.d_best_sum
        = best_sum E self.d_OSR (phase_window E inp s (K.FCCH_HITS_NEEDED * self.d_OSR).toNat) ∧
      (find_fcch_burst K E self inp nitems).1.d_freq_offset
        = self.d_freq_offset - (find_fcch_burst K E self inp nitems).1.d_best_sum
            / (K.FCCH_HITS_NEEDED : α) * 1625000 / (12 * E.M_PI) ∧
      (find_fcch_burst K E self inp nitems).1.d_x_temp
        = self.d_x_temp + (find_fcch_burst K E self inp nitems).1.d_best_sum
            / (K.FCCH_HITS_NEEDED : α) * 1625000 / (12 * E.M_PI) := by
  obtain ⟨b, sp, hsp', hb, heq⟩ := find_fcch_burst_true K E self inp nitems hr
  obtain ⟨-, -, e1, e2, e3⟩ := fcch_success_recorded K E inp nitems
    (self.log call.find_fcch_burst) hW1 hM1 hsp hr
  have ed : (self.log call.find_fcch_burst).d_OSR = self.d_OSR := rfl
  rw [ed] at e1 e2 e3
  rw [hsp'] at e1 e2 e3 ⊢
  rw [hb] at e1
  refine ⟨_, rfl, e2, e3, ?_, ?_, ?_, ?_, ?_⟩
  · rw [heq]
    show self.d_counter + sp = _
    ring
  · rw [heq]
    show self.d_counter + (sp + K.FCCH_HITS_NEEDED * self.d_OSR + 1) = _
    ring
  · rw [heq]
    exact e1
  · rw [heq]
  · rw [heq]

/-- The frequency offset in terms of the mean of the buffer: with `W = H * OSR` entries in
the buffer, `d_best_sum / H` is `OSR` times the mean less `(M_PI / 2) / OSR`. -/
theorem best_sum_div_hits (E : externals α) (H osr : Int) (hH : 1 ≤ H) (hosr : 1 ≤ osr)
    (l : List α) (hl : l.length = (H * osr).toNat) :
    best_sum E osr l / (H : α)
      = (osr : α) * (l.sum / ((H * osr : Int) : α) - (E.M_PI / 2) / (osr : α)) := by
  have h1 : (H : α) ≠ 0 := by
    have : (0 : α) < (H : α) := by exact_mod_cast (by omega : 0 < H)
    exact ne_of_gt this
  have h2 : (osr : α) ≠ 0 := by
    have : (0 : α) < (osr : α) := by exact_mod_cast (by omega : 0 < osr)
    exact ne_of_gt this
  have hpos : 0 ≤ H * osr := by positivity
  have hlen : (l.length : α) = (H : α) * (osr : α) := by
    rw [hl]
    have : (((H * osr).toNat : Int) : α) = ((H * osr : Int) : α) := by
      rw [Int.toNat_of_nonneg hpos]
    rw [← Int.cast_mul, ← this]
    norm_cast
  rw [best_sum_eq, hlen]
  push_cast
  field_simp
  ring

/-! ## Detection of a run of positive phase differences (C5) -/

theorem fcch_spread_ok_of_abs (E : externals α) (inp : Int → gr_complex α) (nitems W : Int)
    (hW1 : 1 ≤ W) (hpi : 2 * E.M_PI < 99999)
    (hphase : ∀ s, |phase_diff_at E inp s| ≤ E.M_PI) :
    fcch_spread_ok E inp nitems W :=
  fcch_spread_ok_of_bounds E inp nitems W (-E.M_PI) E.M_PI hW1 (by linarith)
    (fun s _ _ => abs_le.mp (hphase s))

/-- C5, counterexample: with one hit needed, one miss tolerated and `OSR = 1`, the input
`1, j, 1, 1, 1` has a run of one positive phase difference (`π / 2`, at sample 1), and
`find_fcch_burst` reports failure on it. -/
theorem find_fcch_burst_misses_run_of_needed_length :
    0 < phase_diff_at (⟨Real.pi, fun y x => Complex.arg ⟨x, y⟩, fun z => Real.sqrt (z.re ^ 2 + z.im ^ 2),
        fun _ _ _ _ _ _ => [], fun _ => (0, 0)⟩ : externals ℝ) single_turn 1 ∧
    (find_fcch_burst small_constants (⟨Real.pi, fun y x => Complex.arg ⟨x, y⟩, fun z => Real.sqrt (z.re ^ 2 + z.im ^ 2),
        fun _ _ _ _ _ _ => [], fun _ => (0, 0)⟩ : externals ℝ) (gsm_receiver_cf small_constants 1 0 0)
      single_turn 5).2 = false := by
  obtain ⟨h1, h2⟩ := phase_diff_at_single_turn_real
    (fun z => Real.sqrt (z.re ^ 2 + z.im ^ 2)) (fun _ _ _ _ _ _ => []) (fun _ => (0, 0))
  refine ⟨by rw [h1]; exact div_pos Real.pi_pos two_pos, ?_⟩
  exact fcch_early_hits_loop small_constants _ single_turn 5 _ (by decide) (by decide)
    (fun s hs _ => h2 s (by
      have : small_constants.FCCH_HITS_NEEDED *
          ((gsm_receiver_cf small_constants 1 (0 : ℝ) 0).log call.find_fcch_burst).d_OSR = 1 := by
        decide
      omega))

/-- C5, as the source has it: let the phase differences of the input lie in `[-π, π]`, let
none be positive before sample `a ≥ 1`, and let those found at `a, ..., a + 2 * H * OSR` be
positive (a run of more than `2 * H * OSR`), with at least one further sample supplied.
Then `find_fcch_burst` reports success, and the start position it records is `M * OSR`
samples before a sample among the first `H * OSR` of the run:
`a ≤ start_pos + M * OSR ≤ a + H * OSR - 1`; it consumes `start_pos + H * OSR + 1`
samples. -/
theorem find_fcch_burst_finds_long_run (K : gsm_constants) (E : externals α)
    (self : receiver α) (inp : Int → gr_complex α) (nitems a : Int)
    (hOSR : 1 ≤ self.d_OSR) (hH : 1 ≤ K.FCCH_HITS_NEEDED) (hM : 1 ≤ K.FCCH_MAX_MISSES)
    (hpi : 2 * E.M_PI < 99999) (hphase : ∀ s, |phase_diff_at E inp s| ≤ E.M_PI)
    (ha : 1 ≤ a) (hlen : a + 2 * (K.FCCH_HITS_NEEDED * self.d_OSR) < nitems)
    (hneg : ∀ s, 1 ≤ s → s < a → phase_diff_at E inp s ≤ 0)
    (hpos : ∀ s, a ≤ s → s ≤ a + 2 * (K.FCCH_HITS_NEEDED * self.d_OSR) →
      0 < phase_diff_at E inp s) :
    (find_fcch_burst K E self inp nitems).2 = true ∧
    ∃ start_pos,
      (find_fcch_burst K E self inp nitems).1.d_fcch_start_pos = self.d_counter + start_pos ∧
      a ≤ start_pos + K.FCCH_MAX_MISSES * self.d_OSR ∧
      start_pos + K.FCCH_MAX_MISSES * self.d_OSR ≤ a + K.FCCH_HITS_NEEDED * self.d_OSR - 1 ∧
      (find_fcch_burst K E self inp nitems).1.d_counter
        = self.d_counter + (start_pos + K.FCCH_HITS_NEEDED * self.d_OSR + 1) := by
  have hW1 : 1 ≤ K.FCCH_HITS_NEEDED * self.d_OSR := by nlinarith
  have hM1 : 1 ≤ K.FCCH_MAX_MISSES * self.d_OSR := by nlinarith
  have hsp := fcch_spread_ok_of_abs E inp nitems _ hW1 hpi hphase
  obtain ⟨hr, b1, b2⟩ := fcch_positive_run_loop K E inp nitems a
    (self.log call.find_fcch_burst) hW1 hM1 hsp ha hlen hneg hpos
  have hr' : (find_fcch_burst K E self inp nitems).2 = true := hr
  obtain ⟨s, hs, -, -, e1, e2, -⟩ := find_fcch_burst_recorded K E self inp nitems hW1 hM1 hsp hr'
  have ed : (self.log call.find_fcch_burst).d_OSR = self.d_OSR := rfl
  rw [ed, ← hs] at b1 b2
  refine ⟨hr', s - K.FCCH_HITS_NEEDED * self.d_OSR - K.FCCH_MAX_MISSES * self.d_OSR,
    e1, by omega, by omega, ?_⟩
  rw [e2]
  ring

/-- C5, witness: the rotating tone `1, j, -1, -j` with one hit needed, one miss tolerated
and `OSR = 1`; all its phase differences are `π / 2`. -/
theorem find_fcch_burst_finds_long_run_witness :
    (1 ≤ (gsm_receiver_cf small_constants 1 (0 : ℝ) 0).d_OSR ∧
      1 ≤ small_constants.FCCH_HITS_NEEDED ∧ 1 ≤ small_constants.FCCH_MAX_MISSES ∧
      2 * ((⟨Real.pi, fun y x => Complex.arg ⟨x, y⟩, fun z => Real.sqrt (z.re ^ 2 + z.im ^ 2),
        fun _ _ _ _ _ _ => [], fun _ => (0, 0)⟩ : externals ℝ)).M_PI < 99999 ∧
      (∀ s, |phase_diff_at (⟨Real.pi, fun y x => Complex.arg ⟨x, y⟩, fun z => Real.sqrt (z.re ^ 2 + z.im ^ 2),
        fun _ _ _ _ _ _ => [], fun _ => (0, 0)⟩ : externals ℝ) rotating_tone s| ≤ ((⟨Real.pi, fun y x => Complex.arg ⟨x, y⟩, fun z => Real.sqrt (z.re ^ 2 + z.im ^ 2),
        fun _ _ _ _ _ _ => [], fun _ => (0, 0)⟩ : externals ℝ)).M_PI) ∧
      (1 : Int) ≤ 1 ∧
      (1 : Int) + 2 * (small_constants.FCCH_HITS_NEEDED
        * (gsm_receiver_cf small_constants 1 (0 : ℝ) 0).d_OSR) < 4 ∧
      (∀ s : Int, 1 ≤ s → s < 1 → phase_diff_at (⟨Real.pi, fun y x => Complex.arg ⟨x, y⟩, fun z => Real.sqrt (z.re ^ 2 + z.im ^ 2),
        fun _ _ _ _ _ _ => [], fun _ => (0, 0)⟩ : externals ℝ) rotating_tone s ≤ 0) ∧
      (∀ s : Int, 1 ≤ s → s ≤ 1 + 2 * (small_constants.FCCH_HITS_NEEDED
        * (gsm_receiver_cf small_constants 1 (0 : ℝ) 0).d_OSR) →
        0 < phase_diff_at (⟨Real.pi, fun y x => Complex.arg ⟨x, y⟩, fun z => Real.sqrt (z.re ^ 2 + z.im ^ 2),
        fun _ _ _ _ _ _ => [], fun _ => (0, 0)⟩ : externals ℝ) rotating_tone s)) ∧
    (find_fcch_burst small_constants (⟨Real.pi, fun y x => Complex.arg ⟨x, y⟩, fun z => Real.sqrt (z.re ^ 2 + z.im ^ 2),
        fun _ _ _ _ _ _ => [], fun _ => (0, 0)⟩ : externals ℝ) (gsm_receiver_cf small_constants 1 0 0)
      rotating_tone 4).2 = true := by
  have hpd := phase_diff_at_rotating_tone_real
    (fun z => Real.sqrt (z.re ^ 2 + z.im ^ 2)) (fun _ _ _ _ _ _ => []) (fun _ => (0, 0))
  have h1 : 1 ≤ (gsm_receiver_cf small_constants 1 (0 : ℝ) 0).d_OSR := by decide
  have h2 : (1 : Int) ≤ small_constants.FCCH_HITS_NEEDED := by decide
  have h3 : (1 : Int) ≤ small_constants.FCCH_MAX_MISSES := by decide
  have h4 : 2 * ((⟨Real.pi, fun y x => Complex.arg ⟨x, y⟩, fun z => Real.sqrt (z.re ^ 2 + z.im ^ 2),
        fun _ _ _ _ _ _ => [], fun _ => (0, 0)⟩ : externals ℝ)).M_PI < 99999 := by
    show 2 * Real.pi < 99999
    linarith [Real.pi_lt_four]
  have h5 : ∀ s, |phase_diff_at (⟨Real.pi, fun y x => Complex.arg ⟨x, y⟩, fun z => Real.sqrt (z.re ^ 2 + z.im ^ 2),
        fun _ _ _ _ _ _ => [], fun _ => (0, 0)⟩ : externals ℝ) rotating_tone s| ≤ ((⟨Real.pi, fun y x => Complex.arg ⟨x, y⟩, fun z => Real.sqrt (z.re ^ 2 + z.im ^ 2),
        fun _ _ _ _ _ _ => [], fun _ => (0, 0)⟩ : externals ℝ)).M_PI := by
    intro s
    rw [hpd, abs_of_pos (div_pos Real.pi_pos two_pos)]
    show Real.pi / 2 ≤ Real.pi
    linarith [Real.pi_pos]
  have h6 : (1 : Int) + 2 * (small_constants.FCCH_HITS_NEEDED
      * (gsm_receiver_cf small_constants 1 (0 : ℝ) 0).d_OSR) < 4 := by decide
  have h7 : ∀ s : Int, 1 ≤ s → s < 1 → phase_diff_at (⟨Real.pi, fun y x => Complex.arg ⟨x, y⟩, fun z => Real.sqrt (z.re ^ 2 + z.im ^ 2),
        fun _ _ _ _ _ _ => [], fun _ => (0, 0)⟩ : externals ℝ) rotating_tone s ≤ 0 :=
    fun s hs1 hs2 => absurd hs1 (by omega)
  have h8 : ∀ s : Int, 1 ≤ s → s ≤ 1 + 2 * (small_constants.FCCH_HITS_NEEDED
      * (gsm_receiver_cf small_constants 1 (0 : ℝ) 0).d_OSR) →
      0 < phase_diff_at (⟨Real.pi, fun y x => Complex.arg ⟨x, y⟩, fun z => Real.sqrt (z.re ^ 2 + z.im ^ 2),
        fun _ _ _ _ _ _ => [], fun _ => (0, 0)⟩ : externals ℝ) rotating_tone s :=
    fun s _ _ => by rw [hpd]; exact div_pos Real.pi_pos two_pos
  exact ⟨⟨h1, h2, h3, h4, h5, le_refl _, h6, h7, h8⟩,
    (find_fcch_burst_finds_long_run small_constants (⟨Real.pi, fun y x => Complex.arg ⟨x, y⟩, fun z => Real.sqrt (z.re ^ 2 + z.im ^ 2),
        fun _ _ _ _ _ _ => [], fun _ => (0, 0)⟩ : externals ℝ)
      (gsm_receiver_cf small_constants 1 0 0) rotating_tone 4 1
      h1 h2 h3 h4 h5 (le_refl _) h6 h7 h8).1⟩

/-! ## The ideal tone (C6) -/

/-- On an input whose phase differences are all equal and positive, with at least
`2 * W + 2` samples, `find_fcch_burst` succeeds, and the window over which it has summed
lies inside the input. -/
theorem find_fcch_burst_constant_tone (K : gsm_constants) (E : externals α)
    (self : receiver α) (inp : Int → gr_complex α) (nitems : Int) (v : α)
    (hW1 : 1 ≤ K.FCCH_HITS_NEEDED * self.d_OSR) (hM1 : 1 ≤ K.FCCH_MAX_MISSES * self.d_OSR)
    (hv : 0 < v) (hn : 2 * (K.FCCH_HITS_NEEDED * self.d_OSR) + 2 ≤ nitems)
    (htone : ∀ s, 1 ≤ s → s < nitems → phase_diff_at E inp s = v) :
    (find_fcch_burst K E self inp nitems).2 = true ∧
    (∀ x ∈ phase_window E inp
        ((fcch_loop K E inp nitems (fcch_start (self.log call.find_fcch_burst))).start_pos
          + K.FCCH_HITS_NEEDED * self.d_OSR + K.FCCH_MAX_MISSES * self.d_OSR)
        (K.FCCH_HITS_NEEDED * self.d_OSR).toNat, x = v) ∧
    fcch_spread_ok E inp nitems (K.FCCH_HITS_NEEDED * self.d_OSR) := by
  have hsp : fcch_spread_ok E inp nitems (K.FCCH_HITS_NEEDED * self.d_OSR) :=
    fcch_spread_ok_of_bounds E inp nitems _ v v hW1 (by norm_num)
      (fun s h1 h2 => by rw [htone s h1 h2]; exact ⟨le_refl _, le_refl _⟩)
  obtain ⟨hr, b1, b2⟩ := fcch_positive_run_loop K E inp nitems 1
    (self.log call.find_fcch_burst) hW1 hM1 hsp (le_refl _)
    (by show 1 + 2 * (K.FCCH_HITS_NEEDED * self.d_OSR) < nitems; omega)
    (fun s h1 h2 => absurd h1 (by omega))
    (fun s h1 h2 => by
      have h2' : s ≤ 1 + 2 * (K.FCCH_HITS_NEEDED * self.d_OSR) := h2
      rw [htone s h1 (by omega)]; exact hv)
  have ed : (self.log call.find_fcch_burst).d_OSR = self.d_OSR := rfl
  rw [ed] at b1 b2
  refine ⟨hr, ?_, hsp⟩
  exact phase_window_const E inp _ _ 1 (nitems - 1) v
    (fun j h1 h2 => htone j h1 (by omega))
    (by rw [Int.toNat_of_nonneg (by omega)]; omega) (by omega)

/-- C6: in exact arithmetic, with `M_PI > 0`, `OSR ≥ 1`, `FCCH_HITS_NEEDED ≥
FCCH_MAX_MISSES ≥ 1`, and an input of at least `2 * FCCH_HITS_NEEDED * OSR + 2` samples
whose phase differences all equal `(M_PI / 2) / OSR`, `find_fcch_burst` reports success,
the frequency offset that `compute_freq_offset` computes is exactly 0 (`d_best_sum` is 0,
nothing is added to `d_x_temp`), and `d_freq_offset` is unchanged. -/
theorem find_fcch_burst_ideal_tone (K : gsm_constants) (E : externals α)
    (self : receiver α) (inp : Int → gr_complex α) (nitems : Int)
    (hpi : 0 < E.M_PI) (hOSR : 1 ≤ self.d_OSR) (hM : 1 ≤ K.FCCH_MAX_MISSES)
    (hHM : K.FCCH_MAX_MISSES ≤ K.FCCH_HITS_NEEDED)
    (hn : 2 * K.FCCH_HITS_NEEDED * self.d_OSR + 2 ≤ nitems)
    (htone : ∀ s, 1 ≤ s → s < nitems →
      phase_diff_at E inp s = (E.M_PI / 2) / (self.d_OSR : α)) :
    (find_fcch_burst K E self inp nitems).2 = true ∧
    (find_fcch_burst K E self inp nitems).1.d_best_sum = 0 ∧
    (compute_freq_offset K E (find_fcch_burst K E self inp nitems).1).2 = 0 ∧
    (find_fcch_burst K E self inp nitems).1.d_freq_offset = self.d_freq_offset ∧
    (find_fcch_burst K E self inp nitems).1.d_x_temp = self.d_x_temp := by
  have hM1 : 1 ≤ K.FCCH_MAX_MISSES * self.d_OSR := by nlinarith
  have hW1 : 1 ≤ K.FCCH_HITS_NEEDED * self.d_OSR := by nlinarith
  have hv : 0 < (E.M_PI / 2) / (self.d_OSR : α) := by
    have : (0 : α) < (self.d_OSR : α) := by exact_mod_cast (by omega : 0 < self.d_OSR)
    positivity
  obtain ⟨hr, hwin, hsp⟩ := find_fcch_burst_constant_tone K E self inp nitems _ hW1 hM1 hv
    (by rw [← mul_assoc]; exact hn) htone
  obtain ⟨s, hs, -, -, -, -, e3, e4, e5⟩ :=
    find_fcch_burst_recorded K E self inp nitems hW1 hM1 hsp hr
  rw [← hs] at hwin
  have hb : (find_fcch_burst K E self inp nitems).1.d_best_sum = 0 := by
    rw [e3]; exact best_sum_eq_zero E self.d_OSR _ hwin
  refine ⟨hr, hb, ?_, ?_, ?_⟩
  · show (find_fcch_burst K E self inp nitems).1.d_best_sum / (K.FCCH_HITS_NEEDED : α)
      * 1625000 / (12 * E.M_PI) = 0
    rw [hb]; simp
  · rw [e4, hb]; simp
  · rw [e5, hb]; simp

/-- C6, witness: the rotating tone with `OSR = 1`, one hit needed and one miss tolerated:
its phase differences are `π / 2 = (π / 2) / OSR`. -/
theorem find_fcch_burst_ideal_tone_witness :
    (0 < ((⟨Real.pi, fun y x => Complex.arg ⟨x, y⟩, fun z => Real.sqrt (z.re ^ 2 + z.im ^ 2),
        fun _ _ _ _ _ _ => [], fun _ => (0, 0)⟩ : externals ℝ)).M_PI ∧
      1 ≤ (gsm_receiver_cf small_constants 1 (0 : ℝ) 0).d_OSR ∧
      1 ≤ small_constants.FCCH_MAX_MISSES ∧
      small_constants.FCCH_MAX_MISSES ≤ small_constants.FCCH_HITS_NEEDED ∧
      2 * small_constants.FCCH_HITS_NEEDED
        * (gsm_receiver_cf small_constants 1 (0 : ℝ) 0).d_OSR + 2 ≤ 4 ∧
      (∀ s : Int, 1 ≤ s → s < 4 → phase_diff_at (⟨Real.pi, fun y x => Complex.arg ⟨x, y⟩, fun z => Real.sqrt (z.re ^ 2 + z.im ^ 2),
        fun _ _ _ _ _ _ => [], fun _ => (0, 0)⟩ : externals ℝ) rotating_tone s
        = (((⟨Real.pi, fun y x => Complex.arg ⟨x, y⟩, fun z => Real.sqrt (z.re ^ 2 + z.im ^ 2),
        fun _ _ _ _ _ _ => [], fun _ => (0, 0)⟩ : externals ℝ)).M_PI / 2) / ((gsm_receiver_cf small_constants 1 (0 : ℝ) 0).d_OSR : ℝ))) ∧
    (find_fcch_burst small_constants (⟨Real.pi, fun y x => Complex.arg ⟨x, y⟩, fun z => Real.sqrt (z.re ^ 2 + z.im ^ 2),
        fun _ _ _ _ _ _ => [], fun _ => (0, 0)⟩ : externals ℝ) (gsm_receiver_cf small_constants 1 0 0)
      rotating_tone 4).2 = true ∧
    (find_fcch_burst small_constants (⟨Real.pi, fun y x => Complex.arg ⟨x, y⟩, fun z => Real.sqrt (z.re ^ 2 + z.im ^ 2),
        fun _ _ _ _ _ _ => [], fun _ => (0, 0)⟩ : externals ℝ) (gsm_receiver_cf small_constants 1 0 0)
      rotating_tone 4).1.d_freq_offset = 0 := by
  have hpd := phase_diff_at_rotating_tone_real
    (fun z => Real.sqrt (z.re ^ 2 + z.im ^ 2)) (fun _ _ _ _ _ _ => []) (fun _ => (0, 0))
  have h1 : 0 < ((⟨Real.pi, fun y x => Complex.arg ⟨x, y⟩, fun z => Real.sqrt (z.re ^ 2 + z.im ^ 2),
        fun _ _ _ _ _ _ => [], fun _ => (0, 0)⟩ : externals ℝ)).M_PI := Real.pi_pos
  have h2 : 1 ≤ (gsm_receiver_cf small_constants 1 (0 : ℝ) 0).d_OSR := by decide
  have h3 : (1 : Int) ≤ small_constants.FCCH_MAX_MISSES := by decide
  have h4 : small_constants.FCCH_MAX_MISSES ≤ small_constants.FCCH_HITS_NEEDED := by decide
  have h5 : 2 * small_constants.FCCH_HITS_NEEDED
      * (gsm_receiver_cf small_constants 1 (0 : ℝ) 0).d_OSR + 2 ≤ 4 := by decide
  have h6 : ∀ s : Int, 1 ≤ s → s < 4 → phase_diff_at (⟨Real.pi, fun y x => Complex.arg ⟨x, y⟩, fun z => Real.sqrt (z.re ^ 2 + z.im ^ 2),
        fun _ _ _ _ _ _ => [], fun _ => (0, 0)⟩ : externals ℝ) rotating_tone s
      = (((⟨Real.pi, fun y x => Complex.arg ⟨x, y⟩, fun z => Real.sqrt (z.re ^ 2 + z.im ^ 2),
        fun _ _ _ _ _ _ => [], fun _ => (0, 0)⟩ : externals ℝ)).M_PI / 2) / ((gsm_receiver_cf small_constants 1 (0 : ℝ) 0).d_OSR : ℝ) := by
    intro s _ _
    rw [hpd]
    show Real.pi / 2 = Real.pi / 2 / ((1 : Int) : ℝ)
    simp
  have h := find_fcch_burst_ideal_tone small_constants (⟨Real.pi, fun y x => Complex.arg ⟨x, y⟩, fun z => Real.sqrt (z.re ^ 2 + z.im ^ 2),
        fun _ _ _ _ _ _ => [], fun _ => (0, 0)⟩ : externals ℝ)
    (gsm_receiver_cf small_constants 1 0 0) rotating_tone 4 h1 h2 h3 h4 h5 h6
  exact ⟨⟨h1, h2, h3, h4, h5, h6⟩, h.1, h.2.2.2.1⟩

/-! ## The frequency offset (C7) -/

theorem best_sum_const (E : externals α) (osr : Int) (l : List α) (v : α)
    (h : ∀ x ∈ l, x = v) :
    best_sum E osr l = l.length * (v - (E.M_PI / 2) / (osr : α)) := by
  rw [best_sum_eq]
  have : l.sum = l.length * v := by
    induction l with
    | nil => simp
    | cons x t ih =>
      rw [List.sum_cons, List.length_cons, h x (List.mem_cons_self _ _),
        ih (fun y hy => h y (List.mem_cons_of_mem _ hy))]
      push_cast
      ring
  rw [this]
  ring

/-- C7, counterexample: with `OSR = 2` (one hit needed, one miss tolerated) and the rotating
tone, whose phase differences are all `π / 2`, so that the mean `m` of whatever the buffer
holds is `π / 2`, the detection succeeds and subtracts `1625000 / 24` from `d_freq_offset`,
which is twice `(m - (π / 2) / OSR) * 1625000 / (12 * π) = 1625000 / 48`. -/
theorem find_fcch_burst_offset_with_two_samples_per_symbol :
    (∀ s, phase_diff_at (⟨Real.pi, fun y x => Complex.arg ⟨x, y⟩, fun z => Real.sqrt (z.re ^ 2 + z.im ^ 2),
        fun _ _ _ _ _ _ => [], fun _ => (0, 0)⟩ : externals ℝ) rotating_tone s = Real.pi / 2) ∧
    (find_fcch_burst small_constants (⟨Real.pi, fun y x => Complex.arg ⟨x, y⟩, fun z => Real.sqrt (z.re ^ 2 + z.im ^ 2),
        fun _ _ _ _ _ _ => [], fun _ => (0, 0)⟩ : externals ℝ) (gsm_receiver_cf small_constants 2 0 0)
      rotating_tone 6).2 = true ∧
    (find_fcch_burst small_constants (⟨Real.pi, fun y x => Complex.arg ⟨x, y⟩, fun z => Real.sqrt (z.re ^ 2 + z.im ^ 2),
        fun _ _ _ _ _ _ => [], fun _ => (0, 0)⟩ : externals ℝ) (gsm_receiver_cf small_constants 2 0 0)
      rotating_tone 6).1.d_freq_offset = 0 - 1625000 / 24 ∧
    (find_fcch_burst small_constants (⟨Real.pi, fun y x => Complex.arg ⟨x, y⟩, fun z => Real.sqrt (z.re ^ 2 + z.im ^ 2),
        fun _ _ _ _ _ _ => [], fun _ => (0, 0)⟩ : externals ℝ) (gsm_receiver_cf small_constants 2 0 0)
      rotating_tone 6).1.d_freq_offset
      ≠ 0 - (Real.pi / 2 - (Real.pi / 2) / 2) * 1625000 / (12 * Real.pi) := by
  have hpd := phase_diff_at_rotating_tone_real
    (fun z => Real.sqrt (z.re ^ 2 + z.im ^ 2)) (fun _ _ _ _ _ _ => []) (fun _ => (0, 0))
  have hW1 : 1 ≤ small_constants.FCCH_HITS_NEEDED
      * (gsm_receiver_cf small_constants 2 (0 : ℝ) 0).d_OSR := by decide
  have hM1 : 1 ≤ small_constants.FCCH_MAX_MISSES
      * (gsm_receiver_cf small_constants 2 (0 : ℝ) 0).d_OSR := by decide
  obtain ⟨hr, hwin, hsp⟩ := find_fcch_burst_constant_tone small_constants (⟨Real.pi, fun y x => Complex.arg ⟨x, y⟩, fun z => Real.sqrt (z.re ^ 2 + z.im ^ 2),
        fun _ _ _ _ _ _ => [], fun _ => (0, 0)⟩ : externals ℝ)
    (gsm_receiver_cf small_constants 2 0 0) rotating_tone 6 (Real.pi / 2) hW1 hM1
    (div_pos Real.pi_pos two_pos) (by decide) (fun s _ _ => hpd s)
  obtain ⟨s, hs, -, -, -, -, e3, e4, -⟩ := find_fcch_burst_recorded small_constants (⟨Real.pi, fun y x => Complex.arg ⟨x, y⟩, fun z => Real.sqrt (z.re ^ 2 + z.im ^ 2),
        fun _ _ _ _ _ _ => [], fun _ => (0, 0)⟩ : externals ℝ)
    (gsm_receiver_cf small_constants 2 0 0) rotating_tone 6 hW1 hM1 hsp hr
  rw [← hs] at hwin
  have hb : (find_fcch_burst small_constants (⟨Real.pi, fun y x => Complex.arg ⟨x, y⟩, fun z => Real.sqrt (z.re ^ 2 + z.im ^ 2),
        fun _ _ _ _ _ _ => [], fun _ => (0, 0)⟩ : externals ℝ) (gsm_receiver_cf small_constants 2 0 0)
      rotating_tone 6).1.d_best_sum = Real.pi / 2 := by
    rw [e3, best_sum_const _ _ _ _ hwin, phase_window_length]
    show (((small_constants.FCCH_HITS_NEEDED
      * (gsm_receiver_cf small_constants 2 (0 : ℝ) 0).d_OSR).toNat : ℕ) : ℝ)
      * (Real.pi / 2 - Real.pi / 2 / ((2 : Int) : ℝ)) = Real.pi / 2
    have : (small_constants.FCCH_HITS_NEEDED
      * (gsm_receiver_cf small_constants 2 (0 : ℝ) 0).d_OSR).toNat = 2 := by decide
    rw [this]
    push_cast
    ring
  have hval : (find_fcch_burst small_constants (⟨Real.pi, fun y x => Complex.arg ⟨x, y⟩, fun z => Real.sqrt (z.re ^ 2 + z.im ^ 2),
        fun _ _ _ _ _ _ => [], fun _ => (0, 0)⟩ : externals ℝ) (gsm_receiver_cf small_constants 2 0 0)
      rotating_tone 6).1.d_freq_offset = 0 - 1625000 / 24 := by
    rw [e4, hb]
    show (0 : ℝ) - Real.pi / 2 / ((1 : Int) : ℝ) * 1625000 / (12 * Real.pi) = 0 - 1625000 / 24
    have := Real.pi_ne_zero
    push_cast
    field_simp
    ring
  have hform : (Real.pi / 2 - (Real.pi / 2) / 2) * 1625000 / (12 * Real.pi)
      = 1625000 / 48 := by
    have := Real.pi_ne_zero
    field_simp
    ring
  refine ⟨hpd, hr, hval, ?_⟩
  rw [hval, hform]
  norm_num

/-- C7, as the source has it: let `OSR ≥ 1`, `FCCH_HITS_NEEDED ≥ 1`, `FCCH_MAX_MISSES ≥ 1`
and let the phase differences of the input lie in `[-M_PI, M_PI]`, with `2 * M_PI < 99999`.
After a successful detection the best candidate was recorded at a sample `s`
(`start_pos = s - (H + M) * OSR`) with the `H * OSR` phase differences found at
`s - H * OSR + 1, ..., s` in the buffer; with `m` their arithmetic mean, the frequency offset
that `compute_freq_offset` computes is `OSR * (m - (M_PI / 2) / OSR) * 1625000 / (12 * M_PI)`
(the deviation per symbol, `OSR` times that per sample), and this value is subtracted from
`d_freq_offset` (and added to `d_x_temp`). -/
theorem find_fcch_burst_frequency_offset (K : gsm_constants) (E : externals α)
    (self : receiver α) (inp : Int → gr_complex α) (nitems : Int)
    (hOSR : 1 ≤ self.d_OSR) (hH : 1 ≤ K.FCCH_HITS_NEEDED) (hM : 1 ≤ K.FCCH_MAX_MISSES)
    (hpi : 2 * E.M_PI < 99999) (hphase : ∀ s, |phase_diff_at E inp s| ≤ E.M_PI)
    (hr : (find_fcch_burst K E self inp nitems).2 = true) :
    ∃ s, K.FCCH_HITS_NEEDED * self.d_OSR + 1 ≤ s ∧ s < nitems ∧
      (find_fcch_burst K E self inp nitems).1.d_fcch_start_pos
        = self.d_counter + (s - (K.FCCH_HITS_NEEDED + K.FCCH_MAX_MISSES) * self.d_OSR) ∧
      (phase_window E inp s (K.FCCH_HITS_NEEDED * self.d_OSR).toNat).length
        = (K.FCCH_HITS_NEEDED * self.d_OSR).toNat ∧
      (compute_freq_offset K E (find_fcch_burst K E self inp nitems).1).2
        = (self.d_OSR : α)
          * ((phase_window E inp s (K.FCCH_HITS_NEEDED * self.d_OSR).toNat).sum
              / ((K.FCCH_HITS_NEEDED * self.d_OSR : Int) : α)
            - (E.M_PI / 2) / (self.d_OSR : α)) * 1625000 / (12 * E.M_PI) ∧
      (find_fcch_burst K E self inp nitems).1.d_freq_offset
        = self.d_freq_offset - (self.d_OSR : α)
          * ((phase_window E inp s (K.FCCH_HITS_NEEDED * self.d_OSR).toNat).sum
              / ((K.FCCH_HITS_NEEDED * self.d_OSR : Int) : α)
            - (E.M_PI / 2) / (self.d_OSR : α)) * 1625000 / (12 * E.M_PI) ∧
      (find_fcch_burst K E self inp nitems).1.d_x_temp
        = self.d_x_temp + (self.d_OSR : α)
          * ((phase_window E inp s (K.FCCH_HITS_NEEDED * self.d_OSR).toNat).sum
              / ((K.FCCH_HITS_NEEDED * self.d_OSR : Int) : α)
            - (E.M_PI / 2) / (self.d_OSR : α)) * 1625000 / (12 * E.M_PI) := by
  have hW1 : 1 ≤ K.FCCH_HITS_NEEDED * self.d_OSR := by nlinarith
  have hM1 : 1 ≤ K.FCCH_MAX_MISSES * self.d_OSR := by nlinarith
  have hsp := fcch_spread_ok_of_abs E inp nitems _ hW1 hpi hphase
  obtain ⟨s, -, h1, h2, e1, -, e3, e4, e5⟩ :=
    find_fcch_burst_recorded K E self inp nitems hW1 hM1 hsp hr
  have key := best_sum_div_hits E K.FCCH_HITS_NEEDED self.d_OSR hH hOSR
    (phase_window E inp s (K.FCCH_HITS_NEEDED * self.d_OSR).toNat) (phase_window_length _ _ _ _)
  rw [← e3] at key
  refine ⟨s, h1, h2, ?_, phase_window_length _ _ _ _, ?_, ?_, ?_⟩
  · rw [e1]; ring
  · show (find_fcch_burst K E self inp nitems).1.d_best_sum / (K.FCCH_HITS_NEEDED : α)
      * 1625000 / (12 * E.M_PI) = _
    rw [key]
  · rw [e4, key]
  · rw [e5, key]

/-- C7, witness: the rotating tone with `OSR = 1`, one hit needed and one miss tolerated. -/
theorem find_fcch_burst_frequency_offset_witness :
    (1 ≤ (gsm_receiver_cf small_constants 1 (0 : ℝ) 0).d_OSR ∧
      1 ≤ small_constants.FCCH_HITS_NEEDED ∧ 1 ≤ small_constants.FCCH_MAX_MISSES ∧
      2 * ((⟨Real.pi, fun y x => Complex.arg ⟨x, y⟩, fun z => Real.sqrt (z.re ^ 2 + z.im ^ 2),
        fun _ _ _ _ _ _ => [], fun _ => (0, 0)⟩ : externals ℝ)).M_PI < 99999 ∧
      (∀ s, |phase_diff_at (⟨Real.pi, fun y x => Complex.arg ⟨x, y⟩, fun z => Real.sqrt (z.re ^ 2 + z.im ^ 2),
        fun _ _ _ _ _ _ => [], fun _ => (0, 0)⟩ : externals ℝ) rotating_tone s| ≤ ((⟨Real.pi, fun y x => Complex.arg ⟨x, y⟩, fun z => Real.sqrt (z.re ^ 2 + z.im ^ 2),
        fun _ _ _ _ _ _ => [], fun _ => (0, 0)⟩ : externals ℝ)).M_PI) ∧
      (find_fcch_burst small_constants (⟨Real.pi, fun y x => Complex.arg ⟨x, y⟩, fun z => Real.sqrt (z.re ^ 2 + z.im ^ 2),
        fun _ _ _ _ _ _ => [], fun _ => (0, 0)⟩ : externals ℝ) (gsm_receiver_cf small_constants 1 0 0)
        rotating_tone 4).2 = true) ∧
    ∃ s : Int, small_constants.FCCH_HITS_NEEDED
        * (gsm_receiver_cf small_constants 1 (0 : ℝ) 0).d_OSR + 1 ≤ s ∧ s < 4 := by
  have hpd := phase_diff_at_rotating_tone_real
    (fun z => Real.sqrt (z.re ^ 2 + z.im ^ 2)) (fun _ _ _ _ _ _ => []) (fun _ => (0, 0))
  have h1 : 1 ≤ (gsm_receiver_cf small_constants 1 (0 : ℝ) 0).d_OSR := by decide
  have h2 : (1 : Int) ≤ small_constants.FCCH_HITS_NEEDED := by decide
  have h3 : (1 : Int) ≤ small_constants.FCCH_MAX_MISSES := by decide
  have h4 : 2 * ((⟨Real.pi, fun y x => Complex.arg ⟨x, y⟩, fun z => Real.sqrt (z.re ^ 2 + z.im ^ 2),
        fun _ _ _ _ _ _ => [], fun _ => (0, 0)⟩ : externals ℝ)).M_PI < 99999 := by
    show 2 * Real.pi < 99999
    linarith [Real.pi_lt_four]
  have h5 : ∀ s, |phase_diff_at (⟨Real.pi, fun y x => Complex.arg ⟨x, y⟩, fun z => Real.sqrt (z.re ^ 2 + z.im ^ 2),
        fun _ _ _ _ _ _ => [], fun _ => (0, 0)⟩ : externals ℝ) rotating_tone s| ≤ ((⟨Real.pi, fun y x => Complex.arg ⟨x, y⟩, fun z => Real.sqrt (z.re ^ 2 + z.im ^ 2),
        fun _ _ _ _ _ _ => [], fun _ => (0, 0)⟩ : externals ℝ)).M_PI := by
    intro s
    rw [hpd, abs_of_pos (div_pos Real.pi_pos two_pos)]
    show Real.pi / 2 ≤ Real.pi
    linarith [Real.pi_pos]
  have h6 : (find_fcch_burst small_constants (⟨Real.pi, fun y x => Complex.arg ⟨x, y⟩, fun z => Real.sqrt (z.re ^ 2 + z.im ^ 2),
        fun _ _ _ _ _ _ => [], fun _ => (0, 0)⟩ : externals ℝ) (gsm_receiver_cf small_constants 1 0 0)
      rotating_tone 4).2 = true :=
    (find_fcch_burst_constant_tone small_constants (⟨Real.pi, fun y x => Complex.arg ⟨x, y⟩, fun z => Real.sqrt (z.re ^ 2 + z.im ^ 2),
        fun _ _ _ _ _ _ => [], fun _ => (0, 0)⟩ : externals ℝ)
      (gsm_receiver_cf small_constants 1 0 0) rotating_tone 4 (Real.pi / 2)
      (by decide) (by decide) (div_pos Real.pi_pos two_pos) (by decide)
      (fun s _ _ => hpd s)).1
  obtain ⟨s, hs1, hs2, -⟩ := find_fcch_burst_frequency_offset small_constants (⟨Real.pi, fun y x => Complex.arg ⟨x, y⟩, fun z => Real.sqrt (z.re ^ 2 + z.im ^ 2),
        fun _ _ _ _ _ _ => [], fun _ => (0, 0)⟩ : externals ℝ)
    (gsm_receiver_cf small_constants 1 0 0) rotating_tone 4 h1 h2 h3 h4 h5 h6
  exact ⟨⟨h1, h2, h3, h4, h5, h6⟩, s, hs1, hs2⟩

/-! ## The matched filter -/

theorem gr_complex_mul_re (a b : gr_complex α) : (a * b).re = a.re * b.re - a.im * b.im := rfl

theorem gr_complex_mul_im (a b : gr_complex α) : (a * b).im = a.re * b.im + a.im * b.re := rfl

/-- Multiplication of complex samples is associative. -/
theorem gr_complex_mul_assoc (a b c : gr_complex α) : a * b * c = a * (b * c) := by
  apply gr_complex.ext
  · show (a.re * b.re - a.im * b.im) * c.re - (a.re * b.im + a.im * b.re) * c.im
      = a.re * (b.re * c.re - b.im * c.im) - a.im * (b.re * c.im + b.im * c.re)
    ring
  · show (a.re * b.re - a.im * b.im) * c.im + (a.re * b.im + a.im * b.re) * c.re
      = a.re * (b.re * c.im + b.im * c.re) + a.im * (b.re * c.re - b.im * c.im)
    ring

/-- Multiplication of complex samples distributes over addition. -/
theorem gr_complex_mul_add (a b c : gr_complex α) : a * (b + c) = a * b + a * c := by
  apply gr_complex.ext
  · show a.re * (b.re + c.re) - a.im * (b.im + c.im)
      = (a.re * b.re - a.im * b.im) + (a.re * c.re - a.im * c.im)
    ring
  · show a.re * (b.im + c.im) + a.im * (b.re + c.re)
      = (a.re * b.im + a.im * b.re) + (a.re * c.im + a.im * c.re)
    ring

/-- The tap loop of `mafi` on an input multiplied by a constant `r`: the accumulator is
multiplied by `r`. -/
theorem mafi_taps_scaled (d_OSR input_length : Int) (r : gr_complex α)
    (input filter : Int → gr_complex α) (a : Int) (todo : Nat) (ii : Int) (acc : gr_complex α) :
    mafi_taps d_OSR input_length (fun i => r * input i) filter a todo ii (r * acc)
      = r * mafi_taps d_OSR input_length input filter a todo ii acc := by
  induction todo generalizing ii acc with
  | zero => rfl
  | succ todo ih =>
    unfold mafi_taps
    split_ifs
    · rfl
    · rw [← ih, gr_complex_mul_add, gr_complex_mul_assoc]

/-- The method `mafi` on an input multiplied by a constant `r`: every output is multiplied
by `r`. -/
theorem mafi_scaled (d_OSR : Int) (r : gr_complex α) (input : Int → gr_complex α)
    (input_length : Int) (filter : Int → gr_complex α) (filter_length : Int) :
    mafi d_OSR (fun i => r * input i) input_length filter filter_length
      = (mafi d_OSR input input_length filter filter_length).map (fun y => r * y) := by
  unfold mafi
  rw [List.map_map]
  apply List.map_congr_left
  intro n _
  have h0 : (0 : gr_complex α) = r * 0 := by
    apply gr_complex.ext
    · show (0 : α) = r.re * 0 - r.im * 0
      ring
    · show (0 : α) = r.re * 0 + r.im * 0
      ring
  show mafi_taps d_OSR input_length (fun i => r * input i) filter (n * d_OSR)
      filter_length.toNat 0 0 * ⟨0, -1⟩
    = r * (mafi_taps d_OSR input_length input filter (n * d_OSR) filter_length.toNat 0 0
      * ⟨0, -1⟩)
  conv_lhs => rw [h0]
  rw [mafi_taps_scaled, gr_complex_mul_assoc]

/-- C11, counterexample: with `OSR = 1`, one input sample `1` and the one-tap filter `1`,
`mafi` yields `-j`, on the rotated input `j * 1` it yields `1`, which is `j * (-j)` and not
the negation `j` of `-j`. -/
theorem mafi_rotated_unit_sample_is_not_negated :
    mafi 1 (fun _ => (⟨1, 0⟩ : gr_complex ℚ)) 1 (fun _ => ⟨1, 0⟩) 1 = [⟨0, -1⟩] ∧
    mafi 1 (fun _ => (⟨0, 1⟩ : gr_complex ℚ) * ⟨1, 0⟩) 1 (fun _ => ⟨1, 0⟩) 1 = [⟨1, 0⟩] ∧
    (mafi 1 (fun _ => (⟨0, 1⟩ : gr_complex ℚ) * ⟨1, 0⟩) 1 (fun _ => ⟨1, 0⟩) 1)[0]?
      ≠ ((mafi 1 (fun _ => (⟨1, 0⟩ : gr_complex ℚ)) 1 (fun _ => ⟨1, 0⟩) 1).map
          (fun y => -y))[0]? := by
  have e1 : mafi 1 (fun _ => (⟨1, 0⟩ : gr_complex ℚ)) 1 (fun _ => ⟨1, 0⟩) 1 = [⟨0, -1⟩] := by
    simp [mafi, mafi_taps, List.range_succ, gr_complex.ext_iff, gr_complex_mul_re,
      gr_complex_mul_im]
  have e2 : mafi 1 (fun _ => (⟨0, 1⟩ : gr_complex ℚ) * ⟨1, 0⟩) 1 (fun _ => ⟨1, 0⟩) 1
      = [⟨1, 0⟩] := by
    rw [mafi_scaled, e1]
    simp [gr_complex.ext_iff, gr_complex_mul_re, gr_complex_mul_im]
  refine ⟨e1, e2, ?_⟩
  rw [e1, e2]
  simp [gr_complex.ext_iff]
  intro h
  have h2 : (1 : ℚ) = -0 := h
  norm_num at h2

/-- C11, as the source has it: `mafi` is linear in its input, so rotating the input by 90
degrees rotates the output by 90 degrees: on the input `j * x`, with the same filter, the
output at every index `n < input_length` is `j` times the output on `x`. It is the input
rotated by 180 degrees, `-x = j * (j * x)`, whose output is the negation of that on `x`. -/
theorem mafi_rotated_input (d_OSR : Int) (input : Int → gr_complex α) (input_length : Int)
    (filter : Int → gr_complex α) (filter_length : Int) :
    (mafi d_OSR input input_length filter filter_length).length = input_length.toNat ∧
    (∀ n : Nat, (n : Int) < input_length →
      (mafi d_OSR (fun i => ⟨0, 1⟩ * input i) input_length filter filter_length)[n]?
        = ((mafi d_OSR input input_length filter filter_length)[n]?).map
            (fun y => ⟨0, 1⟩ * y)) ∧
    (∀ n : Nat, (n : Int) < input_length →
      (mafi d_OSR (fun i => ⟨0, 1⟩ * (⟨0, 1⟩ * input i)) input_length filter filter_length)[n]?
        = ((mafi d_OSR input input_length filter filter_length)[n]?).map (fun y => -y)) := by
  refine ⟨by simp [mafi], fun n _ => ?_, fun n _ => ?_⟩
  · rw [mafi_scaled, List.getElem?_map]
  · rw [mafi_scaled, mafi_scaled, List.getElem?_map, List.getElem?_map, Option.map_map]
    congr 1
    funext y
    apply gr_complex.ext
    · show (0 : α) * (0 * y.re - 1 * y.im) - 1 * (0 * y.im + 1 * y.re) = -y.re
      ring
    · show (0 : α) * (0 * y.im + 1 * y.re) + 1 * (0 * y.re - 1 * y.im) = -y.im
      ring

/-! ## The differential mapper -/

/-- The loop of `gmsk_mapper` after `k` passes: `previous_symbol` is the symbol of bit `k`,
`k + 1` outputs are written, the first is `1`, and each of the others is `j` times the
encoded symbol times the output before it. -/
theorem gmsk_mapper_loop (input : Int → Int) (k : Nat) :
    ∃ output : List (gr_complex α),
      (List.range k).foldl
        (fun (st : Int × List (gr_complex α)) (k : Nat) =>
          let i : Int := k + 1
          let current_symbol := 2 * input i - 1
          let encoded_symbol := current_symbol * st.1
          (current_symbol,
            st.2 ++ [(⟨0, 1⟩ : gr_complex α) * ⟨(encoded_symbol : α), 0⟩ * array_at st.2 (i - 1)]))
        (2 * input 0 - 1, [⟨1, 0⟩]) = (2 * input k - 1, output) ∧
      output.length = k + 1 ∧
      output[0]? = some ⟨1, 0⟩ ∧
      ∀ i : Nat, 1 ≤ i → i ≤ k →
        output[i]? = (output[i - 1]?).map (fun prev =>
          (⟨0, 1⟩ : gr_complex α)
            * ⟨(((2 * input i - 1) * (2 * input ((i : Int) - 1) - 1) : Int) : α), 0⟩ * prev) := by
  induction k with
  | zero =>
    refine ⟨[⟨1, 0⟩], by simp, rfl, rfl, ?_⟩
    intro i h1 h2
    omega
  | succ k ih =>
    obtain ⟨output, hfold, hlen, h0, hrec⟩ := ih
    rw [List.range_succ, List.foldl_append, hfold]
    refine ⟨output ++ [(⟨0, 1⟩ : gr_complex α)
        * ⟨(((2 * input ((k : Int) + 1) - 1) * (2 * input k - 1) : Int) : α), 0⟩
        * array_at output (((k : Int) + 1) - 1)], ?_, ?_, ?_, ?_⟩
    · simp only [List.foldl_cons, List.foldl_nil]
      push_cast
      rfl
    · simp [hlen]
    · rw [List.getElem?_append_left (by omega)]
      exact h0
    · intro i h1 h2
      have hk : array_at output (((k : Int) + 1) - 1) = output.getD k 0 := by
        unfold array_at
        rw [if_pos (by omega)]
        congr 1
        omega
      by_cases hi : i ≤ k
      · rw [List.getElem?_append_left (by omega), List.getElem?_append_left (by omega)]
        exact hrec i h1 hi
      · have hi2 : i = k + 1 := by omega
        subst hi2
        rw [List.getElem?_append_right (by omega), List.getElem?_append_left (by omega)]
        have hkk : output[k + 1 - 1]? = some (output.getD k 0) := by
          rw [Nat.add_sub_cancel, List.getD_eq_getElem?_getD]
          rw [List.getElem?_eq_getElem (by omega)]
          rfl
        rw [hkk, hlen]
        simp only [Nat.sub_self, List.getElem?_cons_zero, Option.map_some']
        rw [hk]
        push_cast
        simp

/-- The loop of `gmsk_mapper` on the complemented bits: `previous_symbol` is negated and the
outputs are the same. -/
theorem gmsk_mapper_loop_complement (input : Int → Int) (l : List Nat) (p : Int)
    (out : List (gr_complex α)) :
    l.foldl
      (fun (st : Int × List (gr_complex α)) (k : Nat) =>
        let i : Int := k + 1
        let current_symbol := 2 * (fun i => 1 - input i) i - 1
        let encoded_symbol := current_symbol * st.1
        (current_symbol,
          st.2 ++ [(⟨0, 1⟩ : gr_complex α) * ⟨(encoded_symbol : α), 0⟩ * array_at st.2 (i - 1)]))
      (-p, out)
    = (-(l.foldl
      (fun (st : Int × List (gr_complex α)) (k : Nat) =>
        let i : Int := k + 1
        let current_symbol := 2 * input i - 1
        let encoded_symbol := current_symbol * st.1
        (current_symbol,
          st.2 ++ [(⟨0, 1⟩ : gr_complex α) * ⟨(encoded_symbol : α), 0⟩ * array_at st.2 (i - 1)]))
      (p, out)).1,
      (l.foldl
      (fun (st : Int × List (gr_complex α)) (k : Nat) =>
        let i : Int := k + 1
        let current_symbol := 2 * input i - 1
        let encoded_symbol := current_symbol * st.1
        (current_symbol,
          st.2 ++ [(⟨0, 1⟩ : gr_complex α) * ⟨(encoded_symbol : α), 0⟩ * array_at st.2 (i - 1)]))
      (p, out)).2) := by
  induction l generalizing p out with
  | nil => rfl
  | cons k l ih =>
    simp only [List.foldl_cons]
    have e1 : 2 * (1 - input ((k : Int) + 1)) - 1 = -(2 * input ((k : Int) + 1) - 1) := by ring
    have e2 : (2 * (1 - input ((k : Int) + 1)) - 1) * -p = (2 * input ((k : Int) + 1) - 1) * p := by
      ring
    rw [e2, e1]
    exact ih _ _

/-- The powers of `j` are `1` or `-1` at even exponents and `j` or `-j` at odd ones. -/
theorem j_pow_values (i : Nat) :
    (i % 2 = 0 → (j_pow i : gr_complex α) = ⟨1, 0⟩ ∨ (j_pow i : gr_complex α) = ⟨-1, 0⟩) ∧
    (i % 2 = 1 → (j_pow i : gr_complex α) = ⟨0, 1⟩ ∨ (j_pow i : gr_complex α) = ⟨0, -1⟩) := by
  induction i with
  | zero => exact ⟨fun _ => Or.inl rfl, fun h => by omega⟩
  | succ i ih =>
    refine ⟨fun h => ?_, fun h => ?_⟩
    · rcases ih.2 (by omega) with e | e
      · right
        show (⟨0, 1⟩ : gr_complex α) * j_pow i = ⟨-1, 0⟩
        rw [e]
        apply gr_complex.ext
        · show (0 : α) * 0 - 1 * 1 = -1
          ring
        · show (0 : α) * 1 + 1 * 0 = 0
          ring
      · left
        show (⟨0, 1⟩ : gr_complex α) * j_pow i = ⟨1, 0⟩
        rw [e]
        apply gr_complex.ext
        · show (0 : α) * 0 - 1 * (-1) = 1
          ring
        · show (0 : α) * (-1) + 1 * 0 = 0
          ring
    · rcases ih.1 (by omega) with e | e
      · left
        show (⟨0, 1⟩ : gr_complex α) * j_pow i = ⟨0, 1⟩
        rw [e]
        apply gr_complex.ext
        · show (0 : α) * 1 - 1 * 0 = 0
          ring
        · show (0 : α) * 0 + 1 * 1 = 1
          ring
      · right
        show (⟨0, 1⟩ : gr_complex α) * j_pow i = ⟨0, -1⟩
        rw [e]
        apply gr_complex.ext
        · show (0 : α) * (-1) - 1 * 0 = 0
          ring
        · show (0 : α) * 0 + 1 * (-1) = -1
          ring

/-- One step of the closed form of `gmsk_mapper`: the symbol `q` of the bit in the middle
cancels, as `q * q = 1`. -/
theorem gmsk_mapper_telescope (a : gr_complex α) (p q r : α) (hq : q * q = 1) :
    (⟨0, 1⟩ : gr_complex α) * ⟨p * q, 0⟩ * (a * ⟨q * r, 0⟩) = (⟨0, 1⟩ * a) * ⟨p * r, 0⟩ := by
  apply gr_complex.ext
  · simp only [gr_complex_mul_re, gr_complex_mul_im]
    linear_combination (-(p * r * a.im)) * hq
  · simp only [gr_complex_mul_re, gr_complex_mul_im]
    linear_combination (p * r * a.re) * hq

/-- C12: for bits `b[0 .. n-1]` in `{0, 1}` with `n ≥ 1`, `gmsk_mapper` writes `n` outputs
with `output[0] = 1` and `output[i] = j * (2*b[i]-1) * (2*b[i-1]-1) * output[i-1]` for
`1 ≤ i < n`; in closed form `output[i] = j^i * (2*b[i]-1) * (2*b[0]-1)`; every output is
`1` or `-1` at even `i` and `j` or `-j` at odd `i`; and complementing every bit leaves the
output unchanged. -/
theorem gmsk_mapper_spec (input : Int → Int) (ninput : Int) (hn : 1 ≤ ninput)
    (hb : ∀ i, 0 ≤ i → i < ninput → input i = 0 ∨ input i = 1) :
    (gmsk_mapper input ninput : List (gr_complex α)).length = ninput.toNat ∧
    (gmsk_mapper input ninput : List (gr_complex α))[0]? = some ⟨1, 0⟩ ∧
    (∀ i : Nat, 1 ≤ i → (i : Int) < ninput →
      (gmsk_mapper input ninput : List (gr_complex α))[i]?
        = ((gmsk_mapper input ninput : List (gr_complex α))[i - 1]?).map (fun prev =>
          (⟨0, 1⟩ : gr_complex α)
            * ⟨(((2 * input i - 1) * (2 * input ((i : Int) - 1) - 1) : Int) : α), 0⟩ * prev)) ∧
    (∀ i : Nat, (i : Int) < ninput →
      (gmsk_mapper input ninput : List (gr_complex α))[i]?
        = some (j_pow i * ⟨(((2 * input i - 1) * (2 * input 0 - 1) : Int) : α), 0⟩)) ∧
    (∀ i : Nat, (i : Int) < ninput →
      ∃ y, (gmsk_mapper input ninput : List (gr_complex α))[i]? = some y ∧
        (i % 2 = 0 → y = ⟨1, 0⟩ ∨ y = ⟨-1, 0⟩) ∧ (i % 2 = 1 → y = ⟨0, 1⟩ ∨ y = ⟨0, -1⟩)) ∧
    (gmsk_mapper (fun i => 1 - input i) ninput : List (gr_complex α))
      = gmsk_mapper input ninput := by
  obtain ⟨output, hfold, hlen, h0, hrec⟩ := gmsk_mapper_loop (α := α) input (ninput.toNat - 1)
  have hout : (gmsk_mapper input ninput : List (gr_complex α)) = output := by
    unfold gmsk_mapper
    dsimp only
    rw [hfold]
  have hsq : ∀ i : Nat, (i : Int) < ninput →
      (((2 * input i - 1 : Int) : α)) * ((2 * input i - 1 : Int) : α) = 1 := by
    intro i hi
    rcases hb i (by omega) hi with e | e <;> rw [e] <;> norm_num
  have hclosed : ∀ i : Nat, (i : Int) < ninput →
      output[i]? = some (j_pow i * ⟨(((2 * input i - 1) * (2 * input 0 - 1) : Int) : α), 0⟩) := by
    intro i
    induction i with
    | zero =>
      intro hi
      rw [h0]
      congr 1
      have h := hsq 0 hi
      apply gr_complex.ext
      · show (1 : α) = 1 * (((2 * input ((0 : Nat) : Int) - 1) * (2 * input 0 - 1) : Int) : α)
          - 0 * 0
        push_cast at h ⊢
        linear_combination -h
      · show (0 : α) = 1 * 0 + 0 * (((2 * input ((0 : Nat) : Int) - 1) * (2 * input 0 - 1) : Int) : α)
        ring
    | succ i ih =>
      intro hi
      rw [hrec (i + 1) (by omega) (by omega), Nat.add_sub_cancel, ih (by omega)]
      simp only [Option.map_some']
      congr 1
      have h := hsq i (by omega)
      have e := gmsk_mapper_telescope (j_pow i : gr_complex α)
        (((2 * input ((i : Int) + 1) - 1 : Int) : α)) (((2 * input i - 1 : Int) : α))
        (((2 * input 0 - 1 : Int) : α)) h
      have c1 : (((i + 1 : Nat) : Int)) = (i : Int) + 1 := by push_cast; ring
      have c2 : (((i + 1 : Nat) : Int)) - 1 = (i : Int) := by omega
      rw [c2, c1]
      push_cast at e ⊢
      exact e
  refine ⟨by rw [hout, hlen]; omega, by rw [hout]; exact h0, ?_, ?_, ?_, ?_⟩
  · intro i h1 hi
    rw [hout]
    exact hrec i h1 (by omega)
  · intro i hi
    rw [hout]
    exact hclosed i hi
  · intro i hi
    rw [hout]
    refine ⟨_, hclosed i hi, fun he => ?_, fun ho => ?_⟩
    · have hs : (((2 * input i - 1) * (2 * input 0 - 1) : Int) : α) = 1
          ∨ (((2 * input i - 1) * (2 * input 0 - 1) : Int) : α) = -1 := by
        rcases hb i (by omega) hi with e | e <;> rcases hb 0 (le_refl 0) (by omega) with f | f <;>
          rw [e, f] <;> norm_num
      rcases (j_pow_values (α := α) i).1 he with e | e <;> rcases hs with f | f <;>
        rw [e, f] <;> [left; right; right; left] <;>
        apply gr_complex.ext <;> simp [gr_complex_mul_re, gr_complex_mul_im]
    · have hs : (((2 * input i - 1) * (2 * input 0 - 1) : Int) : α) = 1
          ∨ (((2 * input i - 1) * (2 * input 0 - 1) : Int) : α) = -1 := by
        rcases hb i (by omega) hi with e | e <;> rcases hb 0 (le_refl 0) (by omega) with f | f <;>
          rw [e, f] <;> norm_num
      rcases (j_pow_values (α := α) i).2 ho with e | e <;> rcases hs with f | f <;>
        rw [e, f] <;> [left; right; right; left] <;>
        apply gr_complex.ext <;> simp [gr_complex_mul_re, gr_complex_mul_im]
  · unfold gmsk_mapper
    dsimp only
    have e0 : 2 * (1 - input 0) - 1 = -(2 * input 0 - 1) := by ring
    rw [e0]
    have h := gmsk_mapper_loop_complement (α := α) input (List.range (ninput.toNat - 1))
      (2 * input 0 - 1) [⟨1, 0⟩]
    have h2 := congrArg Prod.snd h
    exact h2

/-- C12, witness: the three bits `0, 1, 0`. -/
theorem gmsk_mapper_spec_witness :
    ((1 : Int) ≤ 3 ∧
      ∀ i : Int, 0 ≤ i → i < 3 →
        (fun i : Int => if i = 1 then (1 : Int) else 0) i = 0
          ∨ (fun i : Int => if i = 1 then (1 : Int) else 0) i = 1) ∧
    (gmsk_mapper (fun i : Int => if i = 1 then (1 : Int) else 0) 3 : List (gr_complex ℚ)).length
      = 3 :=
  ⟨⟨by decide, fun i _ _ => by by_cases h : i = 1 <;> simp [h]⟩,
    (gmsk_mapper_spec (fun i : Int => if i = 1 then (1 : Int) else 0) 3 (by decide)
      (fun i _ _ => by by_cases h : i = 1 <;> simp [h])).1⟩

/-! ## Calls of the tuner -/

theorem tuner_calls_append {β : Type} (s t : List (call β)) :
    tuner_calls (s ++ t) = tuner_calls s ++ tuner_calls t := by
  simp [tuner_calls]

theorem tuner_calls_replicate_correlate {β : Type} (n : Nat) :
    tuner_calls (List.replicate n (call.correlate_sequence : call β)) = [] := by
  induction n with
  | zero => rfl
  | succ n ih => rw [List.replicate_succ]; simp [tuner_calls, ih]

theorem tuner_calls_set_frequency {β : Type} (t : List (call β)) (x : β) :
    tuner_calls (t ++ [call.set_frequency x]) = tuner_calls t ++ [x] := by
  simp [tuner_calls]

theorem tuner_calls_consume_each {β : Type} (t : List (call β)) (n : Int) :
    tuner_calls (t ++ [call.consume_each n]) = tuner_calls t := by
  simp [tuner_calls]

/-- A call of `find_fcch_burst` does not call the tuner, and when it succeeds the frequency
estimate it leaves is the one before the call less the offset `compute_freq_offset` computes
from the `d_best_sum` it leaves. -/
theorem find_fcch_burst_tuner (K : gsm_constants) (E : externals α) (self : receiver α)
    (inp : Int → gr_complex α) (nitems : Int) :
    tuner_calls (find_fcch_burst K E self inp nitems).1.trace = tuner_calls self.trace ∧
    ((find_fcch_burst K E self inp nitems).2 = true →
      (find_fcch_burst K E self inp nitems).1.d_freq_offset = self.d_freq_offset
        - (compute_freq_offset K E (find_fcch_burst K E self inp nitems).1).2) ∧
    ((find_fcch_burst K E self inp nitems).2 = false →
      (find_fcch_burst K E self inp nitems).1.d_freq_offset = self.d_freq_offset) := by
  rcases hr : (find_fcch_burst K E self inp nitems).2 with _ | _
  · obtain ⟨b, hb⟩ := find_fcch_burst_false K E self inp nitems hr
    rw [hb]
    simp [tuner_calls]
  · obtain ⟨b, sp, -, -, hb⟩ := find_fcch_burst_true K E self inp nitems hr
    rw [hb]
    simp [tuner_calls, compute_freq_offset, receiver.log]

/-- A call of `find_sch_burst` does not call the tuner and leaves the frequency estimate. -/
theorem find_sch_burst_tuner (K : gsm_constants) (E : externals α) (U : sch_uninitialised)
    (self : receiver α) (inp : Int → gr_complex α) (nitems : Int) :
    tuner_calls (find_sch_burst K E U self inp nitems).1.trace = tuner_calls self.trace ∧
    (find_sch_burst K E U self inp nitems).1.d_freq_offset = self.d_freq_offset := by
  by_cases h : self.d_counter
      < self.d_fcch_start_pos + (K.FRAME_BITS - K.SAFETY_MARGIN) * self.d_OSR
  · rw [find_sch_burst_before K E U self inp nitems h]
    simp [tuner_calls]
  · obtain ⟨resp, hb⟩ := find_sch_burst_reached K E U self inp nitems h
    rw [hb]
    simp only [tuner_calls_append, tuner_calls_replicate_correlate]
    simp [tuner_calls]

/-- C15: one call of `general_work` calls `set_frequency` exactly once when the state is
`first_fcch_search` and `find_fcch_burst` succeeds, exactly once when the state is
`next_fcch_search`, `find_fcch_burst` succeeds and the updated estimate has
`|d_freq_offset| > 100`, and not at all otherwise; the argument of the call is the estimate
`d_freq_offset` that the detection has just updated (the estimate before the call less the
offset computed by `compute_freq_offset`), which is also the estimate the receiver keeps. -/
theorem general_work_tuner_calls (K : gsm_constants) (E : externals α) (U : sch_uninitialised)
    (self : receiver α) (inp : Int → gr_complex α) (ninput_items : Int) :
    tuner_calls (general_work K E U self inp ninput_items).1.trace =
      tuner_calls self.trace ++
        (match self.d_state with
          | states.first_fcch_search =>
            if (find_fcch_burst K E self inp ninput_items).2 = true
            then [(find_fcch_burst K E self inp ninput_items).1.d_freq_offset] else []
          | states.next_fcch_search =>
            if (find_fcch_burst K E self inp ninput_items).2 = true
              ∧ |(find_fcch_burst K E self inp ninput_items).1.d_freq_offset| > 100
            then [(find_fcch_burst K E self inp ninput_items).1.d_freq_offset] else []
          | states.sch_search => []
          | states.read_bcch => []) ∧
    ((find_fcch_burst K E self inp ninput_items).2 = true →
      (find_fcch_burst K E self inp ninput_items).1.d_freq_offset = self.d_freq_offset
        - (compute_freq_offset K E (find_fcch_burst K E self inp ninput_items).1).2) ∧
    ((self.d_state = states.first_fcch_search ∨ self.d_state = states.next_fcch_search) →
      (general_work K E U self inp ninput_items).1.d_freq_offset
        = (find_fcch_burst K E self inp ninput_items).1.d_freq_offset) := by
  have hf := find_fcch_burst_tuner K E self inp ninput_items
  have hs := find_sch_burst_tuner K E U self inp ninput_items
  refine ⟨?_, hf.2.1, ?_⟩
  · unfold general_work
    rcases hst : self.d_state with _ | _ | _ | _ <;> dsimp only
    · rcases hr : (find_fcch_burst K E self inp ninput_items).2 with _ | _ <;>
        simp [set_frequency, receiver.log, tuner_calls_set_frequency, hf.1]
    · rcases hr : (find_fcch_burst K E self inp ninput_items).2 with _ | _
      · simp [hf.1]
      · by_cases hfo : |(find_fcch_burst K E self inp ninput_items).1.d_freq_offset| > 100 <;>
          simp [hfo, set_frequency, receiver.log, tuner_calls_set_frequency, hf.1]
    · rcases hr : (find_sch_burst K E U self inp ninput_items).2 with _ | _ <;> simp [hs.1]
    · simp [consume_each, receiver.log, tuner_calls_consume_each]
  · intro hst
    unfold general_work
    rcases hst with hst | hst <;> rw [hst] <;> dsimp only
    · rcases hr : (find_fcch_burst K E self inp ninput_items).2 with _ | _ <;>
        simp [set_frequency, receiver.log]
    · rcases hr : (find_fcch_burst K E self inp ninput_items).2 with _ | _
      · simp
      · by_cases hfo : |(find_fcch_burst K E self inp ninput_items).1.d_freq_offset| > 100 <;>
          simp [hfo, set_frequency, receiver.log]

/-! ## The SCH search inside the SCH region -/

/-- C20: once `d_counter` has reached `d_fcch_start_pos + (FRAME_BITS - SAFETY_MARGIN) * OSR`,
`find_sch_burst` reports success whatever the input, the number of items and the answers
of the detector and of the decoder, and consumes one sample for each of the
`SYNC_SEARCH_RANGE * OSR` offsets it correlates at: `40 * OSR` samples, for an oversampling
ratio that is not negative. -/
theorem find_sch_burst_in_region (K : gsm_constants) (E : externals α)
    (U : sch_uninitialised) (self : receiver α) (inp : Int → gr_complex α) (nitems : Int)
    (h : self.d_fcch_start_pos + (K.FRAME_BITS - K.SAFETY_MARGIN) * self.d_OSR
      ≤ self.d_counter) :
    (find_sch_burst K E U self inp nitems).2 = true ∧
    consumed (find_sch_burst K E U self inp nitems).1.trace
      = consumed self.trace + max (SYNC_SEARCH_RANGE * self.d_OSR) 0 ∧
    (find_sch_burst K E U self inp nitems).1.d_counter
      = self.d_counter + max (SYNC_SEARCH_RANGE * self.d_OSR) 0 ∧
    (0 ≤ self.d_OSR →
      consumed (find_sch_burst K E U self inp nitems).1.trace
        = consumed self.trace + 40 * self.d_OSR ∧
      (find_sch_burst K E U self inp nitems).1.d_counter = self.d_counter + 40 * self.d_OSR ∧
      (find_sch_burst K E U self inp nitems).1.trace
        = self.trace ++ [call.find_sch_burst]
          ++ List.replicate (40 * self.d_OSR).toNat call.correlate_sequence
          ++ [call.autocorrelation, call.mafi, call.viterbi_detector, call.decode_sch,
            call.consume_each (40 * self.d_OSR)]) := by
  obtain ⟨resp, hb⟩ := find_sch_burst_reached K E U self inp nitems (not_lt.mpr h)
  have e : (((K.SYNC_POS + SYNC_SEARCH_RANGE) * self.d_OSR - K.SYNC_POS * self.d_OSR).toNat : Int)
      = max (SYNC_SEARCH_RANGE * self.d_OSR) 0 := by
    have e1 : (K.SYNC_POS + SYNC_SEARCH_RANGE) * self.d_OSR - K.SYNC_POS * self.d_OSR
        = SYNC_SEARCH_RANGE * self.d_OSR := by ring
    rw [e1, Int.toNat_eq_max]
  have e2 : (K.SYNC_POS + SYNC_SEARCH_RANGE) * self.d_OSR - K.SYNC_POS * self.d_OSR
      = 40 * self.d_OSR := by
    unfold SYNC_SEARCH_RANGE
    ring
  have hc : consumed (find_sch_burst K E U self inp nitems).1.trace
      = consumed self.trace + max (SYNC_SEARCH_RANGE * self.d_OSR) 0 := by
    rw [hb]
    simp only [consumed_append, consumed_replicate_correlate]
    simp [consumed, e]
  have hd : (find_sch_burst K E U self inp nitems).1.d_counter
      = self.d_counter + max (SYNC_SEARCH_RANGE * self.d_OSR) 0 := by
    rw [hb]
    simp [e]
  refine ⟨by rw [hb], hc, hd, fun hosr => ?_⟩
  have e3 : max (SYNC_SEARCH_RANGE * self.d_OSR) 0 = 40 * self.d_OSR := by
    unfold SYNC_SEARCH_RANGE
    rw [max_eq_left (by omega)]
  refine ⟨by rw [hc, e3], by rw [hd, e3], ?_⟩
  rw [hb]
  simp only [e2]
  rw [Int.toNat_of_nonneg (by omega)]

/-- C20, witness: a receiver with `OSR = 4` whose `d_counter` is 4976, the start of the
SCH region, given 10 samples. -/
theorem find_sch_burst_in_region_witness :
    ({ example_receiver 4 with d_counter := 4976 }).d_fcch_start_pos
        + (example_constants.FRAME_BITS - example_constants.SAFETY_MARGIN)
          * ({ example_receiver 4 with d_counter := 4976 }).d_OSR
      ≤ ({ example_receiver 4 with d_counter := 4976 }).d_counter ∧
    (find_sch_burst example_constants example_externals example_uninitialised
      { example_receiver 4 with d_counter := 4976 } (fun _ => 0) 10).2 = true ∧
    (find_sch_burst example_constants example_externals example_uninitialised
      { example_receiver 4 with d_counter := 4976 } (fun _ => 0) 10).1.d_counter
        = 4976 + 160 :=
  ⟨by decide,
    (find_sch_burst_in_region example_constants example_externals example_uninitialised
      { example_receiver 4 with d_counter := 4976 } (fun _ => 0) 10 (by decide)).1,
    ((find_sch_burst_in_region example_constants example_externals example_uninitialised
      { example_receiver 4 with d_counter := 4976 } (fun _ => 0) 10 (by decide)).2.2.2
        (by decide)).2.1⟩

/-! ## Window energies and the strongest window -/

/-- The inner loop of the window energies adds the next `todo` powers to `energy`, and gives
nothing when fewer than `todo` are left. -/
theorem window_energy_eq (todo : Nat) (p : List α) (energy : α) :
    window_energy todo p energy
      = if todo ≤ p.length then some (energy + (p.take todo).sum) else none := by
  induction todo generalizing p energy with
  | zero => simp [window_energy]
  | succ todo ih =>
    cases p with
    | nil => simp [window_energy]
    | cons x xs =>
      rw [window_energy, ih]
      simp only [List.length_cons, Nat.add_le_add_iff_right, List.take_succ_cons, List.sum_cons]
      split_ifs
      · rw [add_assoc]
      · rfl

/-- The window energies of a power buffer `p`, for a window of `L ≥ 1` entries: one entry for
each full window, `p.length + 1 - L` in all, the entry `k` being the sum of the `L` powers
from `p[k]` on. -/
theorem window_energies_eq (L : Nat) (hL : 1 ≤ L) (p : List α) :
    window_energies L p
      = (List.range (p.length + 1 - L)).map (fun k => ((p.drop k).take L).sum) := by
  induction p with
  | nil =>
    have e : ([] : List α).length + 1 - L = 0 := by simp; omega
    rw [e]
    rfl
  | cons x xs ih =>
    rw [window_energies, window_energy_eq]
    by_cases h : L ≤ (x :: xs).length
    · rw [if_pos h]
      simp only [zero_add]
      rw [ih]
      have e : (x :: xs).length + 1 - L = (xs.length + 1 - L) + 1 := by
        simp only [List.length_cons] at h ⊢
        omega
      rw [e, List.range_succ_eq_map, List.map_cons, List.map_map]
      rfl
    · rw [if_neg h]
      have e : (x :: xs).length + 1 - L = 0 := by
        simp only [List.length_cons] at h ⊢
        omega
      rw [e]
      rfl

/-- The scan of `max_element`, started at position `pos` of the range `w` with the first
greatest element of `w[0 .. pos-1]` at `largest`, ends at the first greatest element of
`w`. -/
theorem max_element_scan_spec (w : List α) (rest : List α) (pos largest : Nat) (value : α)
    (hrest : w.drop pos = rest) (hl : largest < pos) (hpos : pos ≤ w.length)
    (hv : w[largest]? = some value)
    (hle : ∀ (k : Nat) (u : α), k < pos → w[k]? = some u → u ≤ value)
    (hlt : ∀ (k : Nat) (u : α), k < largest → w[k]? = some u → u < value) :
    max_element_scan rest pos largest value < w.length ∧
    ∃ v, w[max_element_scan rest pos largest value]? = some v ∧
      (∀ (k : Nat) (u : α), w[k]? = some u → u ≤ v) ∧
      (∀ (k : Nat) (u : α), k < max_element_scan rest pos largest value → w[k]? = some u → u < v) := by
  induction rest generalizing pos largest value with
  | nil =>
    have hlen : w.length ≤ pos := by
      have := congrArg List.length hrest
      simp at this
      omega
    refine ⟨by simp only [max_element_scan]; omega, value, hv, ?_, hlt⟩
    intro k u hk
    have hk2 : k < w.length := by
      by_contra hc
      rw [List.getElem?_eq_none (by omega)] at hk
      exact absurd hk (by simp)
    exact hle k u (by omega) hk
  | cons x rest ih =>
    have hx : w[pos]? = some x := by
      have := List.getElem?_drop w pos 0
      rw [hrest] at this
      simpa using this.symm
    have hlen : pos < w.length := by
      by_contra hc
      rw [List.getElem?_eq_none (by omega)] at hx
      exact absurd hx (by simp)
    have hrest2 : w.drop (pos + 1) = rest := by
      have : (w.drop pos).drop 1 = rest := by rw [hrest]; rfl
      rw [List.drop_drop] at this
      exact this
    unfold max_element_scan
    split_ifs with hvx
    · apply ih (pos + 1) pos x hrest2 (by omega) (by omega) hx
      · intro k u hk hku
        by_cases hkp : k = pos
        · subst hkp
          rw [hx] at hku
          exact le_of_eq (Option.some.inj hku).symm
        · exact le_trans (hle k u (by omega) hku) (le_of_lt hvx)
      · intro k u hk hku
        exact lt_of_le_of_lt (hle k u hk hku) hvx
    · apply ih (pos + 1) largest value hrest2 (by omega) (by omega) hv
      · intro k u hk hku
        by_cases hkp : k = pos
        · subst hkp
          rw [hx] at hku
          rw [← Option.some.inj hku]
          exact not_lt.mp hvx
        · exact hle k u (by omega) hku
      · exact hlt

/-- The index `max_element(begin, end) - begin` of a range that is not empty is the position
of its first greatest element. -/
theorem max_element_index_spec (w : List α) (hw : w ≠ []) :
    max_element_index w < w.length ∧
    ∃ v, w[max_element_index w]? = some v ∧
      (∀ (k : Nat) (u : α), w[k]? = some u → u ≤ v) ∧
      (∀ (k : Nat) (u : α), k < max_element_index w → w[k]? = some u → u < v) := by
  cases w with
  | nil => exact absurd rfl hw
  | cons x rest =>
    unfold max_element_index
    apply max_element_scan_spec (x :: rest) rest 1 0 x rfl (by omega) (by simp)
      List.getElem?_cons_zero
    · intro k u hk hku
      have : k = 0 := by omega
      subst this
      rw [List.getElem?_cons_zero] at hku
      exact le_of_eq (Option.some.inj hku).symm
    · intro k u hk
      omega

/-! ## The centre of the channel impulse response -/

/-- One pass of the loop that extracts the channel impulse response: the centre and the
running maximum change exactly when the magnitude read exceeds the running maximum. -/
theorem sch_chan_imp_resp_at_fields (E : externals α) (c : sch_config α) (ii : Nat) :
    (sch_chan_imp_resp_at E c ii).correlation_buffer = c.correlation_buffer ∧
    (sch_chan_imp_resp_at E c ii).strongest_window_nr = c.strongest_window_nr ∧
    (E.abs (array_at c.correlation_buffer (c.strongest_window_nr + ii)) > c.max_correlation →
      (sch_chan_imp_resp_at E c ii).chan_imp_resp_center = ii ∧
      (sch_chan_imp_resp_at E c ii).max_correlation
        = E.abs (array_at c.correlation_buffer (c.strongest_window_nr + ii))) ∧
    (¬ E.abs (array_at c.correlation_buffer (c.strongest_window_nr + ii)) > c.max_correlation →
      (sch_chan_imp_resp_at E c ii).chan_imp_resp_center = c.chan_imp_resp_center ∧
      (sch_chan_imp_resp_at E c ii).max_correlation = c.max_correlation) := by
  unfold sch_chan_imp_resp_at
  dsimp only
  split_ifs with h
  · exact ⟨rfl, rfl, fun _ => ⟨rfl, rfl⟩, fun h2 => absurd h h2⟩
  · exact ⟨rfl, rfl, fun h2 => absurd h2 h, fun _ => ⟨rfl, rfl⟩⟩

/-- The loop that extracts the channel impulse response, run over the first `n` offsets of
the window from a running maximum of 0: either no magnitude read was positive, and the
centre is as it was before the loop, or the centre is the first offset at which the magnitude
is greatest. -/
theorem sch_chan_imp_resp_scan (E : externals α) (c : sch_config α) (n : Nat)
    (hmax : c.max_correlation = 0) :
    ((List.range n).foldl (sch_chan_imp_resp_at E) c).correlation_buffer
      = c.correlation_buffer ∧
    ((List.range n).foldl (sch_chan_imp_resp_at E) c).strongest_window_nr
      = c.strongest_window_nr ∧
    ((((List.range n).foldl (sch_chan_imp_resp_at E) c).max_correlation = 0 ∧
      ((List.range n).foldl (sch_chan_imp_resp_at E) c).chan_imp_resp_center
        = c.chan_imp_resp_center ∧
      ∀ i : Nat, i < n →
        E.abs (array_at c.correlation_buffer (c.strongest_window_nr + i)) ≤ 0) ∨
     (∃ m : Nat, m < n ∧
      ((List.range n).foldl (sch_chan_imp_resp_at E) c).chan_imp_resp_center = m ∧
      ((List.range n).foldl (sch_chan_imp_resp_at E) c).max_correlation
        = E.abs (array_at c.correlation_buffer (c.strongest_window_nr + m)) ∧
      0 < E.abs (array_at c.correlation_buffer (c.strongest_window_nr + m)) ∧
      (∀ i : Nat, i < n →
        E.abs (array_at c.correlation_buffer (c.strongest_window_nr + i))
          ≤ E.abs (array_at c.correlation_buffer (c.strongest_window_nr + m))) ∧
      (∀ i : Nat, i < m →
        E.abs (array_at c.correlation_buffer (c.strongest_window_nr + i))
          < E.abs (array_at c.correlation_buffer (c.strongest_window_nr + m))))) := by
  induction n with
  | zero =>
    refine ⟨rfl, rfl, Or.inl ⟨hmax, rfl, fun i hi => ?_⟩⟩
    omega
  | succ n ih =>
    obtain ⟨hcb, hsw, hcase⟩ := ih
    rw [List.range_succ, List.foldl_append]
    simp only [List.foldl_cons, List.foldl_nil]
    obtain ⟨f1, f2, f3, f4⟩ := sch_chan_imp_resp_at_fields E
      ((List.range n).foldl (sch_chan_imp_resp_at E) c) n
    simp only [hcb, hsw] at f1 f2 f3 f4
    refine ⟨f1, f2, ?_⟩
    rcases hcase with ⟨h0, hc, hall⟩ | ⟨m, hm, hc, hmx, hpos, hall, hfirst⟩
    · rw [h0] at f3 f4
      by_cases hgt : E.abs (array_at c.correlation_buffer (c.strongest_window_nr + n)) > 0
      · right
        refine ⟨n, by omega, (f3 hgt).1, (f3 hgt).2, hgt, fun i hi => ?_, fun i hi => ?_⟩
        · by_cases hin : i = n
          · subst hin; exact le_refl _
          · exact le_trans (hall i (by omega)) (le_of_lt hgt)
        · exact lt_of_le_of_lt (hall i hi) hgt
      · left
        refine ⟨(f4 hgt).2, by rw [(f4 hgt).1, hc], fun i hi => ?_⟩
        by_cases hin : i = n
        · subst hin; exact not_lt.mp hgt
        · exact hall i (by omega)
    · rw [hmx] at f3 f4
      right
      by_cases hgt : E.abs (array_at c.correlation_buffer (c.strongest_window_nr + n))
          > E.abs (array_at c.correlation_buffer (c.strongest_window_nr + m))
      · refine ⟨n, by omega, (f3 hgt).1, (f3 hgt).2, lt_trans hpos hgt, fun i hi => ?_,
          fun i hi => ?_⟩
        · by_cases hin : i = n
          · subst hin; exact le_refl _
          · exact le_trans (hall i (by omega)) (le_of_lt hgt)
        · exact lt_of_le_of_lt (hall i hi) hgt
      · refine ⟨m, by omega, by rw [(f4 hgt).1, hc], by rw [(f4 hgt).2], hpos,
          fun i hi => ?_, hfirst⟩
        by_cases hin : i = n
        · subst hin; exact not_lt.mp hgt
        · exact hall i (by omega)

/-! ## The locals of the SCH search inside the SCH region -/

/-- Once the SCH region is reached, the loop of `find_sch_burst` runs `start`,
`find_sch_start` and `sch_found`. -/
theorem find_sch_burst_locals_reached (K : gsm_constants) (E : externals α)
    (U : sch_uninitialised) (self : receiver α) (inp : Int → gr_complex α) (nitems : Int)
    (h : ¬ self.d_counter < self.d_fcch_start_pos + (K.FRAME_BITS - K.SAFETY_MARGIN) * self.d_OSR) :
    find_sch_burst_locals K E U self inp nitems =
      { sch_find_sch_start K E inp
          { sch_start K U (self.log call.find_sch_burst) with
            sch_search_state := sch_states.find_sch_start } with
        result := true, end_ := true } := by
  unfold find_sch_burst_locals
  rw [sch_loop_step _ _ _ _ _ rfl]
  have e1 : sch_step K E inp nitems (sch_start K U (self.log call.find_sch_burst))
      = { sch_start K U (self.log call.find_sch_burst) with
          sch_search_state := sch_states.find_sch_start } := by
    simp [sch_step, sch_start, receiver.log, h]
  rw [e1, sch_loop_step _ _ _ _ _ rfl]
  simp only [sch_step]
  obtain ⟨-, -, hend, -, hst⟩ := sch_find_sch_start_eq K E inp
    { sch_start K U (self.log call.find_sch_burst) with
      sch_search_state := sch_states.find_sch_start }
  generalize sch_find_sch_start K E inp
    { sch_start K U (self.log call.find_sch_burst) with
      sch_search_state := sch_states.find_sch_start } = c at *
  rw [sch_loop_step _ _ _ _ _ (by rw [hend]; rfl)]
  simp only [sch_step, hst]
  rw [sch_loop_end _ _ _ _ _ rfl]

/-- The fields of the case `find_sch_start` that are settled when the loop extracting the
channel impulse response has run. -/
theorem sch_find_sch_start_scan (K : gsm_constants) (E : externals α)
    (inp : Int → gr_complex α) (c : sch_config α) :
    (sch_find_sch_start K E inp c).correlation_buffer
      = (sch_chan_imp_resp E
      { sch_correlate K E inp c with
        window_energy_buffer := (sch_correlate K E inp c).window_energy_buffer
          ++ window_energies ((sch_correlate K E inp c).chan_imp_length * c.self.d_OSR).toNat
            (sch_correlate K E inp c).power_buffer
        strongest_window_nr := max_element_index ((sch_correlate K E inp c).window_energy_buffer
          ++ window_energies ((sch_correlate K E inp c).chan_imp_length * c.self.d_OSR).toNat
            (sch_correlate K E inp c).power_buffer)
        self := { (sch_correlate K E inp c).self with d_channel_imp_resp := [] } }).correlation_buffer ∧
    (sch_find_sch_start K E inp c).power_buffer
      = (sch_chan_imp_resp E
      { sch_correlate K E inp c with
        window_energy_buffer := (sch_correlate K E inp c).window_energy_buffer
          ++ window_energies ((sch_correlate K E inp c).chan_imp_length * c.self.d_OSR).toNat
            (sch_correlate K E inp c).power_buffer
        strongest_window_nr := max_element_index ((sch_correlate K E inp c).window_energy_buffer
          ++ window_energies ((sch_correlate K E inp c).chan_imp_length * c.self.d_OSR).toNat
            (sch_correlate K E inp c).power_buffer)
        self := { (sch_correlate K E inp c).self with d_channel_imp_resp := [] } }).power_buffer ∧
    (sch_find_sch_start K E inp c).window_energy_buffer
      = (sch_chan_imp_resp E
      { sch_correlate K E inp c with
        window_energy_buffer := (sch_correlate K E inp c).window_energy_buffer
          ++ window_energies ((sch_correlate K E inp c).chan_imp_length * c.self.d_OSR).toNat
            (sch_correlate K E inp c).power_buffer
        strongest_window_nr := max_element_index ((sch_correlate K E inp c).window_energy_buffer
          ++ window_energies ((sch_correlate K E inp c).chan_imp_length * c.self.d_OSR).toNat
            (sch_correlate K E inp c).power_buffer)
        self := { (sch_correlate K E inp c).self with d_channel_imp_resp := [] } }).window_energy_buffer ∧
    (sch_find_sch_start K E inp c).strongest_window_nr
      = (sch_chan_imp_resp E
      { sch_correlate K E inp c with
        window_energy_buffer := (sch_correlate K E inp c).window_energy_buffer
          ++ window_energies ((sch_correlate K E inp c).chan_imp_length * c.self.d_OSR).toNat
            (sch_correlate K E inp c).power_buffer
        strongest_window_nr := max_element_index ((sch_correlate K E inp c).window_energy_buffer
          ++ window_energies ((sch_correlate K E inp c).chan_imp_length * c.self.d_OSR).toNat
            (sch_correlate K E inp c).power_buffer)
        self := { (sch_correlate K E inp c).self with d_channel_imp_resp := [] } }).strongest_window_nr ∧
    (sch_find_sch_start K E inp c).chan_imp_resp_center
      = (sch_chan_imp_resp E
      { sch_correlate K E inp c with
        window_energy_buffer := (sch_correlate K E inp c).window_energy_buffer
          ++ window_energies ((sch_correlate K E inp c).chan_imp_length * c.self.d_OSR).toNat
            (sch_correlate K E inp c).power_buffer
        strongest_window_nr := max_element_index ((sch_correlate K E inp c).window_energy_buffer
          ++ window_energies ((sch_correlate K E inp c).chan_imp_length * c.self.d_OSR).toNat
            (sch_correlate K E inp c).power_buffer)
        self := { (sch_correlate K E inp c).self with d_channel_imp_resp := [] } }).chan_imp_resp_center ∧
    (sch_find_sch_start K E inp c).max_correlation
      = (sch_chan_imp_resp E
      { sch_correlate K E inp c with
        window_energy_buffer := (sch_correlate K E inp c).window_energy_buffer
          ++ window_energies ((sch_correlate K E inp c).chan_imp_length * c.self.d_OSR).toNat
            (sch_correlate K E inp c).power_buffer
        strongest_window_nr := max_element_index ((sch_correlate K E inp c).window_energy_buffer
          ++ window_energies ((sch_correlate K E inp c).chan_imp_length * c.self.d_OSR).toNat
            (sch_correlate K E inp c).power_buffer)
        self := { (sch_correlate K E inp c).self with d_channel_imp_resp := [] } }).max_correlation ∧
    (sch_find_sch_start K E inp c).burst_start
      = (sch_chan_imp_resp E
      { sch_correlate K E inp c with
        window_energy_buffer := (sch_correlate K E inp c).window_energy_buffer
          ++ window_energies ((sch_correlate K E inp c).chan_imp_length * c.self.d_OSR).toNat
            (sch_correlate K E inp c).power_buffer
        strongest_window_nr := max_element_index ((sch_correlate K E inp c).window_energy_buffer
          ++ window_energies ((sch_correlate K E inp c).chan_imp_length * c.self.d_OSR).toNat
            (sch_correlate K E inp c).power_buffer)
        self := { (sch_correlate K E inp c).self with d_channel_imp_resp := [] } }).strongest_window_nr
      + (sch_chan_imp_resp E
      { sch_correlate K E inp c with
        window_energy_buffer := (sch_correlate K E inp c).window_energy_buffer
          ++ window_energies ((sch_correlate K E inp c).chan_imp_length * c.self.d_OSR).toNat
            (sch_correlate K E inp c).power_buffer
        strongest_window_nr := max_element_index ((sch_correlate K E inp c).window_energy_buffer
          ++ window_energies ((sch_correlate K E inp c).chan_imp_length * c.self.d_OSR).toNat
            (sch_correlate K E inp c).power_buffer)
        self := { (sch_correlate K E inp c).self with d_channel_imp_resp := [] } }).chan_imp_resp_center
        - 48 * c.self.d_OSR - 2 * c.self.d_OSR + 2 + K.SYNC_POS * c.self.d_OSR := by
  unfold sch_find_sch_start
  dsimp only
  exact ⟨rfl, rfl, rfl, rfl, rfl, rfl, rfl⟩

/-- The case `find_sch_start` entered with empty buffers: the buffers it fills, the
strongest window, and the centre of the channel impulse response. -/
theorem sch_find_sch_start_window (K : gsm_constants) (E : externals α)
    (inp : Int → gr_complex α) (c : sch_config α)
    (hcb : c.correlation_buffer = []) (hpb : c.power_buffer = [])
    (hweb : c.window_energy_buffer = []) :
    (sch_find_sch_start K E inp c).correlation_buffer.length
      = ((K.SYNC_POS + SYNC_SEARCH_RANGE) * c.self.d_OSR - K.SYNC_POS * c.self.d_OSR).toNat ∧
    (sch_find_sch_start K E inp c).power_buffer
      = (sch_find_sch_start K E inp c).correlation_buffer.map (fun z => E.abs z ^ 2) ∧
    (sch_find_sch_start K E inp c).window_energy_buffer
      = window_energies (c.chan_imp_length * c.self.d_OSR).toNat
          (sch_find_sch_start K E inp c).power_buffer ∧
    (sch_find_sch_start K E inp c).strongest_window_nr
      = max_element_index (sch_find_sch_start K E inp c).window_energy_buffer ∧
    (((sch_find_sch_start K E inp c).max_correlation = 0 ∧
      (sch_find_sch_start K E inp c).chan_imp_resp_center = c.chan_imp_resp_center ∧
      ∀ i : Nat, i < (c.chan_imp_length * c.self.d_OSR).toNat →
        E.abs (array_at (sch_find_sch_start K E inp c).correlation_buffer
          ((sch_find_sch_start K E inp c).strongest_window_nr + i)) ≤ 0) ∨
     (∃ m : Nat, m < (c.chan_imp_length * c.self.d_OSR).toNat ∧
      (sch_find_sch_start K E inp c).chan_imp_resp_center = m ∧
      (sch_find_sch_start K E inp c).max_correlation
        = E.abs (array_at (sch_find_sch_start K E inp c).correlation_buffer
            ((sch_find_sch_start K E inp c).strongest_window_nr + m)) ∧
      0 < E.abs (array_at (sch_find_sch_start K E inp c).correlation_buffer
            ((sch_find_sch_start K E inp c).strongest_window_nr + m)) ∧
      (∀ i : Nat, i < (c.chan_imp_length * c.self.d_OSR).toNat →
        E.abs (array_at (sch_find_sch_start K E inp c).correlation_buffer
            ((sch_find_sch_start K E inp c).strongest_window_nr + i))
          ≤ E.abs (array_at (sch_find_sch_start K E inp c).correlation_buffer
            ((sch_find_sch_start K E inp c).strongest_window_nr + m))) ∧
      (∀ i : Nat, i < m →
        E.abs (array_at (sch_find_sch_start K E inp c).correlation_buffer
            ((sch_find_sch_start K E inp c).strongest_window_nr + i))
          < E.abs (array_at (sch_find_sch_start K E inp c).correlation_buffer
            ((sch_find_sch_start K E inp c).strongest_window_nr + m))))) ∧
    (sch_find_sch_start K E inp c).burst_start
      = (sch_find_sch_start K E inp c).strongest_window_nr
        + (sch_find_sch_start K E inp c).chan_imp_resp_center
        - 48 * c.self.d_OSR - 2 * c.self.d_OSR + 2 + K.SYNC_POS * c.self.d_OSR ∧
    (sch_find_sch_start K E inp c).correlation_buffer
      = (List.range ((K.SYNC_POS + SYNC_SEARCH_RANGE) * c.self.d_OSR
          - K.SYNC_POS * c.self.d_OSR).toNat).map
        (fun (k : Nat) => correlate_sequence c.self.d_OSR
          (fun i => array_at c.self.d_sch_training_seq (5 + i))
          (fun i => inp (K.SYNC_POS * c.self.d_OSR + k + i)) (K.N_SYNC_BITS - 10)) := by
  obtain ⟨r1, r2, r3, r4, r5, r6, r7⟩ := sch_find_sch_start_scan K E inp c
  rw [r7, r1, r2, r3, r4, r5, r6]
  clear r1 r2 r3 r4 r5 r6 r7
  -- the configuration left by the correlation loop
  have hc1 : sch_correlate K E inp c = _ := sch_correlate_foldl K E inp c
    ((K.SYNC_POS + SYNC_SEARCH_RANGE) * c.self.d_OSR - K.SYNC_POS * c.self.d_OSR).toNat
  have g1 : (sch_correlate K E inp c).correlation_buffer.length
      = ((K.SYNC_POS + SYNC_SEARCH_RANGE) * c.self.d_OSR - K.SYNC_POS * c.self.d_OSR).toNat := by
    rw [hc1]; simp [hcb]
  have g2 : (sch_correlate K E inp c).power_buffer
      = (sch_correlate K E inp c).correlation_buffer.map (fun z => E.abs z ^ 2) := by
    rw [hc1]; simp [hcb, hpb, Function.comp_def]
  have g7 : (sch_correlate K E inp c).correlation_buffer
      = (List.range ((K.SYNC_POS + SYNC_SEARCH_RANGE) * c.self.d_OSR
          - K.SYNC_POS * c.self.d_OSR).toNat).map
        (fun (k : Nat) => correlate_sequence c.self.d_OSR
          (fun i => array_at c.self.d_sch_training_seq (5 + i))
          (fun i => inp (K.SYNC_POS * c.self.d_OSR + k + i)) (K.N_SYNC_BITS - 10)) := by
    rw [hc1]; simp [hcb]
  have g3 : (sch_correlate K E inp c).window_energy_buffer = [] := by rw [hc1]; exact hweb
  have g4 : (sch_correlate K E inp c).chan_imp_length = c.chan_imp_length := by rw [hc1]
  have g5 : (sch_correlate K E inp c).self.d_OSR = c.self.d_OSR := by rw [hc1]
  have g6 : (sch_correlate K E inp c).chan_imp_resp_center = c.chan_imp_resp_center := by
    rw [hc1]
  clear hc1
  generalize sch_correlate K E inp c = c1 at *
  rw [g3, g4, List.nil_append]
  -- the configuration when the loop extracting the channel impulse response is entered
  have k1 : ({ c1 with
      window_energy_buffer := window_energies (c.chan_imp_length * c.self.d_OSR).toNat
        c1.power_buffer
      strongest_window_nr := max_element_index
        (window_energies (c.chan_imp_length * c.self.d_OSR).toNat c1.power_buffer)
      self := { c1.self with d_channel_imp_resp := [] } } : sch_config α).correlation_buffer
      = c1.correlation_buffer := rfl
  generalize hC2 : ({ c1 with
      window_energy_buffer := window_energies (c.chan_imp_length * c.self.d_OSR).toNat
        c1.power_buffer
      strongest_window_nr := max_element_index
        (window_energies (c.chan_imp_length * c.self.d_OSR).toNat c1.power_buffer)
      self := { c1.self with d_channel_imp_resp := [] } } : sch_config α) = C2 at *
  have k2 : C2.power_buffer = c1.power_buffer := by rw [← hC2]
  have k3 : C2.window_energy_buffer
      = window_energies (c.chan_imp_length * c.self.d_OSR).toNat c1.power_buffer := by
    rw [← hC2]
  have k4 : C2.strongest_window_nr = max_element_index
      (window_energies (c.chan_imp_length * c.self.d_OSR).toNat c1.power_buffer) := by
    rw [← hC2]
  have k5 : C2.chan_imp_length = c.chan_imp_length := by rw [← hC2]; exact g4
  have k6 : C2.self.d_OSR = c.self.d_OSR := by rw [← hC2]; exact g5
  have k7 : C2.chan_imp_resp_center = c.chan_imp_resp_center := by rw [← hC2]; exact g6
  clear hC2
  have hscan := sch_chan_imp_resp_scan E { C2 with max_correlation := 0 }
    (C2.chan_imp_length * C2.self.d_OSR).toNat rfl
  obtain ⟨center, maxc, resp, cir, hfold⟩ := sch_chan_imp_resp_foldl E
    (List.range (C2.chan_imp_length * C2.self.d_OSR).toNat) { C2 with max_correlation := 0 }
  have hF : sch_chan_imp_resp E C2 = List.foldl (sch_chan_imp_resp_at E)
      { C2 with max_correlation := 0 }
      (List.range (C2.chan_imp_length * C2.self.d_OSR).toNat) := rfl
  rw [hF]
  generalize List.foldl (sch_chan_imp_resp_at E) { C2 with max_correlation := 0 }
      (List.range (C2.chan_imp_length * C2.self.d_OSR).toNat) = F at *
  have f1 : F.correlation_buffer = c1.correlation_buffer := by rw [hfold]; exact k1
  have f2 : F.power_buffer = c1.power_buffer := by rw [hfold]; exact k2
  have f3 : F.window_energy_buffer
      = window_energies (c.chan_imp_length * c.self.d_OSR).toNat c1.power_buffer := by
    rw [hfold]; exact k3
  have f4 : F.strongest_window_nr = max_element_index F.window_energy_buffer := by
    rw [f3, hscan.2.1]; exact k4
  refine ⟨by rw [f1, g1], by rw [f1, f2, g2], by rw [f3, f2], f4, ?_, rfl, by rw [f1, g7]⟩
  have hcase := hscan.2.2
  rw [k5, k6] at hcase
  have e4 : ({ C2 with max_correlation := 0 } : sch_config α).strongest_window_nr
      = F.strongest_window_nr := hscan.2.1.symm
  have e5 : ({ C2 with max_correlation := 0 } : sch_config α).correlation_buffer
      = F.correlation_buffer := hscan.1.symm
  have e6 : ({ C2 with max_correlation := 0 } : sch_config α).chan_imp_resp_center
      = c.chan_imp_resp_center := k7
  rw [e4, e5, e6] at hcase
  exact hcase

/-! ## The strongest window and the centre tap of `find_sch_burst` -/

/-- The window energies of a power buffer with at least one full window, and the strongest
window: one entry per full window, and the first greatest entry leaves a full window inside
the buffer. -/
theorem window_energies_strongest (power : List α) (L : Nat) (hL : 1 ≤ L)
    (hN : L ≤ power.length) :
    (window_energies L power).length = power.length - L + 1 ∧
    (∀ k : Nat, k + L ≤ power.length →
      (window_energies L power)[k]? = some ((power.drop k).take L).sum) ∧
    max_element_index (window_energies L power) + L ≤ power.length ∧
    ∃ v, (window_energies L power)[max_element_index (window_energies L power)]? = some v ∧
      (∀ (k : Nat) (u : α), (window_energies L power)[k]? = some u → u ≤ v) ∧
      (∀ (k : Nat) (u : α), k < max_element_index (window_energies L power) →
        (window_energies L power)[k]? = some u → u < v) := by
  have hlen : (window_energies L power).length = power.length - L + 1 := by
    rw [window_energies_eq L hL, List.length_map, List.length_range]
    omega
  have hne : window_energies L power ≠ [] := by
    intro h
    rw [h] at hlen
    simp at hlen
  obtain ⟨hidx, hmax⟩ := max_element_index_spec (window_energies L power) hne
  refine ⟨hlen, fun k hk => ?_, by omega, hmax⟩
  rw [window_energies_eq L hL, List.getElem?_map, List.getElem?_range (by omega)]
  rfl

/-- The locals of `find_sch_burst` inside the SCH region are those the case `find_sch_start`
leaves, entered with the locals as initialised. -/
theorem find_sch_burst_locals_fields (K : gsm_constants) (E : externals α)
    (U : sch_uninitialised) (self : receiver α) (inp : Int → gr_complex α) (nitems : Int)
    (h : self.d_fcch_start_pos + (K.FRAME_BITS - K.SAFETY_MARGIN) * self.d_OSR
      ≤ self.d_counter) :
    ∃ c0 : sch_config α,
      c0.correlation_buffer = [] ∧ c0.power_buffer = [] ∧ c0.window_energy_buffer = [] ∧
      c0.chan_imp_length = 5 ∧ c0.self.d_OSR = self.d_OSR ∧
      c0.chan_imp_resp_center = U.chan_imp_resp_center ∧
      c0.self.d_sch_training_seq = self.d_sch_training_seq ∧
      (find_sch_burst_locals K E U self inp nitems).correlation_buffer
        = (sch_find_sch_start K E inp c0).correlation_buffer ∧
      (find_sch_burst_locals K E U self inp nitems).power_buffer
        = (sch_find_sch_start K E inp c0).power_buffer ∧
      (find_sch_burst_locals K E U self inp nitems).window_energy_buffer
        = (sch_find_sch_start K E inp c0).window_energy_buffer ∧
      (find_sch_burst_locals K E U self inp nitems).strongest_window_nr
        = (sch_find_sch_start K E inp c0).strongest_window_nr ∧
      (find_sch_burst_locals K E U self inp nitems).chan_imp_resp_center
        = (sch_find_sch_start K E inp c0).chan_imp_resp_center ∧
      (find_sch_burst_locals K E U self inp nitems).max_correlation
        = (sch_find_sch_start K E inp c0).max_correlation ∧
      (find_sch_burst_locals K E U self inp nitems).burst_start
        = (sch_find_sch_start K E inp c0).burst_start := by
  refine ⟨{ sch_start K U (self.log call.find_sch_burst) with
    sch_search_state := sch_states.find_sch_start }, rfl, rfl, rfl, rfl, rfl, rfl, rfl, ?_⟩
  rw [find_sch_burst_locals_reached K E U self inp nitems (not_lt.mpr h)]
  exact ⟨rfl, rfl, rfl, rfl, rfl, rfl, rfl⟩

/-- C13: in the case `find_sch_start` of `find_sch_burst`, for every power buffer of `N`
entries and every window length `L` with `1 ≤ L ≤ N`, the window energies are `N - L + 1`
in number, the entry `k` being the sum of `power[k .. k+L-1]`, and the strongest window is
the first greatest of them, so that it ends inside the buffer. Inside the SCH region, with
`OSR ≥ 1`, the power and correlation buffers have `N = SYNC_SEARCH_RANGE * OSR` entries,
`L = chan_imp_length * OSR = 5 * OSR`, and every index `strongest_window_nr + ii` with
`ii < L` lies inside the correlation buffer. -/
theorem find_sch_burst_window_energies (K : gsm_constants) (E : externals α)
    (U : sch_uninitialised) (self : receiver α) (inp : Int → gr_complex α) (nitems : Int)
    (hOSR : 1 ≤ self.d_OSR)
    (h : self.d_fcch_start_pos + (K.FRAME_BITS - K.SAFETY_MARGIN) * self.d_OSR
      ≤ self.d_counter) :
    (∀ (power : List α) (L : Nat), 1 ≤ L → L ≤ power.length →
      (window_energies L power).length = power.length - L + 1 ∧
      (∀ k : Nat, k + L ≤ power.length →
        (window_energies L power)[k]? = some ((power.drop k).take L).sum) ∧
      max_element_index (window_energies L power) + L ≤ power.length ∧
      ∃ v, (window_energies L power)[max_element_index (window_energies L power)]? = some v ∧
        (∀ (k : Nat) (u : α), (window_energies L power)[k]? = some u → u ≤ v) ∧
        (∀ (k : Nat) (u : α), k < max_element_index (window_energies L power) →
          (window_energies L power)[k]? = some u → u < v)) ∧
    ((find_sch_burst_locals K E U self inp nitems).power_buffer.length : Int)
      = SYNC_SEARCH_RANGE * self.d_OSR ∧
    ((find_sch_burst_locals K E U self inp nitems).correlation_buffer.length : Int)
      = SYNC_SEARCH_RANGE * self.d_OSR ∧
    (find_sch_burst_locals K E U self inp nitems).window_energy_buffer
      = window_energies (5 * self.d_OSR).toNat
          (find_sch_burst_locals K E U self inp nitems).power_buffer ∧
    ((find_sch_burst_locals K E U self inp nitems).window_energy_buffer.length : Int)
      = SYNC_SEARCH_RANGE * self.d_OSR - 5 * self.d_OSR + 1 ∧
    (find_sch_burst_locals K E U self inp nitems).strongest_window_nr
      = max_element_index (find_sch_burst_locals K E U self inp nitems).window_energy_buffer ∧
    0 ≤ (find_sch_burst_locals K E U self inp nitems).strongest_window_nr ∧
    (find_sch_burst_locals K E U self inp nitems).strongest_window_nr + 5 * self.d_OSR
      ≤ SYNC_SEARCH_RANGE * self.d_OSR ∧
    (∀ ii : Int, 0 ≤ ii → ii < 5 * self.d_OSR →
      0 ≤ (find_sch_burst_locals K E U self inp nitems).strongest_window_nr + ii ∧
      (find_sch_burst_locals K E U self inp nitems).strongest_window_nr + ii
        < (find_sch_burst_locals K E U self inp nitems).correlation_buffer.length) := by
  refine ⟨fun power L hL hN => window_energies_strongest power L hL hN, ?_⟩
  obtain ⟨c0, hcb, hpb, hweb, hlen5, hosr, -, -, e1, e2, e3, e4, -, -, -⟩ :=
    find_sch_burst_locals_fields K E U self inp nitems h
  obtain ⟨w1, w2, w3, w4, -, -, -⟩ := sch_find_sch_start_window K E inp c0 hcb hpb hweb
  rw [← e1, ← e2, ← e3, ← e4, hlen5, hosr] at *
  clear e1 e2 e3 e4
  generalize find_sch_burst_locals K E U self inp nitems = c at *
  have hN : (K.SYNC_POS + SYNC_SEARCH_RANGE) * self.d_OSR - K.SYNC_POS * self.d_OSR
      = SYNC_SEARCH_RANGE * self.d_OSR := by ring
  rw [hN] at w1
  have hS : SYNC_SEARCH_RANGE = 40 := rfl
  rw [hS] at w1 ⊢
  have hpl : c.power_buffer.length = (40 * self.d_OSR).toNat := by
    rw [w2, List.length_map, w1]
  obtain ⟨s1, -, s3, -⟩ := window_energies_strongest c.power_buffer (5 * self.d_OSR).toNat
    (by omega) (by omega)
  rw [← w3] at s3
  have hwl : c.window_energy_buffer.length
      = c.power_buffer.length - (5 * self.d_OSR).toNat + 1 := by
    rw [w3]
    exact s1
  refine ⟨by omega, by omega, w3, by omega, w4, by omega, by omega, fun ii h0 h1 => ?_⟩
  omega

/-- C13, witness: a receiver with `OSR = 4` whose `d_counter` is 4976, the start of the SCH
region: 160 powers and 141 windows of 20. -/
theorem find_sch_burst_window_energies_witness :
    ((1 : Int) ≤ ({ example_receiver 4 with d_counter := 4976 }).d_OSR ∧
      ({ example_receiver 4 with d_counter := 4976 }).d_fcch_start_pos
        + (example_constants.FRAME_BITS - example_constants.SAFETY_MARGIN)
          * ({ example_receiver 4 with d_counter := 4976 }).d_OSR
        ≤ ({ example_receiver 4 with d_counter := 4976 }).d_counter) ∧
    ((find_sch_burst_locals example_constants example_externals example_uninitialised
      { example_receiver 4 with d_counter := 4976 } (fun _ => 0) 10).power_buffer.length : Int)
        = 160 ∧
    ((find_sch_burst_locals example_constants example_externals example_uninitialised
      { example_receiver 4 with d_counter := 4976 } (fun _ => 0) 10).window_energy_buffer.length
        : Int) = 141 :=
  ⟨⟨by decide, by decide⟩,
    (find_sch_burst_window_energies example_constants example_externals example_uninitialised
      { example_receiver 4 with d_counter := 4976 } (fun _ => 0) 10 (by decide)
      (by decide)).2.1,
    (find_sch_burst_window_energies example_constants example_externals example_uninitialised
      { example_receiver 4 with d_counter := 4976 } (fun _ => 0) 10 (by decide)
      (by decide)).2.2.2.2.1⟩

/-- The correlation of any sequence with an input that is zero is zero. -/
theorem correlate_sequence_zero_input (d_OSR : Int) (sequence : Int → gr_complex α)
    (length : Int) :
    correlate_sequence d_OSR sequence (fun _ => 0) length = 0 := by
  have hfold : ∀ n : Nat, (List.range n).foldl
      (fun (result : gr_complex α) (ii : Nat) =>
        result + sequence ii * gr_complex.conj ((fun _ => (0 : gr_complex α)) ((ii : Int) * d_OSR)))
      0 = 0 := by
    intro n
    induction n with
    | zero => rfl
    | succ n ih =>
      rw [List.range_succ, List.foldl_append, ih]
      apply gr_complex.ext
      · show (0 : α) + ((sequence n).re * 0 - (sequence n).im * (-0)) = 0
        ring
      · show (0 : α) + ((sequence n).re * (-0) + (sequence n).im * 0) = 0
        ring
  unfold correlate_sequence
  dsimp only
  rw [hfold]
  apply gr_complex.ext
  · show ((0 : α) * (length : α) + 0 * 0) / ((length : α) * (length : α) + 0 * 0) = 0
    simp
  · show ((0 : α) * (length : α) - 0 * 0) / ((length : α) * (length : α) + 0 * 0) = 0
    simp

/-- On an input that is zero the correlation buffer of `find_sch_burst` holds zeros. -/
theorem find_sch_burst_locals_zero_input (K : gsm_constants) (E : externals α)
    (U : sch_uninitialised) (self : receiver α) (nitems : Int)
    (h : self.d_fcch_start_pos + (K.FRAME_BITS - K.SAFETY_MARGIN) * self.d_OSR
      ≤ self.d_counter) (j : Int) :
    array_at (find_sch_burst_locals K E U self (fun _ => 0) nitems).correlation_buffer j = 0 := by
  obtain ⟨c0, hcb, hpb, hweb, -, -, -, -, e1, -⟩ :=
    find_sch_burst_locals_fields K E U self (fun _ => 0) nitems h
  obtain ⟨-, -, -, -, -, -, w7⟩ := sch_find_sch_start_window K E (fun _ => 0) c0 hcb hpb hweb
  rw [e1, w7]
  unfold array_at
  split_ifs
  · rw [List.getD_eq_getElem?_getD, List.getElem?_map]
    cases hr : (List.range ((K.SYNC_POS + SYNC_SEARCH_RANGE) * c0.self.d_OSR
        - K.SYNC_POS * c0.self.d_OSR).toNat)[j.toNat]? with
    | none => rfl
    | some k =>
      simp only [Option.map_some', Option.getD_some]
      exact correlate_sequence_zero_input _ _ _
  · rfl

/-- C14: inside the SCH region, when some correlation of the strongest window has a
positive magnitude, the centre tap `chan_imp_resp_center` is the first offset of the window
at which the magnitude is greatest, a value in `[0, chan_imp_length * OSR)`; when none has
(as for correlations that are all zero), `chan_imp_resp_center` is never assigned and keeps
the value the local held at entry, from which `burst_start` is computed. -/
theorem find_sch_burst_center_tap (K : gsm_constants) (E : externals α)
    (U : sch_uninitialised) (self : receiver α) (inp : Int → gr_complex α) (nitems : Int)
    (h : self.d_fcch_start_pos + (K.FRAME_BITS - K.SAFETY_MARGIN) * self.d_OSR
      ≤ self.d_counter) :
    ((∀ ii : Nat, (ii : Int) < 5 * self.d_OSR →
        E.abs (array_at (find_sch_burst_locals K E U self inp nitems).correlation_buffer
          ((find_sch_burst_locals K E U self inp nitems).strongest_window_nr + ii)) ≤ 0) →
      (find_sch_burst_locals K E U self inp nitems).chan_imp_resp_center
        = U.chan_imp_resp_center) ∧
    ((∃ ii : Nat, (ii : Int) < 5 * self.d_OSR ∧
        0 < E.abs (array_at (find_sch_burst_locals K E U self inp nitems).correlation_buffer
          ((find_sch_burst_locals K E U self inp nitems).strongest_window_nr + ii))) →
      ∃ m : Nat, (find_sch_burst_locals K E U self inp nitems).chan_imp_resp_center = m ∧
        (m : Int) < 5 * self.d_OSR ∧
        (∀ ii : Nat, (ii : Int) < 5 * self.d_OSR →
          E.abs (array_at (find_sch_burst_locals K E U self inp nitems).correlation_buffer
              ((find_sch_burst_locals K E U self inp nitems).strongest_window_nr + ii))
            ≤ E.abs (array_at (find_sch_burst_locals K E U self inp nitems).correlation_buffer
              ((find_sch_burst_locals K E U self inp nitems).strongest_window_nr + m))) ∧
        (∀ ii : Nat, ii < m →
          E.abs (array_at (find_sch_burst_locals K E U self inp nitems).correlation_buffer
              ((find_sch_burst_locals K E U self inp nitems).strongest_window_nr + ii))
            < E.abs (array_at (find_sch_burst_locals K E U self inp nitems).correlation_buffer
              ((find_sch_burst_locals K E U self inp nitems).strongest_window_nr + m)))) ∧
    (find_sch_burst_locals K E U self inp nitems).burst_start
      = (find_sch_burst_locals K E U self inp nitems).strongest_window_nr
        + (find_sch_burst_locals K E U self inp nitems).chan_imp_resp_center
        - 48 * self.d_OSR - 2 * self.d_OSR + 2 + K.SYNC_POS * self.d_OSR := by
  obtain ⟨c0, hcb, hpb, hweb, hlen5, hosr, hcen, -, e1, -, -, e4, e5, -, e7⟩ :=
    find_sch_burst_locals_fields K E U self inp nitems h
  obtain ⟨-, -, -, -, w5, w6, -⟩ := sch_find_sch_start_window K E inp c0 hcb hpb hweb
  rw [← e1, ← e4, ← e5, ← e7, hlen5, hosr, hcen] at *
  clear e1 e4 e5 e7
  generalize find_sch_burst_locals K E U self inp nitems = c at *
  have hlt : ∀ i : Nat, i < (5 * self.d_OSR).toNat ↔ (i : Int) < 5 * self.d_OSR := by
    intro i
    omega
  refine ⟨fun hall => ?_, fun hex => ?_, w6⟩
  · rcases w5 with ⟨-, hc, -⟩ | ⟨m, hm, -, -, hpos, -, -⟩
    · exact hc
    · exact absurd hpos (not_lt.mpr (hall m ((hlt m).1 hm)))
  · rcases w5 with ⟨-, -, hall⟩ | ⟨m, hm, hc, -, -, hle, hfirst⟩
    · obtain ⟨ii, hii, hpos⟩ := hex
      exact absurd hpos (not_lt.mpr (hall ii ((hlt ii).2 hii)))
    · exact ⟨m, hc, (hlt m).1 hm, fun ii hii => hle ii ((hlt ii).2 hii), hfirst⟩

/-- C14, at an input that is zero: with `OSR = 1`, a receiver at the start of the SCH region
and 1000 in the local `chan_imp_resp_center` at entry, every correlation is zero and the
centre tap is left at 1000, outside the window of 5 offsets. -/
theorem find_sch_burst_center_tap_witness :
    ({ example_receiver 1 with d_counter := 1244 }).d_fcch_start_pos
        + (example_constants.FRAME_BITS - example_constants.SAFETY_MARGIN)
          * ({ example_receiver 1 with d_counter := 1244 }).d_OSR
      ≤ ({ example_receiver 1 with d_counter := 1244 }).d_counter ∧
    (find_sch_burst_locals example_constants example_externals
      { example_uninitialised with chan_imp_resp_center := 1000 }
      { example_receiver 1 with d_counter := 1244 } (fun _ => 0) 10).chan_imp_resp_center
        = 1000 :=
  ⟨by decide,
    (find_sch_burst_center_tap example_constants example_externals
      { example_uninitialised with chan_imp_resp_center := 1000 }
      { example_receiver 1 with d_counter := 1244 } (fun _ => 0) 10 (by decide)).1
      (fun ii _ => by
        rw [find_sch_burst_locals_zero_input example_constants example_externals
          { example_uninitialised with chan_imp_resp_center := 1000 }
          { example_receiver 1 with d_counter := 1244 } 10 (by decide)]
        simp [example_externals]
        exact le_of_eq (by
          show |(0 : ℚ)| + |(0 : ℚ)| = 0
          simp))⟩

/-! ## Progress of the FCCH search -/

/-- The counting invariant holds when the loop of `find_fcch_burst` has ended. -/
theorem fcch_counting_loop (K : gsm_constants) (E : externals α) (inp : Int → gr_complex α)
    (nitems : Int) (self0 : receiver α)
    (hW1 : 1 ≤ K.FCCH_HITS_NEEDED * self0.d_OSR) (hM1 : 1 ≤ K.FCCH_MAX_MISSES * self0.d_OSR) :
    fcch_counting E inp nitems self0.d_OSR (K.FCCH_HITS_NEEDED * self0.d_OSR)
      (K.FCCH_MAX_MISSES * self0.d_OSR) (fcch_loop K E inp nitems (fcch_start self0)) ∧
    (fcch_loop K E inp nitems (fcch_start self0)).end_ = true :=
  fcch_loop_invariant K E inp nitems
    (fun c => fcch_counting E inp nitems self0.d_OSR (K.FCCH_HITS_NEEDED * self0.d_OSR)
      (K.FCCH_MAX_MISSES * self0.d_OSR) c)
    (fun c h he => fcch_counting_step K E inp nitems self0.d_OSR _ _ c rfl rfl hW1 hM1 h he)
    (fcch_start self0) (fcch_counting_start E inp nitems _ _ self0)

/-- A failing run of the loop of `find_fcch_burst` sets `to_consume` to at least 1 and at
most `max nitems 1`. -/
theorem fcch_failure_consumes (K : gsm_constants) (E : externals α)
    (inp : Int → gr_complex α) (nitems : Int) (self0 : receiver α)
    (hW1 : 1 ≤ K.FCCH_HITS_NEEDED * self0.d_OSR) (hM1 : 1 ≤ K.FCCH_MAX_MISSES * self0.d_OSR)
    (hr : (fcch_loop K E inp nitems (fcch_start self0)).result = false) :
    1 ≤ (fcch_loop K E inp nitems (fcch_start self0)).to_consume ∧
    (fcch_loop K E inp nitems (fcch_start self0)).to_consume ≤ max nitems 1 := by
  obtain ⟨hc, hend⟩ := fcch_counting_loop K E inp nitems self0 hW1 hM1
  generalize fcch_loop K E inp nitems (fcch_start self0) = L at *
  obtain ⟨-, -, -, hcase⟩ := hc
  rcases hs : L.fcch_search_state with _ | _ | _ | _ | _ <;> simp only [hs] at hcase
  · rw [hcase.1] at hend; exact absurd hend (by decide)
  · rw [hcase.1] at hend; exact absurd hend (by decide)
  · rw [hcase.1] at hend; exact absurd hend (by decide)
  · have := hcase.2.2.2.2 hend
    rw [hr] at this
    exact absurd this (by decide)
  · exact ⟨hcase.1, hcase.2.1⟩

/-- C16: with `OSR ≥ 1`, `FCCH_HITS_NEEDED ≥ FCCH_MAX_MISSES ≥ 1`, at least one sample
and phase differences in `[-M_PI, M_PI]`, the number `c` of samples that `find_fcch_burst`
consumes (passed to `consume_each` and added to `d_counter`) satisfies `1 ≤ c ≤ nitems`,
whether the search succeeds or fails, so that `d_counter` grows strictly. -/
theorem find_fcch_burst_consumes_within_input (K : gsm_constants) (E : externals α)
    (self : receiver α) (inp : Int → gr_complex α) (nitems : Int)
    (hOSR : 1 ≤ self.d_OSR) (hM : 1 ≤ K.FCCH_MAX_MISSES)
    (hHM : K.FCCH_MAX_MISSES ≤ K.FCCH_HITS_NEEDED) (hn : 1 ≤ nitems)
    (hpi : 2 * E.M_PI < 99999) (hphase : ∀ s, |phase_diff_at E inp s| ≤ E.M_PI) :
    ∃ c, consumed (find_fcch_burst K E self inp nitems).1.trace = consumed self.trace + c ∧
      (find_fcch_burst K E self inp nitems).1.trace
        = self.trace ++ [call.find_fcch_burst]
          ++ (if (find_fcch_burst K E self inp nitems).2 = true
              then [call.compute_freq_offset] else [])
          ++ [call.consume_each c] ∧
      (find_fcch_burst K E self inp nitems).1.d_counter = self.d_counter + c ∧
      1 ≤ c ∧ c ≤ nitems ∧
      self.d_counter < (find_fcch_burst K E self inp nitems).1.d_counter := by
  have hM1 : 1 ≤ K.FCCH_MAX_MISSES * self.d_OSR := by nlinarith
  have hMW : K.FCCH_MAX_MISSES * self.d_OSR ≤ K.FCCH_HITS_NEEDED * self.d_OSR := by nlinarith
  have hW1 : 1 ≤ K.FCCH_HITS_NEEDED * self.d_OSR := le_trans hM1 hMW
  rcases hr : (find_fcch_burst K E self inp nitems).2 with _ | _
  · obtain ⟨b, hb⟩ := find_fcch_burst_false K E self inp nitems hr
    have hr' : (fcch_loop K E inp nitems (fcch_start (self.log call.find_fcch_burst))).result
        = false := hr
    obtain ⟨h1, h2⟩ := fcch_failure_consumes K E inp nitems (self.log call.find_fcch_burst)
      hW1 hM1 hr'
    rw [max_eq_left hn] at h2
    refine ⟨(fcch_loop K E inp nitems (fcch_start (self.log call.find_fcch_burst))).to_consume,
      ?_, ?_, ?_, h1, h2, ?_⟩
    · rw [hb]; simp [consumed]
    · rw [hb]; simp
    · rw [hb]
    · rw [hb]
      show self.d_counter < self.d_counter + _
      omega
  · obtain ⟨b, sp, hsp', -, hb⟩ := find_fcch_burst_true K E self inp nitems hr
    have hsp := fcch_spread_ok_of_abs E inp nitems (K.FCCH_HITS_NEEDED * self.d_OSR) hW1 hpi
      hphase
    obtain ⟨s, hs, hs1, hs2, -⟩ := find_fcch_burst_recorded K E self inp nitems hW1 hM1 hsp hr
    rw [hsp'] at hs
    refine ⟨sp + K.FCCH_HITS_NEEDED * self.d_OSR + 1, ?_, ?_, ?_, by omega, by omega, ?_⟩
    · rw [hb]; simp [consumed]
    · rw [hb]; simp
    · rw [hb]
    · rw [hb]
      show self.d_counter < self.d_counter + _
      omega

/-- The stand-in arctangent of the examples gives the phase difference 0 on an input that
is zero. -/
theorem phase_diff_at_example_zero (s : Int) :
    phase_diff_at example_externals (fun _ => 0) s = 0 := by
  show (0 : ℚ) * -0 + 0 * 0 = 0
  norm_num

/-- C16, witness: 142 hits needed, `OSR = 4`, 100 samples that are zero. -/
theorem find_fcch_burst_consumes_within_input_witness :
    (1 ≤ (example_receiver 4).d_OSR ∧ 1 ≤ example_constants.FCCH_MAX_MISSES ∧
      example_constants.FCCH_MAX_MISSES ≤ example_constants.FCCH_HITS_NEEDED ∧
      (1 : Int) ≤ 100 ∧ 2 * example_externals.M_PI < 99999 ∧
      ∀ s, |phase_diff_at example_externals (fun _ => 0) s| ≤ example_externals.M_PI) ∧
    ∃ c, (find_fcch_burst example_constants example_externals (example_receiver 4)
        (fun _ => 0) 100).1.d_counter = (example_receiver 4).d_counter + c ∧
      1 ≤ c ∧ c ≤ 100 := by
  have h1 : 2 * example_externals.M_PI < 99999 := by
    show 2 * (355 / 113 : ℚ) < 99999
    norm_num
  have h2 : ∀ s, |phase_diff_at example_externals (fun _ => 0) s| ≤ example_externals.M_PI := by
    intro s
    rw [phase_diff_at_example_zero]
    show |(0 : ℚ)| ≤ 355 / 113
    norm_num
  obtain ⟨c, -, -, hc, hc1, hc2, -⟩ := find_fcch_burst_consumes_within_input example_constants
    example_externals (example_receiver 4) (fun _ => 0) 100 (by decide) (by decide) (by decide)
    (by decide) h1 h2
  exact ⟨⟨by decide, by decide, by decide, by decide, h1, h2⟩, c, hc, hc1, hc2⟩

/-! ## The samples read by the FCCH search, and its termination -/

theorem fcch_in_range_start (nitems : Int) (self0 : receiver α) :
    fcch_in_range nitems self0.d_OSR (fcch_start self0) := by
  refine ⟨rfl, le_refl _, ?_⟩
  show (0 : Int) ≤ max (nitems - 1) 0
  exact le_max_right _ _

/-- Every iteration of the loop of `find_fcch_burst` keeps the range invariant. -/
theorem fcch_in_range_step (K : gsm_constants) (E : externals α) (inp : Int → gr_complex α)
    (nitems osr : Int) (c : fcch_config α) (hW1 : 1 ≤ K.FCCH_HITS_NEEDED * osr)
    (h : fcch_in_range nitems osr c) :
    fcch_in_range nitems osr (fcch_step K E inp nitems c) := by
  obtain ⟨hosr, h0, hcase⟩ := h
  unfold fcch_step
  rcases hst : c.fcch_search_state with _ | _ | _ | _ | _ <;> simp only [hst] at hcase ⊢
  · exact ⟨hosr, h0, hcase⟩
  · unfold fcch_search FCCH_BUFFER_SIZE
    dsimp only
    rw [hosr]
    rw [max_def] at hcase
    split_ifs at hcase ⊢ <;> refine ⟨hosr, by dsimp only; omega, ?_⟩ <;> dsimp only <;> omega
  · obtain ⟨c1, -, -, -, -, -, c7, -, c9⟩ := fcch_count_fields c
    obtain ⟨b1, -, -, -, -, -, -, -, b9, b10⟩ := fcch_best_candidate_fields K E (fcch_count c)
    unfold fcch_found_something
    dsimp only
    split_ifs
    · refine ⟨by show (fcch_count c).self.d_OSR = osr; rw [c1, hosr],
        by show 0 ≤ (fcch_count c).sample_number; rw [c7]; exact h0, ?_⟩
      show (fcch_count c).sample_number ≤ max (nitems - 1) 0
      rw [c7]
      exact le_trans hcase (le_max_left _ _)
    · refine ⟨by show (fcch_count c).self.d_OSR = osr; rw [c1, hosr],
        by show 0 ≤ (fcch_count c).sample_number; rw [c7]; exact h0, ?_⟩
      show (fcch_count c).sample_number ≤ nitems - 1
      rw [c7]
      exact hcase
    · unfold fcch_next_sample
      dsimp only
      rw [b9, c7]
      split_ifs
      · refine ⟨by show (fcch_best_candidate K E (fcch_count c)).self.d_OSR = osr
                   rw [b1, c1, hosr], by dsimp only; omega, ?_⟩
        dsimp only
        rw [max_def]
        split_ifs <;> omega
      · refine ⟨by show (fcch_best_candidate K E (fcch_count c)).self.d_OSR = osr
                   rw [b1, c1, hosr], by dsimp only; omega, ?_⟩
        dsimp only
        omega
    · unfold fcch_next_sample
      dsimp only
      rw [c7]
      split_ifs
      · refine ⟨by show (fcch_count c).self.d_OSR = osr; rw [c1, hosr],
          by dsimp only; omega, ?_⟩
        dsimp only
        rw [max_def]
        split_ifs <;> omega
      · refine ⟨by show (fcch_count c).self.d_OSR = osr; rw [c1, hosr],
          by dsimp only; omega, ?_⟩
        dsimp only
        omega
  · exact ⟨by simp [fcch_fcch_found, compute_freq_offset, receiver.log, hosr],
      by simpa [fcch_fcch_found] using h0, by simpa [fcch_fcch_found, hst] using hcase⟩
  · exact ⟨by simpa [fcch_search_fail] using hosr, by simpa [fcch_search_fail] using h0,
      by simpa [fcch_search_fail, hst] using hcase⟩

/-- The range invariant holds after every number of iterations of the loop. -/
theorem fcch_in_range_run (K : gsm_constants) (E : externals α) (inp : Int → gr_complex α)
    (nitems : Int) (self0 : receiver α) (hW1 : 1 ≤ K.FCCH_HITS_NEEDED * self0.d_OSR) (n : Nat) :
    fcch_in_range nitems self0.d_OSR (fcch_run K E inp nitems (fcch_start self0) n) := by
  induction n with
  | zero => exact fcch_in_range_start nitems self0
  | succ n ih =>
    rcases he : (fcch_run K E inp nitems (fcch_start self0) n).end_ with _ | _
    · rw [fcch_run_succ_of_not_end K E inp nitems _ n he]
      exact fcch_in_range_step K E inp nitems _ _ hW1 ih
    · rw [fcch_run_succ_of_end K E inp nitems _ n he]
      exact ih

theorem fcch_step_search (K : gsm_constants) (E : externals α) (inp : Int → gr_complex α)
    (nitems : Int) (c : fcch_config α) (hst : c.fcch_search_state = fcch_states.search) :
    fcch_step K E inp nitems c = fcch_search K E inp nitems c := by
  unfold fcch_step
  rw [hst]

theorem fcch_step_found_something (K : gsm_constants) (E : externals α)
    (inp : Int → gr_complex α) (nitems : Int) (c : fcch_config α)
    (hst : c.fcch_search_state = fcch_states.found_something) :
    fcch_step K E inp nitems c = fcch_found_something K E inp nitems c := by
  unfold fcch_step
  rw [hst]

/-- The end of `case found_something` when a further sample is left: the sample after
`sample_number` is read. -/
theorem fcch_next_sample_reads (K : gsm_constants) (E : externals α)
    (inp : Int → gr_complex α) (nitems : Int) (d : fcch_config α)
    (hn : ¬ d.sample_number + 1 ≥ nitems) :
    (fcch_next_sample K E inp nitems d).phase_diff
      = compute_phase_diff E (inp (d.sample_number + 1)) (inp (d.sample_number + 1 - 1)) ∧
    (fcch_next_sample K E inp nitems d).sample_number = d.sample_number + 1 := by
  unfold fcch_next_sample
  dsimp only
  rw [if_neg hn]
  exact ⟨rfl, rfl⟩

/-- The sample that an iteration of the loop reads is the one after `sample_number`; its
phase difference is what the iteration leaves in `phase_diff`. -/
theorem fcch_sample_read_spec (K : gsm_constants) (E : externals α) (inp : Int → gr_complex α)
    (nitems : Int) (c : fcch_config α) (s : Int)
    (h : fcch_sample_read K nitems c = some s) :
    s = c.sample_number + 1 ∧
    (c.fcch_search_state = fcch_states.search ∨
      c.fcch_search_state = fcch_states.found_something) ∧
    (c.fcch_search_state = fcch_states.search →
      s ≤ nitems - FCCH_BUFFER_SIZE K * c.self.d_OSR) ∧
    (c.fcch_search_state = fcch_states.found_something → s < nitems) ∧
    (fcch_step K E inp nitems c).phase_diff = compute_phase_diff E (inp s) (inp (s - 1)) ∧
    (fcch_step K E inp nitems c).sample_number = s := by
  unfold fcch_sample_read at h
  rcases hst : c.fcch_search_state with _ | _ | _ | _ | _ <;> simp only [hst] at h
  · exact absurd h (by simp)
  · split_ifs at h with hg
    have hs : c.sample_number + 1 = s := Option.some.inj h
    subst hs
    rw [fcch_step_search K E inp nitems c hst]
    refine ⟨rfl, Or.inl rfl, fun _ => by omega, fun h => by simp at h, ?_, ?_⟩
    · unfold fcch_search
      dsimp only
      rw [if_neg hg]
      split_ifs <;> rfl
    · unfold fcch_search
      dsimp only
      rw [if_neg hg]
      split_ifs <;> rfl
  · split_ifs at h with ha hb hn
    have hs : c.sample_number + 1 = s := Option.some.inj h
    subst hs
    obtain ⟨-, -, -, -, -, -, c7, -, -⟩ := fcch_count_fields c
    obtain ⟨-, -, -, -, -, -, -, -, b9, -⟩ := fcch_best_candidate_fields K E (fcch_count c)
    rw [fcch_step_found_something K E inp nitems c hst]
    have k1 := fcch_next_sample_reads K E inp nitems (fcch_count c) (by rw [c7]; exact hn)
    have k2 := fcch_next_sample_reads K E inp nitems (fcch_best_candidate K E (fcch_count c))
      (by rw [b9, c7]; exact hn)
    rw [c7] at k1
    rw [b9, c7] at k2
    refine ⟨rfl, Or.inr rfl, fun h => by simp at h, fun _ => by omega, ?_, ?_⟩
    · unfold fcch_found_something
      dsimp only
      rw [if_neg ha, if_neg hb]
      split_ifs
      · exact k2.1
      · exact k1.1
    · unfold fcch_found_something
      dsimp only
      rw [if_neg ha, if_neg hb]
      split_ifs
      · exact k2.2
      · exact k1.2
  · exact absurd h (by simp)
  · exact absurd h (by simp)

/-- An iteration of the loop depends on the input only through the two samples of the phase
difference that it reads. -/
theorem fcch_step_congr (K : gsm_constants) (E : externals α) (inp inp2 : Int → gr_complex α)
    (nitems : Int) (c : fcch_config α)
    (h : ∀ s, fcch_sample_read K nitems c = some s → inp2 s = inp s ∧ inp2 (s - 1) = inp (s - 1)) :
    fcch_step K E inp2 nitems c = fcch_step K E inp nitems c := by
  unfold fcch_sample_read at h
  unfold fcch_step
  rcases hst : c.fcch_search_state with _ | _ | _ | _ | _ <;> simp only [hst] at h ⊢
  · unfold fcch_search
    dsimp only
    by_cases hg : c.sample_number + 1 > nitems - FCCH_BUFFER_SIZE K * c.self.d_OSR
    · rw [if_pos hg, if_pos hg]
    · rw [if_neg hg, if_neg hg]
      obtain ⟨e1, e2⟩ := h (c.sample_number + 1) (by rw [if_neg hg])
      rw [e1, e2]
  · obtain ⟨-, -, -, -, -, -, c7, -, -⟩ := fcch_count_fields c
    obtain ⟨-, -, -, -, -, -, -, -, b9, -⟩ := fcch_best_candidate_fields K E (fcch_count c)
    unfold fcch_found_something
    dsimp only
    by_cases ha : (fcch_count c).miss_count ≥ K.FCCH_MAX_MISSES * (fcch_count c).self.d_OSR
        ∧ (fcch_count c).hit_count ≤ K.FCCH_HITS_NEEDED * (fcch_count c).self.d_OSR
    · rw [if_pos ha, if_pos ha]
    · rw [if_neg ha, if_neg ha]
      by_cases hb : ((fcch_count c).miss_count ≥ K.FCCH_MAX_MISSES * (fcch_count c).self.d_OSR
          ∧ (fcch_count c).hit_count > K.FCCH_HITS_NEEDED * (fcch_count c).self.d_OSR)
          ∨ (fcch_count c).hit_count > 2 * K.FCCH_HITS_NEEDED * (fcch_count c).self.d_OSR
      · rw [if_pos hb, if_pos hb]
      · rw [if_neg hb, if_neg hb]
        have key : ∀ d : fcch_config α, d.sample_number = c.sample_number →
            fcch_next_sample K E inp2 nitems d = fcch_next_sample K E inp nitems d := by
          intro d hd
          unfold fcch_next_sample
          dsimp only
          rw [hd]
          by_cases hn : c.sample_number + 1 ≥ nitems
          · rw [if_pos hn, if_pos hn]
          · rw [if_neg hn, if_neg hn]
            obtain ⟨e1, e2⟩ := h (c.sample_number + 1)
              (by rw [if_neg ha, if_neg hb, if_neg hn])
            rw [e1, e2]
        rw [key _ (by rw [b9, c7]), key _ c7]

/-- Under the range invariant, the sample that an iteration reads and the one before it are
among the `nitems` samples supplied. -/
theorem fcch_sample_read_in_bounds (K : gsm_constants) (nitems osr : Int) (c : fcch_config α)
    (hW1 : 1 ≤ K.FCCH_HITS_NEEDED * osr) (hin : fcch_in_range nitems osr c) (s : Int)
    (h : fcch_sample_read K nitems c = some s) :
    1 ≤ s ∧ s ≤ nitems - 1 := by
  obtain ⟨hosr, h0, -⟩ := hin
  unfold fcch_sample_read FCCH_BUFFER_SIZE at h
  rcases hst : c.fcch_search_state with _ | _ | _ | _ | _ <;> simp only [hst] at h
  · exact absurd h (by simp)
  · rw [hosr] at h
    split_ifs at h with hg
    have hs : c.sample_number + 1 = s := Option.some.inj h
    omega
  · split_ifs at h with ha hb hn
    have hs : c.sample_number + 1 = s := Option.some.inj h
    omega
  · exact absurd h (by simp)
  · exact absurd h (by simp)

/-- The loop of `find_fcch_burst` gives the same result on two inputs that agree on the
`nitems` samples supplied. -/
theorem fcch_loop_congr (K : gsm_constants) (E : externals α) (inp inp2 : Int → gr_complex α)
    (nitems osr : Int) (hW1 : 1 ≤ K.FCCH_HITS_NEEDED * osr)
    (hagree : ∀ i, 0 ≤ i → i < nitems → inp2 i = inp i)
    (c : fcch_config α) (hin : fcch_in_range nitems osr c) :
    fcch_loop K E inp2 nitems c = fcch_loop K E inp nitems c := by
  induction c using fcch_loop.induct K E inp nitems with
  | case1 c hend =>
    rw [fcch_loop_end K E inp nitems c hend, fcch_loop_end K E inp2 nitems c hend]
  | case2 c hend ih =>
    have hend : c.end_ = false := by simpa using hend
    rw [fcch_loop_step K E inp nitems c hend, fcch_loop_step K E inp2 nitems c hend]
    have hstep : fcch_step K E inp2 nitems c = fcch_step K E inp nitems c := by
      apply fcch_step_congr
      intro s hs
      obtain ⟨h1, h2⟩ := fcch_sample_read_in_bounds K nitems osr c hW1 hin s hs
      exact ⟨hagree s (by omega) (by omega), hagree (s - 1) (by omega) (by omega)⟩
    rw [hstep]
    exact ih (fcch_in_range_step K E inp nitems osr c hW1 hin)

/-- C18: with `OSR ≥ 1` and `FCCH_HITS_NEEDED ≥ 1`, every call
`compute_phase_diff(in[s], in[s-1])` that `find_fcch_burst` makes, in whichever iteration of
its loop and after any number of restarts through `init`, has `1 ≤ s ≤ nitems - 1`, so that
`s` and `s - 1` index samples supplied; and the call gives the same result on every input
with the same `nitems` first samples. -/
theorem find_fcch_burst_reads_in_bounds (K : gsm_constants) (E : externals α)
    (self : receiver α) (inp : Int → gr_complex α) (nitems : Int)
    (hOSR : 1 ≤ self.d_OSR) (hH : 1 ≤ K.FCCH_HITS_NEEDED) :
    (∀ (n : Nat) (s : Int),
      (fcch_run K E inp nitems (fcch_start (self.log call.find_fcch_burst)) n).end_ = false →
      fcch_sample_read K nitems
        (fcch_run K E inp nitems (fcch_start (self.log call.find_fcch_burst)) n) = some s →
      1 ≤ s ∧ s ≤ nitems - 1 ∧ 0 ≤ s - 1 ∧ s - 1 ≤ nitems - 1 ∧
      (fcch_run K E inp nitems (fcch_start (self.log call.find_fcch_burst)) (n + 1)).phase_diff
        = compute_phase_diff E (inp s) (inp (s - 1))) ∧
    (∀ inp2 : Int → gr_complex α, (∀ i, 0 ≤ i → i < nitems → inp2 i = inp i) →
      find_fcch_burst K E self inp2 nitems = find_fcch_burst K E self inp nitems) := by
  have hW1 : 1 ≤ K.FCCH_HITS_NEEDED * (self.log call.find_fcch_burst).d_OSR := by
    show 1 ≤ K.FCCH_HITS_NEEDED * self.d_OSR
    nlinarith
  refine ⟨fun n s hend hs => ?_, fun inp2 hagree => ?_⟩
  · have hin := fcch_in_range_run K E inp nitems (self.log call.find_fcch_burst) hW1 n
    obtain ⟨h1, h2⟩ := fcch_sample_read_in_bounds K nitems _ _ hW1 hin s hs
    obtain ⟨-, -, -, -, hp, -⟩ := fcch_sample_read_spec K E inp nitems _ s hs
    rw [fcch_run_succ_of_not_end K E inp nitems _ n hend]
    exact ⟨h1, h2, by omega, by omega, hp⟩
  · unfold find_fcch_burst
    dsimp only
    rw [fcch_loop_congr K E inp inp2 nitems _ hW1 hagree _
      (fcch_in_range_start nitems (self.log call.find_fcch_burst))]

/-- C18, witness: four samples of the rotating tone, with one hit needed and `OSR = 1`. -/
theorem find_fcch_burst_reads_in_bounds_witness :
    ((1 : Int) ≤ (example_receiver 1).d_OSR ∧ 1 ≤ small_constants.FCCH_HITS_NEEDED) ∧
    ∀ inp2 : Int → gr_complex ℚ, (∀ i, 0 ≤ i → i < 4 → inp2 i = rotating_tone i) →
      find_fcch_burst small_constants example_externals (example_receiver 1) inp2 4
        = find_fcch_burst small_constants example_externals (example_receiver 1)
            rotating_tone 4 :=
  ⟨⟨by decide, by decide⟩,
    (find_fcch_burst_reads_in_bounds small_constants example_externals (example_receiver 1)
      rotating_tone 4 (by decide) (by decide)).2⟩

/-! ## Termination of the FCCH search -/

/-- Every iteration of the loop of `find_fcch_burst` lowers the measure of the loop. -/
theorem fcch_measure_step (K : gsm_constants) (E : externals α) (inp : Int → gr_complex α)
    (nitems : Int) (c : fcch_config α) (h : c.end_ = false) :
    fcch_measure K nitems (fcch_step K E inp nitems c) < fcch_measure K nitems c := by
  have hs : ∀ d : fcch_config α, fcch_measure K nitems (fcch_search K E inp nitems d)
      < 2 + 3 * (nitems + 1 + (-(FCCH_BUFFER_SIZE K * d.self.d_OSR)).toNat
          - d.sample_number).toNat := by
    intro d
    unfold fcch_search fcch_measure
    dsimp only
    split_ifs <;> dsimp only at * <;> omega
  have hn : ∀ d : fcch_config α, fcch_measure K nitems (fcch_next_sample K E inp nitems d)
      < 4 + 3 * (nitems + 1 + (-(FCCH_BUFFER_SIZE K * d.self.d_OSR)).toNat
          - d.sample_number).toNat := by
    intro d
    unfold fcch_next_sample fcch_measure
    dsimp only
    split_ifs <;> dsimp only at * <;> omega
  have hb := hn (fcch_count c)
  have hc := hn (fcch_best_candidate K E (fcch_count c))
  have e1 : (fcch_count c).self = c.self := by unfold fcch_count; split_ifs <;> rfl
  have e2 : (fcch_count c).sample_number = c.sample_number := by
    unfold fcch_count; split_ifs <;> rfl
  have e3 : (fcch_best_candidate K E (fcch_count c)).self.d_OSR = c.self.d_OSR := by
    unfold fcch_best_candidate; dsimp only; split_ifs <;> simp [e1]
  have e4 : (fcch_best_candidate K E (fcch_count c)).sample_number = c.sample_number := by
    unfold fcch_best_candidate; dsimp only; split_ifs <;> simp [e2]
  rw [e1, e2] at hb
  rw [e3, e4] at hc
  unfold fcch_step
  rcases hst : c.fcch_search_state with _ | _ | _ | _ | _ <;> simp only [hst]
  · have key : fcch_measure K nitems c = 3 + 3 * (nitems + 1
        + (-(FCCH_BUFFER_SIZE K * c.self.d_OSR)).toNat - c.sample_number).toNat := by
      unfold fcch_measure; rw [h, hst]; rfl
    rw [key]
    simp [fcch_measure, fcch_init, h]
  · have key : fcch_measure K nitems c = 2 + 3 * (nitems + 1
        + (-(FCCH_BUFFER_SIZE K * c.self.d_OSR)).toNat - c.sample_number).toNat := by
      unfold fcch_measure; rw [h, hst]; rfl
    rw [key]
    exact hs c
  · have key : fcch_measure K nitems c = 4 + 3 * (nitems + 1
        + (-(FCCH_BUFFER_SIZE K * c.self.d_OSR)).toNat - c.sample_number).toNat := by
      unfold fcch_measure; rw [h, hst]; rfl
    rw [key]
    unfold fcch_found_something
    dsimp only
    split_ifs
    · simp only [fcch_measure, e1, e2]
      split_ifs <;> omega
    · simp only [fcch_measure]
      split_ifs <;> omega
    · exact hc
    · exact hb
  · have key : fcch_measure K nitems c = 1 := by
      unfold fcch_measure; rw [h, hst]; rfl
    rw [key]
    simp [fcch_measure, fcch_fcch_found]
  · have key : fcch_measure K nitems c = 1 := by
      unfold fcch_measure; rw [h, hst]; rfl
    rw [key]
    simp [fcch_measure, fcch_search_fail]

/-- The measure of the loop is 0 exactly when the loop has ended. -/
theorem fcch_measure_eq_zero {β : Type} (K : gsm_constants) (nitems : Int)
    (c : fcch_config β) :
    fcch_measure K nitems c = 0 ↔ c.end_ = true := by
  unfold fcch_measure
  dsimp only
  rcases he : c.end_ with _ | _
  · rcases hst : c.fcch_search_state with _ | _ | _ | _ | _ <;> simp
  · simp

/-- After `n` iterations the loop has ended or its measure has gone down by `n`. -/
theorem fcch_measure_run (K : gsm_constants) (E : externals α) (inp : Int → gr_complex α)
    (nitems : Int) (c0 : fcch_config α) (n : Nat) :
    (fcch_run K E inp nitems c0 n).end_ = true ∨
      fcch_measure K nitems (fcch_run K E inp nitems c0 n) + n ≤ fcch_measure K nitems c0 := by
  induction n with
  | zero => right; exact le_refl _
  | succ n ih =>
    rcases he : (fcch_run K E inp nitems c0 n).end_ with _ | _
    · rw [fcch_run_succ_of_not_end K E inp nitems _ n he]
      rcases ih with h | h
      · rw [he] at h; exact absurd h (by decide)
      · right
        have := fcch_measure_step K E inp nitems _ he
        omega
    · rw [fcch_run_succ_of_end K E inp nitems _ n he]
      left; exact he

/-- The loop returns the configuration of any iteration at which it has ended. -/
theorem fcch_loop_eq_run_of_end (K : gsm_constants) (E : externals α)
    (inp : Int → gr_complex α) (nitems : Int) (c0 : fcch_config α) (n : Nat)
    (h : (fcch_run K E inp nitems c0 n).end_ = true) :
    fcch_loop K E inp nitems c0 = fcch_run K E inp nitems c0 n := by
  have key : ∀ m, fcch_loop K E inp nitems c0
      = fcch_loop K E inp nitems (fcch_run K E inp nitems c0 m) := by
    intro m
    induction m with
    | zero => rfl
    | succ m ih =>
      rcases he : (fcch_run K E inp nitems c0 m).end_ with _ | _
      · rw [fcch_run_succ_of_not_end K E inp nitems _ m he, ih,
          fcch_loop_step K E inp nitems _ he]
      · rw [fcch_run_succ_of_end K E inp nitems _ m he]
        exact ih
  rw [key n, fcch_loop_end K E inp nitems _ h]

/-- What an iteration of the loop does to `sample_number`: it never lowers it, `init` hands
over to `search` without changing it, `search` adds one to it, and so does
`found_something` when it goes on with the same candidate. -/
theorem fcch_step_sample_number (K : gsm_constants) (E : externals α)
    (inp : Int → gr_complex α) (nitems : Int) (c : fcch_config α) :
    c.sample_number ≤ (fcch_step K E inp nitems c).sample_number ∧
    (c.fcch_search_state = fcch_states.init →
      (fcch_step K E inp nitems c).fcch_search_state = fcch_states.search ∧
      (fcch_step K E inp nitems c).sample_number = c.sample_number) ∧
    (c.fcch_search_state = fcch_states.search →
      (fcch_step K E inp nitems c).sample_number = c.sample_number + 1) ∧
    (c.fcch_search_state = fcch_states.found_something →
      (fcch_step K E inp nitems c).fcch_search_state = fcch_states.found_something →
      (fcch_step K E inp nitems c).sample_number = c.sample_number + 1) ∧
    (c.end_ = false →
      (c.fcch_search_state = fcch_states.init ∨ c.fcch_search_state = fcch_states.search
        ∨ c.fcch_search_state = fcch_states.found_something) →
      (fcch_step K E inp nitems c).end_ = false) ∧
    ((c.fcch_search_state = fcch_states.fcch_found
        ∨ c.fcch_search_state = fcch_states.search_fail) →
      (fcch_step K E inp nitems c).fcch_search_state = c.fcch_search_state) := by
  obtain ⟨-, c2, -, -, -, -, c7, -, c9⟩ := fcch_count_fields c
  obtain ⟨-, -, b3, -, -, -, -, -, b9, -⟩ := fcch_best_candidate_fields K E (fcch_count c)
  have hn : ∀ d : fcch_config α,
      (fcch_next_sample K E inp nitems d).sample_number = d.sample_number + 1 ∧
      (fcch_next_sample K E inp nitems d).end_ = d.end_ := by
    intro d
    unfold fcch_next_sample
    dsimp only
    split_ifs <;> exact ⟨rfl, rfl⟩
  have hf : (fcch_found_something K E inp nitems c).end_ = c.end_ ∧
      c.sample_number ≤ (fcch_found_something K E inp nitems c).sample_number ∧
      ((fcch_found_something K E inp nitems c).fcch_search_state = fcch_states.found_something →
        (fcch_found_something K E inp nitems c).sample_number = c.sample_number + 1) := by
    unfold fcch_found_something
    dsimp only
    split_ifs
    · exact ⟨c2, le_of_eq c7.symm, fun h => by simp at h⟩
    · exact ⟨c2, le_of_eq c7.symm, fun h => by simp at h⟩
    · refine ⟨by rw [(hn _).2, b3, c2], by rw [(hn _).1, b9, c7]; omega,
        fun _ => by rw [(hn _).1, b9, c7]⟩
    · refine ⟨by rw [(hn _).2, c2], by rw [(hn _).1, c7]; omega, fun _ => by rw [(hn _).1, c7]⟩
  have hs : (fcch_search K E inp nitems c).sample_number = c.sample_number + 1 ∧
      (fcch_search K E inp nitems c).end_ = c.end_ := by
    unfold fcch_search
    dsimp only
    split_ifs <;> exact ⟨rfl, rfl⟩
  unfold fcch_step
  rcases hst : c.fcch_search_state with _ | _ | _ | _ | _ <;> dsimp only
  · exact ⟨le_refl _, fun _ => ⟨rfl, rfl⟩, fun h => by simp at h, fun h => by simp at h,
      fun he _ => he, fun h => by simp at h⟩
  · exact ⟨by rw [hs.1]; omega, fun h => by simp at h, fun _ => hs.1, fun h => by simp at h,
      fun he _ => by rw [hs.2]; exact he, fun h => by simp at h⟩
  · exact ⟨hf.2.1, fun h => by simp at h, fun h => by simp at h, fun _ => hf.2.2,
      fun he _ => by rw [hf.1]; exact he, fun h => by simp at h⟩
  · exact ⟨le_refl _, fun h => by simp at h, fun h => by simp at h, fun h => by simp at h,
      fun _ h => by simp at h, fun _ => hst⟩
  · exact ⟨le_refl _, fun h => by simp at h, fun h => by simp at h, fun h => by simp at h,
      fun _ h => by simp at h, fun _ => hst⟩

/-- The loop ends only in `fcch_found` or in `search_fail`. -/
theorem fcch_run_end_state (K : gsm_constants) (E : externals α) (inp : Int → gr_complex α)
    (nitems : Int) (self0 : receiver α) (n : Nat)
    (h : (fcch_run K E inp nitems (fcch_start self0) n).end_ = true) :
    (fcch_run K E inp nitems (fcch_start self0) n).fcch_search_state = fcch_states.fcch_found ∨
    (fcch_run K E inp nitems (fcch_start self0) n).fcch_search_state
      = fcch_states.search_fail := by
  induction n with
  | zero => exact absurd h (by simp [fcch_run, fcch_start])
  | succ n ih =>
    rcases he : (fcch_run K E inp nitems (fcch_start self0) n).end_ with _ | _
    · rw [fcch_run_succ_of_not_end K E inp nitems _ n he] at h ⊢
      obtain ⟨-, -, -, -, h5, h6⟩ := fcch_step_sample_number K E inp nitems
        (fcch_run K E inp nitems (fcch_start self0) n)
      rcases hst : (fcch_run K E inp nitems (fcch_start self0) n).fcch_search_state
        with _ | _ | _ | _ | _
      · rw [h5 he (Or.inl hst)] at h; exact absurd h (by decide)
      · rw [h5 he (Or.inr (Or.inl hst))] at h; exact absurd h (by decide)
      · rw [h5 he (Or.inr (Or.inr hst))] at h; exact absurd h (by decide)
      · left; rw [h6 (Or.inl hst), hst]
      · right; rw [h6 (Or.inr hst), hst]
    · rw [fcch_run_succ_of_end K E inp nitems _ n he]
      exact ih he

/-- C19: with `OSR ≥ 1` and `FCCH_HITS_NEEDED ≥ 1`, on any input and for any `nitems`, the
loop of `find_fcch_burst` ends after at most `3 * nitems + 6` iterations (`6` when `nitems`
is negative), in `fcch_found` or in `search_fail`, and returns the configuration reached
there. Along the way `sample_number` never decreases and stays between 0 and
`max nitems 1`; `init` hands over to `search` without changing it, `search` adds one to it,
and `found_something` adds one to it whenever it goes on with the same candidate. -/
theorem find_fcch_burst_loop_terminates (K : gsm_constants) (E : externals α)
    (inp : Int → gr_complex α) (nitems : Int) (self0 : receiver α)
    (hOSR : 1 ≤ self0.d_OSR) (hH : 1 ≤ K.FCCH_HITS_NEEDED) :
    (∃ n : Nat, n ≤ 3 * nitems.toNat + 6 ∧
      (fcch_run K E inp nitems (fcch_start self0) n).end_ = true ∧
      ((fcch_run K E inp nitems (fcch_start self0) n).fcch_search_state
          = fcch_states.fcch_found ∨
        (fcch_run K E inp nitems (fcch_start self0) n).fcch_search_state
          = fcch_states.search_fail) ∧
      fcch_loop K E inp nitems (fcch_start self0)
        = fcch_run K E inp nitems (fcch_start self0) n) ∧
    (∀ m : Nat, 0 ≤ (fcch_run K E inp nitems (fcch_start self0) m).sample_number ∧
      (fcch_run K E inp nitems (fcch_start self0) m).sample_number ≤ max nitems 1) ∧
    (∀ m : Nat, (fcch_run K E inp nitems (fcch_start self0) m).sample_number
      ≤ (fcch_run K E inp nitems (fcch_start self0) (m + 1)).sample_number) ∧
    (∀ m : Nat, (fcch_run K E inp nitems (fcch_start self0) m).end_ = false →
      ((fcch_run K E inp nitems (fcch_start self0) m).fcch_search_state = fcch_states.init →
        (fcch_run K E inp nitems (fcch_start self0) (m + 1)).fcch_search_state
          = fcch_states.search ∧
        (fcch_run K E inp nitems (fcch_start self0) (m + 1)).sample_number
          = (fcch_run K E inp nitems (fcch_start self0) m).sample_number) ∧
      ((fcch_run K E inp nitems (fcch_start self0) m).fcch_search_state = fcch_states.search →
        (fcch_run K E inp nitems (fcch_start self0) (m + 1)).sample_number
          = (fcch_run K E inp nitems (fcch_start self0) m).sample_number + 1) ∧
      ((fcch_run K E inp nitems (fcch_start self0) m).fcch_search_state
          = fcch_states.found_something →
        (fcch_run K E inp nitems (fcch_start self0) (m + 1)).fcch_search_state
          = fcch_states.found_something →
        (fcch_run K E inp nitems (fcch_start self0) (m + 1)).sample_number
          = (fcch_run K E inp nitems (fcch_start self0) m).sample_number + 1)) := by
  have hW1 : 1 ≤ K.FCCH_HITS_NEEDED * self0.d_OSR := by nlinarith
  refine ⟨?_, fun m => ?_, fun m => ?_, fun m hend => ?_⟩
  · have hm0 : fcch_measure K nitems (fcch_start self0) ≤ 3 * nitems.toNat + 6 := by
      unfold fcch_measure FCCH_BUFFER_SIZE fcch_start
      dsimp only
      simp only [Bool.false_eq_true, if_false]
      omega
    have hend : (fcch_run K E inp nitems (fcch_start self0)
        (fcch_measure K nitems (fcch_start self0))).end_ = true := by
      rcases fcch_measure_run K E inp nitems (fcch_start self0)
        (fcch_measure K nitems (fcch_start self0)) with h | h
      · exact h
      · exact (fcch_measure_eq_zero K nitems _).1 (by omega)
    exact ⟨_, hm0, hend, fcch_run_end_state K E inp nitems self0 _ hend,
      fcch_loop_eq_run_of_end K E inp nitems _ _ hend⟩
  · obtain ⟨-, h0, hcase⟩ := fcch_in_range_run K E inp nitems self0 hW1 m
    refine ⟨h0, ?_⟩
    rcases hst : (fcch_run K E inp nitems (fcch_start self0) m).fcch_search_state
      with _ | _ | _ | _ | _ <;> simp only [hst] at hcase
    · rw [max_def] at hcase ⊢; split_ifs at hcase ⊢ <;> omega
    · rw [max_def] at hcase ⊢; split_ifs at hcase ⊢ <;> omega
    · rw [max_def]; split_ifs <;> omega
    · rw [max_def]; split_ifs <;> omega
    · exact hcase
  · rcases he : (fcch_run K E inp nitems (fcch_start self0) m).end_ with _ | _
    · rw [fcch_run_succ_of_not_end K E inp nitems _ m he]
      exact (fcch_step_sample_number K E inp nitems _).1
    · rw [fcch_run_succ_of_end K E inp nitems _ m he]
  · rw [fcch_run_succ_of_not_end K E inp nitems _ m hend]
    obtain ⟨-, h2, h3, h4, -, -⟩ := fcch_step_sample_number K E inp nitems
      (fcch_run K E inp nitems (fcch_start self0) m)
    exact ⟨h2, h3, h4⟩

/-- C19, witness: 142 hits needed, `OSR = 4`, 100 samples. -/
theorem find_fcch_burst_loop_terminates_witness :
    ((1 : Int) ≤ (example_receiver 4).d_OSR ∧ 1 ≤ example_constants.FCCH_HITS_NEEDED) ∧
    ∃ n : Nat, n ≤ 3 * (100 : Int).toNat + 6 ∧
      (fcch_run example_constants example_externals (fun _ => 0) 100
        (fcch_start (example_receiver 4)) n).end_ = true :=
  ⟨⟨by decide, by decide⟩,
    (find_fcch_burst_loop_terminates example_constants example_externals (fun _ => 0) 100
      (example_receiver 4) (by decide) (by decide)).1.imp (fun _ h => ⟨h.1, h.2.1⟩)⟩

/-! ## The candidate of a successful FCCH search -/

end GsmReceiver
